import Mathlib

/-!
# Genesis: a verification development

Shallow embedding of parts of `voidshard/genesis`:

* `internal/voronoi`   : `pythagoras`, `graph.ClosestPoint`, `newGraph`, `graph.Marshal`,
  `graph.Unmarshal`, `toDecimal`, the closure `edgeId` of `randomVoronoi`
* `internal/geography` : `determineSea`, `determineLand` (flood fills of `sea.go`),
  `trimPath`, `incrUint8`, `edgePoints`, `Rain` and its bands, the grid of `bucket.go`,
  `AddRavine`, `AddMountainRange`, `AddVolanoes`, `SmoothTerrain`, `FlattenOutside`,
  `HeightMap`, `cachedHeightmap`, `NextEpoch`
* `internal/dijkstra`  : `New`, `SetWeights`, `IncrWeights`, `IncrWeightsOutside`,
  `Neighbours`, `Shortest`
* `pkg/types`          : `Dice`, `Project`

Go `int` values are modelled by `Int`; where the source adds two of them the
sum is wrapped to 64 bits (`wrapInt`).  Go maps are association lists; the
order of such a list stands for the (unspecified) order in which `range`
walks the map.  The `float64` operations of `trimPath` (the running total and
its comparison) are a parameter, `FloatOps`, of which no law is assumed.
-/

namespace Genesis

/-- Go `image.Point`. -/
structure Point where
  X : Int
  Y : Int
deriving DecidableEq, Repr

/-- Go `image.Rectangle` (`Min` and `Max` corner). -/
structure Rect where
  MinX : Int
  MinY : Int
  MaxX : Int
  MaxY : Int
deriving DecidableEq, Repr

/-- The integers `lo, lo+1, ..., hi-1`: the values taken by `for i := lo; i < hi; i++`. -/
def rangeInt (lo hi : Int) : List Int :=
  (List.range (hi - lo).toNat).map (fun (i : Nat) => lo + (i : Int))

/-! ## internal/voronoi -/

namespace Voronoi

/-- Radicand of `pythagoras(a, b)` (`voronoi/utils.go`), which returns
`math.Sqrt(math.Pow(float64(a.X+b.X), 2) + math.Pow(float64(a.Y+b.Y), 2))`.
The only use of the result is the comparison `d < dist` of `ClosestPoint`;
the square root is monotone, so the model compares the radicands. -/
def pythagorasSq (a b : Point) : Int :=
  (a.X + b.X) ^ 2 + (a.Y + b.Y) ^ 2

/-- Square of the Euclidean distance between two points (what the claim
speaks about; `geography/utils.go: distBetween` computes its root). -/
def euclidSq (a b : Point) : Int :=
  (a.X - b.X) ^ 2 + (a.Y - b.Y) ^ 2

/-- One round of the loop of `ClosestPoint`: `acc` is `(dist, pnt)`. -/
def closestStep (p : Point) (acc : Int × Point) (q : Point) : Int × Point :=
  if pythagorasSq p q < acc.1 then (pythagorasSq p q, q) else acc

/-- Model of `graph.ClosestPoint` (`voronoi/graph.go`) over `g.Vertices`.
`none` stands for the index panic of `g.Vertices[0]` on an empty list. -/
def ClosestPoint (vertices : List Point) (p : Point) : Option Point :=
  match vertices with
  | [] => none
  | v0 :: rest => some (rest.foldl (closestStep p) (pythagorasSq p v0, v0)).2

end Voronoi

/-! ## internal/geography: canvases -/

namespace Geography

/-- An 8-bit RGB colour (alpha is 255 wherever the modelled code sets one). -/
structure Color where
  R : Nat
  G : Nat
  B : Nat
deriving DecidableEq, Repr

/-- Point lies in the rectangle (Go: `Min <= p < Max`). -/
def rectContains (r : Rect) (p : Point) : Bool :=
  decide (r.MinX ≤ p.X) && decide (p.X < r.MaxX) && decide (r.MinY ≤ p.Y) && decide (p.Y < r.MaxY)

/-- A `paint.Canvas`: its bounds and the colour of every pixel.  The
raster library itself is outside the repository; a canvas holds pixels
only inside its bounds. -/
structure Canvas where
  bounds : Rect
  pix : Point → Color

/-- A blank canvas of `w` by `h` pixels (`Painter.Canvas` on a name never saved). -/
def Canvas.blank (w h : Int) : Canvas :=
  { bounds := ⟨0, 0, w, h⟩, pix := fun _ => ⟨0, 0, 0⟩ }

/-- Model of `Canvas.Set(x, y, c)` with no mask set. -/
def Canvas.Set (c : Canvas) (p : Point) (col : Color) : Canvas :=
  if rectContains c.bounds p then { c with pix := fun q => if q = p then col else c.pix q } else c

/-- Model of `Canvas.B(x, y)`: the blue channel. -/
def Canvas.B (c : Canvas) (p : Point) : Nat := (c.pix p).B

/-- The bounds test of both flood fills: `0 <= p.X < w` and `0 <= p.Y < h`. -/
def inWorld (w h : Int) (p : Point) : Bool :=
  decide (0 ≤ p.X) && decide (p.X < w) && decide (0 ≤ p.Y) && decide (p.Y < h)

/-- The pixels visited by `for px := X-1; px <= X+1` / `for py := Y-1; py <= Y+1`,
in loop order (the centre included: the loop body skips it). -/
def around (p : Point) : List Point :=
  [⟨p.X - 1, p.Y - 1⟩, ⟨p.X - 1, p.Y⟩, ⟨p.X - 1, p.Y + 1⟩,
   ⟨p.X, p.Y - 1⟩, ⟨p.X, p.Y⟩, ⟨p.X, p.Y + 1⟩,
   ⟨p.X + 1, p.Y - 1⟩, ⟨p.X + 1, p.Y⟩, ⟨p.X + 1, p.Y + 1⟩]

/-- The worklist update `stack[0] = stack[len(stack)-1]; stack = stack[:len(stack)-1]`. -/
def popFront (stack : List Point) : List Point :=
  match stack with
  | [] => []
  | _ :: rest =>
    match rest.getLast? with
    | none => []
    | some l => l :: rest.dropLast

/-- The pixels of a rectangle in scan order (`dy` outer loop, `dx` inner loop). -/
def scanOrder (bnds : Rect) : List Point :=
  (rangeInt bnds.MinY bnds.MaxY).flatMap (fun dy =>
    (rangeInt bnds.MinX bnds.MaxX).map (fun dx => (⟨dx, dy⟩ : Point)))

/-! ### determineSea (`geography/sea.go`) -/

/-- The colour `seaColor = color.RGBA{0, 0, 255, 255}`. -/
def seaColor : Color := ⟨0, 0, 255⟩

/-- State of the flood fill of `determineSea`: the worklist `stack`, the
set `seen` and the canvas `sea`. -/
structure SeaFlood where
  stack : List Point
  seen : List Point
  sea : Canvas

/-- The border probes of `determineSea`, in the order the two seeding loops
make them: `(dx, 0)` and `(dx, H-1)` for every column, then `(0, dy)` and
`(W-1, dy)` for every row. -/
def seaSeeds (w h : Int) : List Point :=
  (rangeInt 0 w).flatMap (fun dx => [(⟨dx, 0⟩ : Point), ⟨dx, h - 1⟩]) ++
  (rangeInt 0 h).flatMap (fun dy => [(⟨0, dy⟩ : Point), ⟨w - 1, dy⟩])

/-- One border probe: a pixel at or below sea level is marked seen, painted
and pushed (without looking at `seen`). `hmap p` is `u8(r)` of `hmap.At(p)`. -/
def seedSea (hmap : Point → Nat) (sealevel : Nat) (st : SeaFlood) (i : Point) : SeaFlood :=
  if hmap i ≤ sealevel then
    { stack := st.stack ++ [i], seen := i :: st.seen, sea := st.sea.Set i seaColor }
  else st

/-- Body of the two nested neighbour loops of `determineSea` for the
candidate `c` around `next`. -/
def visitSea (w h : Int) (hmap : Point → Nat) (sealevel : Nat) (next : Point)
    (st : SeaFlood) (c : Point) : SeaFlood :=
  if c.X < 0 ∨ c.X ≥ w then st
  else if c.Y < 0 ∨ c.Y ≥ h then st
  else if c.X = next.X ∧ c.Y = next.Y then st
  else if c ∈ st.seen then st
  else if hmap c > sealevel then { st with seen := c :: st.seen }
  else { stack := st.stack ++ [c], seen := c :: st.seen, sea := st.sea.Set c seaColor }

/-- The `for { ... }` loop of `determineSea`; every round costs one unit of
fuel, `none` when the fuel runs out before the worklist is empty. -/
def floodSea (w h : Int) (hmap : Point → Nat) (sealevel : Nat) : Nat → SeaFlood → Option SeaFlood
  | fuel, st =>
    match st.stack with
    | [] => some st
    | next :: _ =>
      match fuel with
      | 0 => none
      | fuel + 1 =>
        let st1 := (around next).foldl (visitSea w h hmap sealevel next) st
        floodSea w h hmap sealevel fuel { st1 with stack := popFront st1.stack }

/-- State of `determineSea` after the two seeding loops. -/
def seededSea (w h : Int) (hmap : Point → Nat) (sealevel : Nat) : SeaFlood :=
  (seaSeeds w h).foldl (seedSea hmap sealevel) ⟨[], [], Canvas.blank w h⟩

/-- Model of `Editor.determineSea` for a world of `w` by `h` pixels: the
temporary sea canvas it returns.  The fuel is the length of the seeded
worklist plus the number of pixels of the world (shown to be enough below). -/
def determineSea (w h : Int) (hmap : Point → Nat) (sealevel : Nat) : Option Canvas :=
  let st0 := seededSea w h hmap sealevel
  (floodSea w h hmap sealevel (st0.stack.length + (scanOrder ⟨0, 0, w, h⟩).length) st0).map
    (fun st => st.sea)

/-- Pixel `p` is painted as sea on the canvas (`B > 0`, the test of `determineLand`). -/
def isSea (c : Canvas) (p : Point) : Prop := 0 < c.B p

/-- Two distinct pixels that touch, diagonals included. -/
def adjacent8 (p q : Point) : Prop :=
  p ≠ q ∧ p.X - 1 ≤ q.X ∧ q.X ≤ p.X + 1 ∧ p.Y - 1 ≤ q.Y ∧ q.Y ≤ p.Y + 1

/-- Pixel lies on the border of the world. -/
def onBorder (w h : Int) (p : Point) : Prop :=
  p.X = 0 ∨ p.X = w - 1 ∨ p.Y = 0 ∨ p.Y = h - 1

/-- Pixel of the world whose height is at or below the sea level. -/
def lowPixel (w h : Int) (hmap : Point → Nat) (sealevel : Nat) (p : Point) : Prop :=
  inWorld w h p = true ∧ hmap p ≤ sealevel

/-- Pixel `p` is joined to the border by a chain of low pixels: `chain`
starts at `p`, ends at a border pixel, consecutive pixels are adjacent and
every pixel of it (so `p` too) is a low pixel of the world. -/
def SeaChain (w h : Int) (hmap : Point → Nat) (sealevel : Nat) (p : Point) : Prop :=
  ∃ chain : List Point,
    chain.head? = some p ∧
    (∃ b, chain.getLast? = some b ∧ onBorder w h b) ∧
    List.Chain' adjacent8 chain ∧
    ∀ q ∈ chain, lowPixel w h hmap sealevel q

/-- Pixel `p` is a low pixel that the flood can reach: a low border pixel,
or a low pixel adjacent to a reachable one. -/
inductive SeaReach (w h : Int) (hmap : Point → Nat) (sealevel : Nat) : Point → Prop where
  | seed (p : Point) : lowPixel w h hmap sealevel p → onBorder w h p →
      SeaReach w h hmap sealevel p
  | step (p q : Point) : SeaReach w h hmap sealevel p → adjacent8 p q →
      lowPixel w h hmap sealevel q → SeaReach w h hmap sealevel q

/-- Termination measure of the flood fill of `determineSea`: length of the
worklist plus the number of pixels of the world not yet seen. -/
def seaMeasure (w h : Int) (st : SeaFlood) : Nat :=
  st.stack.length + ((scanOrder ⟨0, 0, w, h⟩).filter (fun p => decide (p ∉ st.seen))).length

/-- Invariant of the loops of `determineSea`; `probed` are the border probes made so far. -/
structure SeaInv (w h : Int) (hmap : Point → Nat) (sealevel : Nat) (probed : List Point)
    (st : SeaFlood) : Prop where
  bounds : st.sea.bounds = ⟨0, 0, w, h⟩
  sound : ∀ p, isSea st.sea p → SeaReach w h hmap sealevel p
  seenLow : ∀ p, p ∈ st.seen → lowPixel w h hmap sealevel p → isSea st.sea p
  stackSea : ∀ p, p ∈ st.stack → inWorld w h p = true → isSea st.sea p
  stackIn : 0 < w → 0 < h → ∀ p, p ∈ st.stack → inWorld w h p = true
  closed : ∀ p, isSea st.sea p →
    p ∈ st.stack ∨ ∀ q, adjacent8 p q → inWorld w h q = true → q ∈ st.seen
  seeds : ∀ p, p ∈ probed → lowPixel w h hmap sealevel p → isSea st.sea p

/-- The flood only grows: the worklist is extended at its end, `seen` grows
and the measure does not increase. -/
def SeaGrow (w h : Int) (st st1 : SeaFlood) : Prop :=
  (∃ extra, st1.stack = st.stack ++ extra) ∧ (∀ p, p ∈ st.seen → p ∈ st1.seen) ∧
  seaMeasure w h st1 ≤ seaMeasure w h st

/-! ### determineLand (`geography/sea.go`) -/

/-- The fields of `types.Landmass` computed by `determineLand` (the project
id, the epoch and the random `ID` are left out). -/
structure Landmass where
  Size : Nat
  ColorR : Nat
  ColorG : Nat
  FirstX : Int
  FirstY : Int
deriving DecidableEq, Repr

/-- Model of `splitUint16`: `(uint8(in >> 8), uint8(in))`. -/
def splitUint16 (n : Nat) : Nat × Nat := ((n / 256) % 256, n % 256)

/-- Model of `combineUint16`: `uint16(int(a)<<8 + int(b))`. -/
def combineUint16 (a b : Nat) : Nat := (a * 256 + b) % 65536

/-- State of the inner flood fill of `determineLand`. -/
structure LandFlood where
  stack : List Point
  seen : List Point
  sea : Canvas
  size : Nat

/-- Body of the neighbour loops of `determineLand` for candidate `c` around `next`. -/
def visitLand (bnds : Rect) (landColor : Color) (next : Point)
    (st : LandFlood) (c : Point) : LandFlood :=
  if c.X < bnds.MinX ∨ c.X ≥ bnds.MaxX then st
  else if c.Y < bnds.MinY ∨ c.Y ≥ bnds.MaxY then st
  else if c.X = next.X ∧ c.Y = next.Y then st
  else if st.sea.B c > 0 then st
  else if c ∈ st.seen then st
  else { stack := st.stack ++ [c], seen := c :: st.seen,
         sea := st.sea.Set c landColor, size := st.size + 1 }

/-- The inner `for { ... }` loop of `determineLand`: runs until the
worklist is empty, one unit of fuel per round. -/
def floodLand (bnds : Rect) (landColor : Color) : Nat → LandFlood → Option LandFlood
  | fuel, st =>
    match st.stack with
    | [] => some st
    | next :: _ =>
      match fuel with
      | 0 => none
      | fuel + 1 =>
        let st1 := (around next).foldl (visitLand bnds landColor next) st
        floodLand bnds landColor fuel { st1 with stack := popFront st1.stack }

/-- State of the scan of `determineLand`. -/
structure LandScan where
  seen : List Point
  sea : Canvas
  found : List Landmass

/-- Number of pixels of a rectangle. -/
def rectArea (r : Rect) : Nat := (r.MaxX - r.MinX).toNat * (r.MaxY - r.MinY).toNat

/-- Body of the scan loops of `determineLand` at pixel `p`. -/
def scanLand (bnds : Rect) (acc : Option LandScan) (p : Point) : Option LandScan :=
  match acc with
  | none => none
  | some st =>
    if st.sea.B p > 0 then some st
    else if p ∈ st.seen then some st
    else
      let num := st.found.length + 1
      let num := if num > 65535 then num - 65535 else num
      let rg := splitUint16 (num % 65536)
      match floodLand bnds ⟨rg.1, rg.2, 0⟩ (rectArea bnds + 1) ⟨[p], st.seen, st.sea, 1⟩ with
      | none => none
      | some fl =>
        some { seen := fl.seen, sea := fl.sea,
               found := st.found ++ [⟨fl.size, rg.1, rg.2, p.X, p.Y⟩] }

/-- Model of `Editor.determineLand` on the canvas `sea`: the landmasses found,
in the order found (`none`: the fuel of an inner flood fill ran out). -/
def determineLand (sea : Canvas) : Option (List Landmass) :=
  ((scanOrder sea.bounds).foldl (scanLand sea.bounds) (some ⟨[], sea, []⟩)).map (fun st => st.found)

/-- Number of non-sea pixels of a canvas (`B = 0`). -/
def landPixels (sea : Canvas) : Nat :=
  ((scanOrder sea.bounds).filter (fun p => sea.B p = 0)).length

end Geography

/-! ## internal/dijkstra -/

namespace Dijkstra

/-- The errors of the package, the error of the shortest-path library
(`ErrNoPath`), and `Panic` for a Go run-time panic (index out of range). -/
inductive Error where
  | ErrPointNotFound
  | ErrInvalidTag
  | ErrNoPath
  | Panic
deriving DecidableEq, Repr

/-- Wrap an integer to the range of a 64-bit Go `int`. -/
def wrapInt (x : Int) : Int :=
  (x + 9223372036854775808) % 18446744073709551616 - 9223372036854775808

/-- Lookup in a Go map held as an association list. -/
def mapGet {κ α : Type} [DecidableEq κ] (m : List (κ × α)) (k : κ) : Option α :=
  match m with
  | [] => none
  | e :: rest => if e.1 = k then some e.2 else mapGet rest k

/-- Assignment `m[k] = v` in a Go map held as an association list. -/
def mapSet {κ α : Type} [DecidableEq κ] (m : List (κ × α)) (k : κ) (v : α) : List (κ × α) :=
  (k, v) :: m.filter (fun e => decide (e.1 ≠ k))

/-- The arcs of one graph of the shortest-path library
(`github.com/RyanCarrier/dijkstra`), most recent first.  Every vertex id
used below has been added with `AddVertex` in `New`, so `AddArc` never
fails and the vertex list is not kept. -/
structure DijGraph where
  arcs : List ((Nat × Nat) × Int)
deriving DecidableEq, Repr

/-- Library call `AddArc(src, dst, cost)`: adds the arc, overwriting its cost. -/
def DijGraph.AddArc (d : DijGraph) (src dst : Nat) (cost : Int) : DijGraph :=
  ⟨mapSet d.arcs (src, dst) cost⟩

/-- Cost of the arc `src → dst`, if the arc exists. -/
def DijGraph.arc (d : DijGraph) (src dst : Nat) : Option Int :=
  mapGet d.arcs (src, dst)

/-- The struct `Graph` of `dijkstra.go`. -/
structure Graph where
  verts : List Point
  neighbours : List (List Nat)
  weights : List (String × List Int)
  pointLookup : List (Point × Nat)
  dij : List (String × DijGraph)
deriving DecidableEq, Repr

/-- State of the edge loop of `New`. -/
structure Build where
  ns : List (List Nat)
  weights : List (String × List Int)
  dij : List (String × DijGraph)

/-- Body of the loop `for tag, g := range dij` in the edge loop of `New`: the
weights of both ends become the default weight, and both arcs are added. -/
def markTag (defaultWeight : Int) (id0 id1 : Nat) (st : Build) (tag : String) : Build :=
  match mapGet st.dij tag, mapGet st.weights tag with
  | some d, some values =>
    { st with
      weights := mapSet st.weights tag ((values.set id0 defaultWeight).set id1 defaultWeight)
      dij := mapSet st.dij tag
        ((d.AddArc id0 id1 defaultWeight).AddArc id1 id0 defaultWeight) }
  | _, _ => st

/-- The loop `for tag, g := range dij` in the edge loop of `New`, over the
tags `tags` of `dij`. -/
def markEdge (defaultWeight : Int) (id0 id1 : Nat) (st : Build) (tags : List String) : Build :=
  tags.foldl (markTag defaultWeight id0 id1) st

/-- The three lines `neighbours := ns[id]`, `neighbours = append(neighbours, x)`
(or `[]int{x}` for a nil slice) and `ns[id] = neighbours` of `New`. -/
def appendNeighbour (ns : List (List Nat)) (id x : Nat) : List (List Nat) :=
  ns.set id (ns.getD id [] ++ [x])

/-- Body of the edge loop of `New`. -/
def addEdge (defaultWeight : Int) (pl : List (Point × Nat)) (st : Build) (e : Point × Point) :
    Except Error Build :=
  match mapGet pl e.1 with
  | none => .error .ErrPointNotFound
  | some id0 =>
    match mapGet pl e.2 with
    | none => .error .ErrPointNotFound
    | some id1 =>
      .ok (markEdge defaultWeight id0 id1
        { st with ns := appendNeighbour (appendNeighbour st.ns id0 id1) id1 id0 }
        (st.dij.map Prod.fst))

/-- The edge loop of `New`: stops at the first failing edge. -/
def addEdges (defaultWeight : Int) (pl : List (Point × Nat)) :
    Build → List (Point × Point) → Except Error Build
  | st, [] => .ok st
  | st, e :: rest =>
    match addEdge defaultWeight pl st e with
    | .error err => .error err
    | .ok st1 => addEdges defaultWeight pl st1 rest

/-- The loop `for i, p := range verts { pl[p] = i }` of `New`, from index `i` on. -/
def buildLookupFrom : Nat → List (Point × Nat) → List Point → List (Point × Nat)
  | _, m, [] => m
  | i, m, p :: rest => buildLookupFrom (i + 1) (mapSet m p i) rest

/-- The map `pl` built by `New`. -/
def buildLookup (verts : List Point) : List (Point × Nat) :=
  buildLookupFrom 0 [] verts

/-- Model of `New(defaultWeight, weightNames, verts, edges)`. -/
def New (defaultWeight : Int) (weightNames : List String) (verts : List Point)
    (edges : List (Point × Point)) : Except Error Graph :=
  let dij := weightNames.foldl (fun m tag => mapSet m tag (⟨[]⟩ : DijGraph)) []
  let weights := weightNames.foldl
    (fun m tag => mapSet m tag (List.replicate verts.length (0 : Int))) []
  let pl := buildLookup verts
  match addEdges defaultWeight pl ⟨List.replicate verts.length [], weights, dij⟩ edges with
  | .error err => .error err
  | .ok st =>
    .ok { verts := verts, neighbours := st.ns, weights := st.weights,
          pointLookup := pl, dij := st.dij }

/-- The two statements `weights[pid] = weights[pid] + dw` and
`if weights[pid] < 0 { weights[pid] = 0 }` of `IncrWeights`, on the old weight `w`. -/
def newWeight (w dw : Int) : Int :=
  if wrapInt (w + dw) < 0 then 0 else wrapInt (w + dw)

/-- Body of the loop `for tag, dw := range delta` of `IncrWeights` for the
vertex `pid` with neighbours `nbrs`: the graph after the round, and the
error if the round returns one. -/
def incrTag (g : Graph) (pid : Nat) (nbrs : List Nat) (td : String × Int) :
    Graph × Option Error :=
  match mapGet g.dij td.1 with
  | none => (g, some .ErrInvalidTag)
  | some d =>
    match mapGet g.weights td.1 with
    | none => (g, some .Panic)
    | some ws =>
      match ws[pid]? with
      | none => (g, some .Panic)
      | some w =>
        ({ g with
           weights := mapSet g.weights td.1 (ws.set pid (newWeight w td.2))
           dij := mapSet g.dij td.1
             (nbrs.foldl (fun d nid => d.AddArc nid pid (newWeight w td.2)) d) }, none)

/-- The loop `for tag, dw := range delta` of `IncrWeights`; `delta` lists the
entries of the map in the order the loop meets them. -/
def incrTags (pid : Nat) (nbrs : List Nat) : Graph → List (String × Int) → Graph × Option Error
  | g, [] => (g, none)
  | g, td :: rest =>
    match incrTag g pid nbrs td with
    | (g1, some err) => (g1, some err)
    | (g1, none) => incrTags pid nbrs g1 rest

/-- Model of `Graph.IncrWeights(pts, delta)`: the graph after the call (the
source updates it in place, also when it fails) and the error returned. -/
def IncrWeights : Graph → List Point → List (String × Int) → Graph × Option Error
  | g, [], _ => (g, none)
  | g, p :: pts, delta =>
    match mapGet g.pointLookup p with
    | none => (g, some .ErrPointNotFound)
    | some pid =>
      match g.neighbours[pid]? with
      | none => (g, some .Panic)
      | some nbrs =>
        match incrTags pid nbrs g delta with
        | (g1, some err) => (g1, some err)
        | (g1, none) => IncrWeights g1 pts delta

/-- The test of `IncrWeightsOutside` that selects a vertex. -/
def outsideArea (area : Rect) (s : Point) : Bool :=
  decide (s.X ≤ area.MinX) || decide (s.X ≥ area.MaxX) ||
  decide (s.Y ≤ area.MinY) || decide (s.Y ≥ area.MaxY)

/-- Model of `Graph.IncrWeightsOutside(area, delta)`. -/
def IncrWeightsOutside (g : Graph) (area : Rect) (delta : List (String × Int)) :
    Graph × Option Error :=
  IncrWeights g (g.verts.filter (outsideArea area)) delta

/-- The loop `for pid, w := range given` of `SetWeights` on the library graph
`d`, from index `pid` on: `none` stands for the index panic of `g.neighbours[pid]`. -/
def setArcsFrom (neighbours : List (List Nat)) : Nat → DijGraph → List Int → Option DijGraph
  | _, d, [] => some d
  | pid, d, w :: rest =>
    match neighbours[pid]? with
    | none => none
    | some nbrs =>
      setArcsFrom neighbours (pid + 1)
        (nbrs.foldl (fun d nid => d.AddArc nid pid (if w < 0 then 0 else w)) d) rest

/-- The loop `for tag, given := range in` of `SetWeights`: `weights` is the
local map being filled, `dij` the library graphs (updated in place). -/
def setTags (neighbours : List (List Nat)) :
    List (String × DijGraph) → List (String × List Int) → List (String × List Int) →
    List (String × DijGraph) × Except Error (List (String × List Int))
  | dij, weights, [] => (dij, .ok weights)
  | dij, weights, (tag, given) :: rest =>
    match mapGet dij tag with
    | none => (dij, .error .ErrInvalidTag)
    | some d =>
      match setArcsFrom neighbours 0 d given with
      | none => (dij, .error .Panic)
      | some d1 => setTags neighbours (mapSet dij tag d1) (mapSet weights tag given) rest

/-- Model of `Graph.SetWeights(in)`; `none` is the nil map. -/
def SetWeights (g : Graph) (input : Option (List (String × List Int))) : Graph × Option Error :=
  match input with
  | none => (g, none)
  | some entries =>
    match setTags g.neighbours g.dij [] entries with
    | (dij, .error err) => ({ g with dij := dij }, some err)
    | (dij, .ok weights) => ({ g with dij := dij, weights := weights }, none)

/-- Adding a key to a Go map used as a set. -/
def setAdd {α : Type} [DecidableEq α] (s : List α) (x : α) : List α :=
  if x ∈ s then s else s ++ [x]

/-- First loop of `Neighbours`: the set `given` of vertex ids. -/
def givenIds (pl : List (Point × Nat)) : List Nat → List Point → Except Error (List Nat)
  | given, [] => .ok given
  | given, p :: rest =>
    match mapGet pl p with
    | none => .error .ErrPointNotFound
    | some pid => givenIds pl (setAdd given pid) rest

/-- Body of the inner loop `for _, nid := range neighbours` of `Neighbours`;
`none` stands for the index panic of `g.verts[nid]`. -/
def foundStep (g : Graph) (given : List Nat) (acc : Option (List Point)) (nid : Nat) :
    Option (List Point) :=
  match acc with
  | none => none
  | some found =>
    if nid ∈ given then some found
    else
      match g.verts[nid]? with
      | none => none
      | some q => some (setAdd found q)

/-- Body of the loop `for pid := range given` of `Neighbours`; `none` stands
for the index panic of `g.neighbours[pid]`. -/
def foundRow (g : Graph) (given : List Nat) (acc : Option (List Point)) (pid : Nat) :
    Option (List Point) :=
  match acc, g.neighbours[pid]? with
  | some found, some nbrs => nbrs.foldl (foundStep g given) (some found)
  | _, _ => none

/-- Second loop of `Neighbours`: the set `found`, for the ids of `given`
in the order `ids`. -/
def foundPoints (g : Graph) (given : List Nat) (ids : List Nat) : Option (List Point) :=
  ids.foldl (foundRow g given) (some [])

/-- Model of `Graph.Neighbours(in)`.  The result lists the keys of the map
`found`; the order of the list stands for the order of the map walk. -/
def Neighbours (g : Graph) (input : List Point) : Except Error (List Point) :=
  match givenIds g.pointLookup [] input with
  | .error err => .error err
  | .ok given =>
    match foundPoints g given given with
    | none => .error .Panic
    | some found => .ok found

/-- Model of `Graph.Shortest(tag, a, b)`.  `lib d ai bi` is the library call
`dij.Shortest(ai, bi)`: the ids of the best path, or `none` for its error. -/
def Shortest (lib : DijGraph → Nat → Nat → Option (List Nat)) (g : Graph) (tag : String)
    (a b : Point) : Except Error (List Point) :=
  match mapGet g.pointLookup a with
  | none => .error .ErrPointNotFound
  | some ai =>
    match mapGet g.pointLookup b with
    | none => .error .ErrPointNotFound
    | some bi =>
      match mapGet g.dij tag with
      | none => .error .ErrInvalidTag
      | some d =>
        match lib d ai bi with
        | none => .error .ErrNoPath
        | some path =>
          match path.mapM (fun id => g.verts[id]?) with
          | none => .error .Panic
          | some pts => .ok pts

/-- A call that changes the weights of a graph. -/
inductive Call where
  | incr (pts : List Point) (delta : List (String × Int))
  | incrOutside (area : Rect) (delta : List (String × Int))
  | setWeights (input : Option (List (String × List Int)))

/-- The graph after a call, whether the call fails or not. -/
def Call.run (g : Graph) : Call → Graph
  | .incr pts delta => (IncrWeights g pts delta).1
  | .incrOutside area delta => (IncrWeightsOutside g area delta).1
  | .setWeights input => (SetWeights g input).1

/-- The graph after a sequence of calls. -/
def runCalls (g : Graph) (calls : List Call) : Graph :=
  calls.foldl Call.run g

/-- The call is `IncrWeights` or `IncrWeightsOutside`. -/
def Call.isIncr : Call → Bool
  | .setWeights _ => false
  | _ => true

/-- Weight of the vertex with index `i` on channel `tag` (`g.weights[tag][i]`). -/
def Graph.weightAt (g : Graph) (tag : String) (i : Nat) : Option Int :=
  match mapGet g.weights tag with
  | some ws => ws[i]?
  | none => none

/-- Weight of the vertex at point `p` on channel `tag`. -/
def Graph.weightOf (g : Graph) (tag : String) (p : Point) : Option Int :=
  match mapGet g.pointLookup p with
  | some pid => g.weightAt tag pid
  | none => none

/-- What `IncrWeights` makes of a weight `w` of channel `tag`: the delta of
the channel, if `delta` has one, is added and the sum is floored at zero. -/
def applyDelta (delta : List (String × Int)) (tag : String) (w : Int) : Int :=
  match mapGet delta tag with
  | some d => newWeight w d
  | none => w

/-- The input of a `SetWeights` call gives every channel of `names`, and no
other, an array of `n` weights, none of them negative. -/
def goodWeights (names : List String) (n : Nat) (entries : List (String × List Int)) : Prop :=
  (∀ tag, tag ∈ entries.map Prod.fst ↔ tag ∈ names) ∧
  ∀ tag ws, (tag, ws) ∈ entries → ws.length = n ∧ ∀ x, x ∈ ws → 0 ≤ x

/-- The call is `IncrWeights`, `IncrWeightsOutside`, or a `SetWeights` whose
input is nil or satisfies `goodWeights`. -/
def Call.wellFormed (names : List String) (n : Nat) : Call → Prop
  | .setWeights (some entries) => goodWeights names n entries
  | _ => True

/-- Cost of the arc from the vertex at `a` to the vertex at `b` on channel `tag`. -/
def Graph.arcCost (g : Graph) (tag : String) (a b : Point) : Option Int :=
  match mapGet g.dij tag, mapGet g.pointLookup a, mapGet g.pointLookup b with
  | some d, some u, some v => d.arc u v
  | _, _, _ => none

/-- Channel invariant: the channels of the library graphs and of the weight
map are the names `names`, and the arrays have one entry per vertex. -/
structure ChanInv (names : List String) (g : Graph) : Prop where
  dijKeys : ∀ tag, (mapGet g.dij tag).isSome = true ↔ tag ∈ names
  wKeys : ∀ tag, (mapGet g.weights tag).isSome = true ↔ tag ∈ names
  wLen : ∀ tag ws, mapGet g.weights tag = some ws → ws.length = g.verts.length
  nsLen : g.neighbours.length = g.verts.length

/-- Every stored weight is at least zero. -/
def NonNeg (g : Graph) : Prop :=
  ∀ tag ws, mapGet g.weights tag = some ws → ∀ x, x ∈ ws → 0 ≤ x

/-- Arc invariant on vertex ids: the arc from a neighbour `u` of `v` into `v`
costs the weight of `v`. -/
def ArcInv (g : Graph) : Prop :=
  ∀ tag d ws, mapGet g.dij tag = some d → mapGet g.weights tag = some ws →
    ∀ v nbrs, g.neighbours[v]? = some nbrs → ∀ u, u ∈ nbrs → d.arc u v = ws[v]?

/-- What a call keeps of a graph: vertices, neighbour lists and point lookup
are not touched, and the invariants carry over. -/
structure Keeps (names : List String) (g g1 : Graph) : Prop where
  vertsEq : g1.verts = g.verts
  nbrsEq : g1.neighbours = g.neighbours
  lookupEq : g1.pointLookup = g.pointLookup
  chan : ChanInv names g → ChanInv names g1
  arcs : ArcInv g → ArcInv g1
  nonNeg : NonNeg g → NonNeg g1

/-- The neighbour lists `ns` hold exactly the edges `edges` (in both directions). -/
structure EdgesOf (verts : List Point) (edges : List (Point × Point))
    (ns : List (List Nat)) : Prop where
  edgeNbr : ∀ a b, (a, b) ∈ edges → ∃ u v nu nv,
    mapGet (buildLookup verts) a = some u ∧ mapGet (buildLookup verts) b = some v ∧
    ns[u]? = some nu ∧ v ∈ nu ∧ ns[v]? = some nv ∧ u ∈ nv
  nbrEdge : ∀ u nu v, ns[u]? = some nu → v ∈ nu → ∃ a b,
    mapGet (buildLookup verts) a = some u ∧ mapGet (buildLookup verts) b = some v ∧
    ((a, b) ∈ edges ∨ (b, a) ∈ edges)

/-- The part of a graph that no call changes, as `New` builds it. -/
structure Topology (verts : List Point) (edges : List (Point × Point)) (g : Graph) : Prop where
  vertsEq : g.verts = verts
  lookupEq : g.pointLookup = buildLookup verts
  edgesOf : EdgesOf verts edges g.neighbours

/-- Invariant of the edge loop of `New`, `done` being the edges handled so far. -/
structure BuildInv (defaultWeight : Int) (names : List String) (verts : List Point)
    (done : List (Point × Point)) (st : Build) : Prop where
  dijKeys : ∀ tag, (mapGet st.dij tag).isSome = true ↔ tag ∈ names
  wKeys : ∀ tag, (mapGet st.weights tag).isSome = true ↔ tag ∈ names
  wLen : ∀ tag ws, mapGet st.weights tag = some ws → ws.length = verts.length
  nsLen : st.ns.length = verts.length
  arcs : ∀ tag d ws, mapGet st.dij tag = some d → mapGet st.weights tag = some ws →
    ∀ v nbrs, st.ns[v]? = some nbrs → ∀ u, u ∈ nbrs →
      d.arc u v = some defaultWeight ∧ ws[v]? = some defaultWeight
  wVals : ∀ tag ws, mapGet st.weights tag = some ws → ∀ x, x ∈ ws → x = 0 ∨ x = defaultWeight
  edgesOf : EdgesOf verts done st.ns

/-- What `markEdge` may change of a state: nothing but the weights of the
two ends and the two arcs between them, which become the default weight. -/
structure MarkRel (defaultWeight : Int) (id0 id1 : Nat) (st st1 : Build) : Prop where
  ns : st1.ns = st.ns
  dijKeys : ∀ tag, (mapGet st1.dij tag).isSome = (mapGet st.dij tag).isSome
  wKeys : ∀ tag, (mapGet st1.weights tag).isSome = (mapGet st.weights tag).isSome
  ws : ∀ tag ws1, mapGet st1.weights tag = some ws1 → ∃ ws, mapGet st.weights tag = some ws ∧
    ws1.length = ws.length ∧ ∀ i : Nat, ws1[i]? = ws[i]? ∨ ws1[i]? = some defaultWeight
  arcs : ∀ tag d1, mapGet st1.dij tag = some d1 → ∃ d, mapGet st.dij tag = some d ∧
    ∀ u v, d1.arc u v = d.arc u v ∨ d1.arc u v = some defaultWeight

/-- Channel `tag` of the state carries the marks of the edge `id0`-`id1`. -/
def Marked (defaultWeight : Int) (id0 id1 : Nat) (st : Build) (tag : String) : Prop :=
  ∀ d ws, mapGet st.dij tag = some d → mapGet st.weights tag = some ws →
    d.arc id0 id1 = some defaultWeight ∧ d.arc id1 id0 = some defaultWeight ∧
    (id0 < ws.length → ws[id0]? = some defaultWeight) ∧
    (id1 < ws.length → ws[id1]? = some defaultWeight)

end Dijkstra

/-! ## internal/geography: paths, raster values -/

namespace Geography

/-- The `float64` arithmetic of `trimPath`, taken as a parameter: the
constant `0.0`, the addition of `total += ...` and the test `total >= max`.
No law of arithmetic is assumed of them, so whatever rounding the machine
does is covered. -/
structure FloatOps (F : Type) where
  zero : F
  add : F → F → F
  ge : F → F → Bool

/-- Exact arithmetic in an ordered group: what the `float64` operations
compute wherever no rounding occurs. -/
def exactOps {K : Type} [LinearOrderedAddCommGroup K] : FloatOps K :=
  { zero := 0, add := fun a b => a + b, ge := fun a b => decide (b ≤ a) }

/-- The loop of `trimPath` from index `i` on: `total` is the running total,
`prev` is `path[i-1]`, the list holds `path[i:]`; the result is what the
returned slice holds after `prev`.  `dist` is `distBetween`. -/
def trimLoop {F : Type} (ops : FloatOps F) (dist : Point → Point → F) (max : F) :
    F → Point → List Point → List Point
  | _, _, [] => []
  | total, prev, p :: rest =>
    if ops.ge (ops.add total (dist prev p)) max then []
    else p :: trimLoop ops dist max (ops.add total (dist prev p)) p rest

/-- Model of `trimPath(path, max)` (`geography/utils.go`).  The source adds
the `float64` lengths computed by `distBetween` to a running total and
compares it with `max`; the model takes these operations as `ops` and
`distBetween` as `dist`. -/
def trimPath {F : Type} (ops : FloatOps F) (dist : Point → Point → F)
    (path : List Point) (max : F) : List Point :=
  match path with
  | [] => []
  | p0 :: rest => p0 :: trimLoop ops dist max ops.zero p0 rest

/-- The running total as the loop of `trimPath` computes it: the value of
`total` after the segments from `prev` along the list have been added, one
after the other, to `total`. -/
def totalFrom {F : Type} (ops : FloatOps F) (dist : Point → Point → F) :
    F → Point → List Point → F
  | total, _, [] => total
  | total, prev, p :: rest => totalFrom ops dist (ops.add total (dist prev p)) p rest

/-- The running total of a whole path, from `0.0` on (`0.0` for fewer than
two points). -/
def pathTotal {F : Type} (ops : FloatOps F) (dist : Point → Point → F)
    (path : List Point) : F :=
  match path with
  | [] => ops.zero
  | p0 :: rest => totalFrom ops dist ops.zero p0 rest

/-- Length of the last segment of a path (`0.0` for fewer than two points). -/
def lastSegment {F : Type} (ops : FloatOps F) (dist : Point → Point → F) :
    List Point → F
  | [] => ops.zero
  | [_] => ops.zero
  | [a, b] => dist a b
  | _ :: b :: c :: rest => lastSegment ops dist (b :: c :: rest)

end Geography

namespace Geography

/-- Model of `incrUint8(a, in)` (`geography/utils.go`): `a` is a `uint8`, the
`float64` argument is a rational `x`.  The sum `a+b` is a `uint8` sum, so it
is taken modulo 256 before the two comparisons of the source. -/
def incrUint8 (a : Nat) (x : ℚ) : Nat :=
  if x ≤ 0 then a
  else if x ≥ 255 then 255
  else
    let b := (⌊x⌋).toNat % 256
    if (a + b) % 256 > 255 then 255
    else if (a + b) % 256 < 0 then 0
    else (a + b) % 256

/-- The raster layers `Rain` loads: mountains, sea and rain. -/
structure Layers where
  mountains : Canvas
  sea : Canvas
  rain : Canvas

/-- Model of `Editor.Rain(proj, stormMult, prevailingWinds)` once the project
is loaded: the canvas whose image is returned, and the stored layers after
the call.  The storm simulation of the source (a generator and a pool of
workers that run concurrently on `float64` moisture and dice rolls) is the
parameter `storms`: the rain canvas it leaves, which the source then saves. -/
def Rain {H : Type} (stormMult : ℚ) (prevailingWinds : List H)
    (storms : List H → Layers → Canvas) (layers : Layers) : Canvas × Layers :=
  if stormMult ≤ 0 then (layers.rain, layers)
  else (storms prevailingWinds layers, { layers with rain := storms prevailingWinds layers })

end Geography

/-! ## pkg/types: Dice -/

namespace Types

/-- The struct `Dice`. -/
structure Dice where
  roll : List Int
  add : Int
deriving DecidableEq, Repr

/-- Model of `NewDice(add, rolls...)`: only the sides `r > 0` are kept. -/
def NewDice (add : Int) (rolls : List Int) : Dice :=
  { roll := rolls.filter (fun r => decide (r > 0)), add := add }

/-- The loop of `Roll` from the `i`-th side on, `v` being the running sum.
The draw `rand.Intn(x)` of the `i`-th round is `rnd i % x` for a raw random
number `rnd i`: it takes every value of `[0, x)` and no other.  The sum is a
Go `int` sum (64 bits, wrapping). -/
def rollFrom (rnd : Nat → Nat) : Nat → Int → List Int → Int
  | _, v, [] => v
  | i, v, x :: rest => rollFrom rnd (i + 1) (Dijkstra.wrapInt (v + (rnd i : Int) % x)) rest

/-- Model of `Dice.Roll()` for the raw random numbers `rnd`. -/
def Dice.Roll (d : Dice) (rnd : Nat → Nat) : Int :=
  rollFrom rnd 0 d.add d.roll

/-- The largest sum the draws of a dice can add: `r - 1` for every side `r > 0`. -/
def diceSpan (rolls : List Int) : Int :=
  ((rolls.filter (fun r => decide (r > 0))).map (fun r => r - 1)).sum

end Types

namespace Geography

/-- Every pixel of the canvas is blank or has the sea colour. -/
def TwoTone (c : Canvas) : Prop :=
  ∀ p, c.pix p = ⟨0, 0, 0⟩ ∨ c.pix p = seaColor

end Geography

/-! ## internal/geography: the grid bucket (`bucket.go`) -/

namespace Geography

/-- The struct `Grid`; a `nil` cell of `neighbours` is the empty list. -/
structure Grid where
  width : Int
  height : Int
  size : Int
  wrap : Bool
  gridWidth : Int
  gridHeight : Int
  neighbours : List (List Int)
deriving DecidableEq, Repr

/-- Model of `NewGridBucket(w, h, gridsize, wrap)`; `none` stands for the
panics of the source (division by zero, negative length of `make`). -/
def NewGridBucket (w h gridsize : Int) (wrap : Bool) : Option Grid :=
  if gridsize = 0 then none
  else if Int.tdiv w gridsize * Int.tdiv h gridsize < 0 then none
  else some
    { width := w, height := h, size := gridsize, wrap := wrap,
      gridWidth := Int.tdiv w gridsize, gridHeight := Int.tdiv h gridsize,
      neighbours := List.replicate (Int.tdiv w gridsize * Int.tdiv h gridsize).toNat [] }

/-- Model of `Grid.index(p)` (Go division truncates). -/
def Grid.index (g : Grid) (p : Point) : Int :=
  Int.tdiv p.Y g.size * g.gridWidth + Int.tdiv p.X g.size

/-- The cell `g.neighbours[i]`; `none` stands for the index panic. -/
def Grid.cell (g : Grid) (i : Int) : Option (List Int) :=
  if i < 0 then none else g.neighbours[i.toNat]?

/-- Model of `Grid.AddPoint(num, p)`; `none` stands for the index panic. -/
def Grid.AddPoint (g : Grid) (num : Int) (p : Point) : Option Grid :=
  match g.cell (g.index p) with
  | none => none
  | some ns => some { g with neighbours := g.neighbours.set (g.index p).toNat (ns ++ [num]) }

/-- Model of `Grid.indexLeftRight(i)`. -/
def Grid.indexLeftRight (g : Grid) (i : Int) : Int × Int :=
  if i = -1 then (-1, -1)
  else
    let remainderWidth := Int.tmod i g.gridWidth
    let left :=
      if remainderWidth = 0 then (if g.wrap then i + g.gridWidth - 1 else -1) else i - 1
    let right :=
      if remainderWidth = g.gridWidth - 1 then (if g.wrap then i - remainderWidth else -1)
      else i + 1
    (left, right)

/-- Model of `Grid.indexAboveBelow(i)`. -/
def Grid.indexAboveBelow (g : Grid) (i : Int) : Int × Int :=
  if i = -1 then (-1, -1)
  else
    let above :=
      if i - g.gridWidth < 0 then
        (if g.wrap then g.gridWidth * (g.gridHeight - 1) + i else -1)
      else i - g.gridWidth
    let below :=
      if i + g.gridWidth ≥ g.gridWidth * g.gridHeight then
        (if g.wrap then g.gridWidth * (g.gridHeight - 1) else -1)
      else i + g.gridWidth
    (above, below)

/-- The slice `indexes` of `neighbouringGrids(i)`:
`left, right, above, below, al, ar, bl, br`. -/
def Grid.neighbourIndexes (g : Grid) (i : Int) : List Int :=
  let lr := g.indexLeftRight i
  let ab := g.indexAboveBelow i
  let a := g.indexLeftRight ab.1
  let b := g.indexLeftRight ab.2
  [lr.1, lr.2, ab.1, ab.2, a.1, a.2, b.1, b.2]

/-- The loop of `neighbouringGrids` over `indexes`. -/
def gatherCells (g : Grid) : List Int → Option (List (List Int))
  | [] => some []
  | n :: rest =>
    if n = -1 then gatherCells g rest
    else
      match g.cell n, gatherCells g rest with
      | some ns, some res => if ns.length = 0 then some res else some (ns :: res)
      | _, _ => none

/-- Model of `Grid.neighbouringGrids(i)`; `none` stands for an index panic. -/
def Grid.neighbouringGrids (g : Grid) (i : Int) : Option (List (List Int)) :=
  gatherCells g (g.neighbourIndexes i)

/-- The values of `for k := lo; k < hi; k++`. -/
def forRange (lo hi : Nat) : List Nat :=
  (List.range (hi - lo)).map (fun k => k + lo)

/-- The pairs the first double loop of `BuildEdges` offers to `intEdge`:
`(ns[i], ns[j])` for `i < len(ns)-1` and `i+1 <= j < len(ns)-1`. -/
def internalOffers (ns : List Int) : List (Int × Int) :=
  (forRange 0 (ns.length - 1)).flatMap (fun i =>
    (forRange (i + 1) (ns.length - 1)).map (fun j => (ns.getD i 0, ns.getD j 0)))

/-- The pairs the second double loop of `BuildEdges` offers to `extEdge` for
one neighbouring cell: `(ns[i], neighbours[j])` for `i < len(ns)-1` and
`j < len(neighbours)-1`. -/
def externalOffers (ns neighbours : List Int) : List (Int × Int) :=
  (forRange 0 (ns.length - 1)).flatMap (fun i =>
    (forRange 0 (neighbours.length - 1)).map (fun j => (ns.getD i 0, neighbours.getD j 0)))

/-- The edges `BuildEdges` emits for one neighbouring cell: the offered
pairs of weight `>= 0`, sorted by weight when there are `maxExternal` of them
or more (`sort.Slice` is not stable: the insertion sort stands for one of its
outcomes), cut to the first `maxExternal`. -/
def externalEdges {K : Type} [LinearOrder K] [Zero K] (extEdge : Int → Int → K)
    (maxExternal : Int) (ns neighbours : List Int) : List (Int × Int) :=
  let edges := ((externalOffers ns neighbours).map (fun ab => (ab, extEdge ab.1 ab.2))).filter
    (fun e => decide (¬ e.2 < 0))
  let edges := if (edges.length : Int) ≥ maxExternal then
      edges.insertionSort (fun e1 e2 => e1.2 ≤ e2.2) else edges
  (edges.take (min maxExternal (edges.length : Int)).toNat).map Prod.fst

/-- The edges one worker of `BuildEdges` sends for the cell `index`, in the
order it sends them; `none` stands for an index panic. -/
def cellEdges {K : Type} [LinearOrder K] [Zero K] (g : Grid) (intEdge extEdge : Int → Int → K)
    (maxExternal : Int) (index : Nat) : Option (List (Int × Int)) :=
  match g.neighbours[index]? with
  | none => none
  | some ns =>
    if ns.length < 2 then some []
    else
      match g.neighbouringGrids index with
      | none => none
      | some cells =>
        some ((internalOffers ns).filter (fun ab => decide (intEdge ab.1 ab.2 ≥ 0)) ++
          cells.flatMap (externalEdges extEdge maxExternal ns))

/-- Model of `Grid.BuildEdges(intEdge, extEdge, maxExternal)`: what the
returned channel delivers.  The workers of the source run concurrently; the
list is the delivery in which they take turns in the order of their cells. -/
def Grid.BuildEdges {K : Type} [LinearOrder K] [Zero K] (g : Grid)
    (intEdge extEdge : Int → Int → K) (maxExternal : Int) : Option (List (Int × Int)) :=
  (List.range g.neighbours.length).foldl (fun acc n =>
    match acc, cellEdges g intEdge extEdge maxExternal n with
    | some out, some es => some (out ++ es)
    | _, _ => none) (some [])

end Geography

/-! ## internal/geography: feature placement (`terrain.go`, `volcanoes.go`) -/

namespace Geography

/-- A draw directive issued on a canvas (sizes, rotation and depth, which
are random, are left out). -/
inductive Draw where
  | channel (layer : String) (path : List Point)
  | ellipse (layer : String) (centre : Point) (concave : Bool)
  | smooth (layer : String) (radius : Nat)
  | flattenOutside (layer : String) (bounds : Rect)
deriving DecidableEq, Repr

/-- What a feature placement can change: the graph with its weights, the
tags of the graph, the draw directives issued so far, the number of times
the graph was saved and the canvases saved so far. -/
structure World where
  graph : Dijkstra.Graph
  tags : List (String × List Point)
  drawn : List Draw
  graphSaves : Nat
  canvasSaves : List String
deriving DecidableEq, Repr

/-- The errors of a feature placement: `ErrNoPath` (with what it wraps left
out), an error of the graph, an input-output error, a run-time panic. -/
inductive FeatureError where
  | ErrNoPath
  | graph (e : Dijkstra.Error)
  | io
  | panic
deriving DecidableEq, Repr

/-- The outcomes a placement does not decide itself: failures of loading and
saving, the points picked at random, the permutation `rand.Shuffle` applies,
and how many of the placed points the `return` of `AddMountainRange` reads. -/
structure Chance where
  canvasFails : Bool
  saveGraphFails : Bool
  saveCanvasFails : Bool
  placed : List Point
  shuffle : List Point → List Point
  seen : Nat

/-- The constants `tagMountains`, `tagVolcanoes`, `tagRavines`, `tagRivers`. -/
def tagMountains : String := "mountains"

/-- See `tagMountains`. -/
def tagVolcanoes : String := "volcanoes"

/-- See `tagMountains`. -/
def tagRavines : String := "ravines"

/-- See `tagMountains`. -/
def tagRivers : String := "rivers"

/-- Model of `graph.Tag(name, in)` behind `if tag != ""`. -/
def tagIfNamed (tags : List (String × List Point)) (tag : String) (path : List Point) :
    List (String × List Point) :=
  if tag ≠ "" then Dijkstra.mapSet tags tag path else tags

/-- Model of `Editor.AddRavine` once `newGraphOp` has returned the operation
(graph, `from`, `to`, `maxDist`): the path and error returned, and the world
after the call.  `lib` is the shortest-path library, `dist` is `distBetween`,
`weight` is `GraphRavineWeight`. -/
def AddRavine {F : Type} (ops : FloatOps F)
    (lib : Dijkstra.DijGraph → Nat → Nat → Option (List Nat)) (dist : Point → Point → F)
    (ch : Chance) (weight : Int) (tag : String) (src dst : Point) (maxDist : F) (w : World) :
    (List Point × Option FeatureError) × World :=
  match Dijkstra.Shortest lib w.graph tagRavines src dst with
  | .error _ => (([], some .ErrNoPath), w)
  | .ok found =>
    if (trimPath ops dist found maxDist).length < 2 then (([], some .ErrNoPath), w)
    else if ch.canvasFails then (([], some .io), w)
    else
      match Dijkstra.IncrWeights w.graph (trimPath ops dist found maxDist)
        [(tagRavines, weight), (tagMountains, weight),
         (tagRivers, Dijkstra.wrapInt (weight * -1)), (tagVolcanoes, weight)] with
      | (g1, some e) => (([], some (.graph e)), { w with graph := g1 })
      | (g1, none) =>
        if ch.saveGraphFails then
          (([], some .io),
            { w with graph := g1, tags := tagIfNamed w.tags tag (trimPath ops dist found maxDist),
                     drawn := w.drawn ++ [.channel tagRavines (trimPath ops dist found maxDist)] })
        else
          ((trimPath ops dist found maxDist, if ch.saveCanvasFails then some .io else none),
            { graph := g1, tags := tagIfNamed w.tags tag (trimPath ops dist found maxDist),
              drawn := w.drawn ++ [.channel tagRavines (trimPath ops dist found maxDist)],
              graphSaves := w.graphSaves + 1,
              canvasSaves := if ch.saveCanvasFails then w.canvasSaves
                else w.canvasSaves ++ [tagRavines] })

/-- The first goroutine of `AddMountainRange`: the weights of the path and of
its neighbours, the tag, the save of the graph. -/
def weighMountains (weight : Int) (tag : String) (ch : Chance) (path : List Point) (w : World) :
    Option FeatureError × World :=
  match Dijkstra.IncrWeights w.graph path
    [(tagMountains, weight), (tagRavines, weight), (tagRivers, weight),
     (tagVolcanoes, Dijkstra.wrapInt (weight * -1))] with
  | (g1, some e) => (some (.graph e), { w with graph := g1 })
  | (g1, none) =>
    match Dijkstra.Neighbours g1 path with
    | .error e => (some (.graph e), { w with graph := g1 })
    | .ok nearby =>
      match Dijkstra.IncrWeights g1 nearby
        [(tagMountains, weight), (tagRavines, Dijkstra.wrapInt (weight * -1)),
         (tagRivers, Dijkstra.wrapInt (weight * -1))] with
      | (g2, some e) => (some (.graph e), { w with graph := g2 })
      | (g2, none) =>
        if ch.saveGraphFails then
          (some .io, { w with graph := g2, tags := tagIfNamed w.tags tag path })
        else
          (none, { w with graph := g2, tags := tagIfNamed w.tags tag path,
                          graphSaves := w.graphSaves + 1 })

/-- Model of `Editor.AddMountainRange` once `newGraphOp` has returned the
operation: the placed points, the path and the error returned, and the world
after the call.  The two goroutines of the source are run one after the
other (weights first), and of their errors the one of the first is reported. -/
def AddMountainRange {F : Type} (ops : FloatOps F)
    (lib : Dijkstra.DijGraph → Nat → Nat → Option (List Nat)) (dist : Point → Point → F)
    (ch : Chance) (weight : Int) (tag : String) (src dst : Point) (maxDist : F) (w : World) :
    (List Point × List Point × Option FeatureError) × World :=
  match Dijkstra.Shortest lib w.graph tagMountains src dst with
  | .error _ => (([], [], some .ErrNoPath), w)
  | .ok found =>
    if (trimPath ops dist found maxDist).length < 2 then (([], [], some .ErrNoPath), w)
    else if ch.canvasFails then (([], [], some .io), w)
    else
      let r := weighMountains weight tag ch (trimPath ops dist found maxDist) w
      ((ch.placed.take ch.seen, trimPath ops dist found maxDist,
          match r.1 with
          | some e => some e
          | none => if ch.saveCanvasFails then some .io else none),
        { r.2 with
          drawn := r.2.drawn ++ ch.placed.map (fun cp => Draw.ellipse tagMountains cp false),
          canvasSaves := if ch.saveCanvasFails then r.2.canvasSaves
            else r.2.canvasSaves ++ [tagMountains] })

/-- Model of `Editor.AddVolanoes` once `newGraphOp` has returned the
operation: the candidates, the path and the error returned, and the world
after the call. -/
def AddVolanoes {F : Type} (ops : FloatOps F)
    (lib : Dijkstra.DijGraph → Nat → Nat → Option (List Nat)) (dist : Point → Point → F)
    (ch : Chance) (count : Int) (src dst : Point) (maxDist : F) (w : World) :
    (List Point × List Point × Option FeatureError) × World :=
  if ch.canvasFails then (([], [], some .io), w)
  else
    match Dijkstra.Shortest lib w.graph tagVolcanoes src dst with
    | .error _ => (([], [], some .ErrNoPath), w)
    | .ok found =>
      if (trimPath ops dist found maxDist).length < 2 then (([], [], some .ErrNoPath), w)
      else if (ch.placed.length : Int) > count ∧ count < 0 then (([], [], some .panic), w)
      else
        let candidates :=
          if (ch.placed.length : Int) > count then (ch.shuffle ch.placed).take count.toNat
          else ch.placed
        ((candidates, trimPath ops dist found maxDist,
            if ch.saveCanvasFails then some .io else none),
          { w with
            drawn := w.drawn ++ candidates.flatMap (fun p =>
              [Draw.ellipse tagMountains p false, Draw.ellipse tagMountains p true]),
            canvasSaves := if ch.saveCanvasFails then w.canvasSaves
              else w.canvasSaves ++ [tagMountains] })

/-- The path query of a placement fails: `Shortest` returns an error, or
the path it returns has fewer than two points once trimmed. -/
def noPath {F : Type} (ops : FloatOps F)
    (lib : Dijkstra.DijGraph → Nat → Nat → Option (List Nat)) (dist : Point → Point → F)
    (g : Dijkstra.Graph) (tag : String) (src dst : Point) (maxDist : F) : Prop :=
  (∃ e, Dijkstra.Shortest lib g tag src dst = .error e) ∨
  (∃ found, Dijkstra.Shortest lib g tag src dst = .ok found ∧
    (trimPath ops dist found maxDist).length < 2)

end Geography

/-! ## internal/voronoi: the graph and its persisted form (`graph.go`) -/

namespace Voronoi

/-- The struct `graph`.  The field `voro` (the diagram of the external
voronoi library) is left out; `Weights` is the nil map until `Marshal`. -/
structure graph where
  GraphName : String
  Width : Int
  Height : Int
  Seed : Int
  DefaultWeight : Int
  WeightNames : List String
  SiteCentres : List Point
  Vertices : List Point
  Edges : List (Point × Point)
  Tags : List (String × List Point)
  Weights : List (String × List Int)
  dij : Dijkstra.Graph
deriving DecidableEq, Repr

/-- The bytes `json.Marshal(g)` writes, as the values of the exported fields
of `graph`: the JSON library is taken to write and read back every exported
field faithfully. -/
structure Saved where
  GraphName : String
  Width : Int
  Height : Int
  Seed : Int
  DefaultWeight : Int
  WeightNames : List String
  SiteCentres : List Point
  Vertices : List Point
  Edges : List (Point × Point)
  Tags : List (String × List Point)
  Weights : List (String × List Int)
deriving DecidableEq, Repr

/-- The errors of `Unmarshal`: an error of the package dijkstra, or the
error of `rebuildVoronoi`. -/
inductive LoadError where
  | graph (e : Dijkstra.Error)
  | rebuild
deriving DecidableEq, Repr

/-- Model of `newGraph` once `randomVoronoi` has returned the sites `sites`,
the vertices `verts` and the edges `edges`.  The field `DefaultWeight` is
not set and keeps the zero value. -/
def newGraph (name : String) (weightNames : List String) (width height defweight : Int)
    (seed : Int) (sites verts : List Point) (edges : List (Point × Point)) :
    Except Dijkstra.Error graph :=
  match Dijkstra.New defweight weightNames verts edges with
  | .error err => .error err
  | .ok dij =>
    .ok { GraphName := name, Width := width, Height := height, Seed := seed,
          DefaultWeight := 0, WeightNames := weightNames, SiteCentres := sites,
          Vertices := verts, Edges := edges, Tags := [], Weights := [], dij := dij }

/-- Model of `graph.Tag(name, in)`. -/
def graph.Tag (g : graph) (name : String) (pts : List Point) : graph :=
  { g with Tags := Dijkstra.mapSet g.Tags name pts }

/-- Model of `graph.IncrWeights(pts, delta)`. -/
def graph.IncrWeights (g : graph) (pts : List Point) (delta : List (String × Int)) :
    graph × Option Dijkstra.Error :=
  ({ g with dij := (Dijkstra.IncrWeights g.dij pts delta).1 },
    (Dijkstra.IncrWeights g.dij pts delta).2)

/-- Model of `graph.IncrWeightsOutside(area, delta)`. -/
def graph.IncrWeightsOutside (g : graph) (area : Rect) (delta : List (String × Int)) :
    graph × Option Dijkstra.Error :=
  ({ g with dij := (Dijkstra.IncrWeightsOutside g.dij area delta).1 },
    (Dijkstra.IncrWeightsOutside g.dij area delta).2)

/-- Model of `graph.Marshal()`: the graph after the call (`g.Weights` is set
to `g.dij.Weights()`) and the bytes written. -/
def graph.Marshal (g : graph) : graph × Saved :=
  ({ g with Weights := g.dij.weights },
    { GraphName := g.GraphName, Width := g.Width, Height := g.Height, Seed := g.Seed,
      DefaultWeight := g.DefaultWeight, WeightNames := g.WeightNames,
      SiteCentres := g.SiteCentres, Vertices := g.Vertices, Edges := g.Edges,
      Tags := g.Tags, Weights := g.dij.weights })

/-- The graph `json.Unmarshal(data, g)` leaves in the fresh `g := &graph{}`
of `fsVoronoi.Graph`: the exported fields are those of `data`, `dij` is nil. -/
def decoded (data : Saved) : graph :=
  { GraphName := data.GraphName, Width := data.Width, Height := data.Height,
    Seed := data.Seed, DefaultWeight := data.DefaultWeight,
    WeightNames := data.WeightNames, SiteCentres := data.SiteCentres,
    Vertices := data.Vertices, Edges := data.Edges, Tags := data.Tags,
    Weights := data.Weights, dij := ⟨[], [], [], [], []⟩ }

/-- Model of `graph.Unmarshal(data)` on the fresh graph of `fsVoronoi.Graph`:
the graph after the call and the error returned.  `rebuildFails` says
whether `rebuildVoronoi` (external library) returns an error. -/
def Unmarshal (data : Saved) (rebuildFails : Bool) : graph × Option LoadError :=
  match Dijkstra.New data.DefaultWeight data.WeightNames data.Vertices data.Edges with
  | .error err => (decoded data, some (.graph err))
  | .ok dij =>
    match Dijkstra.SetWeights dij (some data.Weights) with
    | (dij1, some err) => ({ decoded data with dij := dij1 }, some (.graph err))
    | (dij1, none) =>
      ({ decoded data with dij := dij1 }, if rebuildFails then some .rebuild else none)

/-- The graphs a program can hold: made by `newGraph`, changed by `Tag`,
`IncrWeights`, `IncrWeightsOutside` and `Marshal`, or loaded without error
from the bytes of such a graph. -/
inductive Reachable : graph → Prop
  | new (name : String) (weightNames : List String) (width height defweight seed : Int)
      (sites verts : List Point) (edges : List (Point × Point)) (g : graph)
      (h : newGraph name weightNames width height defweight seed sites verts edges = .ok g) :
      Reachable g
  | tag (g : graph) (name : String) (pts : List Point) (h : Reachable g) :
      Reachable (g.Tag name pts)
  | incr (g : graph) (pts : List Point) (delta : List (String × Int)) (h : Reachable g) :
      Reachable (g.IncrWeights pts delta).1
  | incrOutside (g : graph) (area : Rect) (delta : List (String × Int)) (h : Reachable g) :
      Reachable (g.IncrWeightsOutside area delta).1
  | marshal (g : graph) (h : Reachable g) : Reachable g.Marshal.1
  | load (g : graph) (rebuildFails : Bool) (h : Reachable g)
      (hok : (Unmarshal g.Marshal.2 rebuildFails).2 = none) :
      Reachable (Unmarshal g.Marshal.2 rebuildFails).1

/-- Invariant of the reachable graphs: the channels of `dij` are the weight
names, its topology is that of the vertices and edges of the graph, and the
weight map holds every channel once. -/
structure Valid (g : graph) : Prop where
  chan : Dijkstra.ChanInv g.WeightNames g.dij
  topo : Dijkstra.Topology g.Vertices g.Edges g.dij
  keys : (g.dij.weights.map Prod.fst).Nodup

end Voronoi

/-! ## pkg/types: projects; internal/geography: epochs (`editor.go`) -/

namespace Types

/-- The struct `Project`. -/
structure Project where
  ID : String
  Name : String
  Epoch : Int
  Seed : Int
  WorldWidth : Int
  WorldHeight : Int
deriving DecidableEq, Repr

/-- Model of `Project.CanvasFromEpoch(name, e)`:
`fmt.Sprintf("%s-%d-%s", p.ID, e, name)`. -/
def Project.CanvasFromEpoch (p : Project) (name : String) (e : Int) : String :=
  p.ID ++ "-" ++ toString e ++ "-" ++ name

/-- Model of `Project.Canvas(name)`. -/
def Project.Canvas (p : Project) (name : String) : String :=
  p.CanvasFromEpoch name p.Epoch

end Types

namespace Geography

/-- The constant `tagSea`. -/
def tagSea : String := "sea"

/-- The constant `tagRain`. -/
def tagRain : String := "rain"

/-- The list `copyCanvasBetweenEpoch`. -/
def copyCanvasBetweenEpoch : List String :=
  [tagMountains, tagRavines, tagRivers, tagVolcanoes, tagSea, tagRain]

/-- What `NextEpoch` works on: the canvases the painter has saved, by name,
and the project as the database holds it.  `I` is the type of images. -/
structure Archive (I : Type) where
  canvases : List (String × I)
  project : Types.Project

/-- The loop `for _, n := range copyCanvasBetweenEpoch` of `NextEpoch`: the
canvases after the loop and whether it returned an error.  `pnt.Canvas`
loads the canvas or returns a blank one; `fails n` says whether one of the
three painter calls for the layer `n` returns an error. -/
def copyLoop {I : Type} (blank : I) (fails : String → Bool) (p : Types.Project) :
    List (String × I) → List String → List (String × I) × Bool
  | cs, [] => (cs, false)
  | cs, n :: rest =>
    if fails n then (cs, true)
    else
      copyLoop blank fails p
        (Dijkstra.mapSet cs (p.CanvasFromEpoch n (Dijkstra.wrapInt (p.Epoch + 1)))
          ((Dijkstra.mapGet cs (p.Canvas n)).getD blank)) rest

/-- Model of `Editor.NextEpoch(id)` once `e.project(id)` has returned the
project: the archive after the call and whether an error is returned.
`dbFails` says whether the transaction fails. -/
def NextEpoch {I : Type} (blank : I) (fails : String → Bool) (dbFails : Bool) (a : Archive I) :
    Archive I × Bool :=
  match copyLoop blank fails a.project a.canvases copyCanvasBetweenEpoch with
  | (cs, true) => ({ a with canvases := cs }, true)
  | (cs, false) =>
    if dbFails then ({ a with canvases := cs }, true)
    else
      ({ canvases := cs,
         project := { a.project with Epoch := Dijkstra.wrapInt (a.project.Epoch + 1) } }, false)

/-! ## internal/geography: the public lookups of the grid (`bucket.go`) -/

/-- Model of `Grid.NeighbouringGrids(p)`; `none` stands for an index panic. -/
def Grid.NeighbouringGrids (g : Grid) (p : Point) : Option (List (List Int)) :=
  g.neighbouringGrids (g.index p)

/-- Model of `Grid.NeighbouringPoints(p)`; `none` stands for the index panic. -/
def Grid.NeighbouringPoints (g : Grid) (p : Point) : Option (List Int) :=
  g.cell (g.index p)

/-! ## internal/geography: the bands and the seeds of the storms (`rain.go`, `utils.go`) -/

/-- Modelled from the spec: the type `types.Heading`, whose file is not
among the sources; the spec has "one of 8 compass directions", and the names
are the constants of the `switch` of `edgePoints`. -/
inductive Heading where
  | NORTH
  | SOUTH
  | WEST
  | EAST
  | NORTHEAST
  | SOUTHEAST
  | SOUTHWEST
  | NORTHWEST
deriving DecidableEq, Repr

/-- Go `image.Rect(x0, y0, x1, y1)`, which orders the corners. -/
def imageRect (x0 y0 x1 y1 : Int) : Rect :=
  ⟨min x0 x1, min y0 y1, max x0 x1, max y0 y1⟩

/-- Model of the generator of `Rain`: the bands `area` with their heading, in
the order made.  `defaults` is `RainfallPrevailingWinds`, taken when no
heading is given; `none` stands for the division by zero. -/
def rainBands {H : Type} (worldWidth worldHeight : Int) (defaults prevailingWinds : List H) :
    Option (List (Rect × H)) :=
  let winds := if prevailingWinds.length = 0 then defaults else prevailingWinds
  if winds.length = 0 then none
  else
    some (winds.enum.map (fun id =>
      (imageRect 0 ((id.1 : Int) * Int.tdiv worldHeight winds.length) worldWidth
        (((id.1 : Int) + 1) * Int.tdiv worldHeight winds.length), id.2)))

/-- The pixel row `y` belongs to the band `area`. -/
def rowInBand (area : Rect) (y : Int) : Bool :=
  decide (area.MinY ≤ y) && decide (y < area.MaxY)

/-- Model of `edgePoints(r, h)`: the points the channel delivers, in order. -/
def edgePoints (r : Rect) : Heading → List Point
  | .NORTH => (rangeInt r.MinX r.MaxX).map (fun x => ⟨x, r.MinY⟩)
  | .SOUTH => (rangeInt r.MinX r.MaxX).map (fun x => ⟨x, r.MaxY⟩)
  | .WEST => (rangeInt r.MinY r.MaxY).map (fun y => ⟨r.MinX, y⟩)
  | .EAST => (rangeInt r.MinY r.MaxY).map (fun y => ⟨r.MaxX, y⟩)
  | .NORTHEAST => (rangeInt r.MinX r.MaxX).map (fun x => ⟨x, r.MinY⟩) ++
      (rangeInt r.MinY r.MaxY).map (fun y => ⟨r.MaxX, y⟩)
  | .SOUTHEAST => (rangeInt r.MinX r.MaxX).map (fun x => ⟨x, r.MaxY⟩) ++
      (rangeInt r.MinY r.MaxY).map (fun y => ⟨r.MaxX, y⟩)
  | .SOUTHWEST => (rangeInt r.MinX r.MaxX).map (fun x => ⟨x, r.MaxY⟩) ++
      (rangeInt r.MinY r.MaxY).map (fun y => ⟨r.MinX, y⟩)
  | .NORTHWEST => (rangeInt r.MinX r.MaxX).map (fun x => ⟨x, r.MinY⟩) ++
      (rangeInt r.MinY r.MaxY).map (fun y => ⟨r.MinX, y⟩)

/-- The test that ends the walk of a storm in `Rain`:
`storm.X < area.Min.X || storm.X > area.Max.X || storm.Y < area.Min.Y || storm.Y >= area.Max.Y`. -/
def stormLeft (area : Rect) (storm : Point) : Bool :=
  decide (storm.X < area.MinX) || decide (storm.X > area.MaxX) ||
  decide (storm.Y < area.MinY) || decide (storm.Y ≥ area.MaxY)

end Geography

/-! ## internal/voronoi: the identifier of an edge (`utils.go`) -/

namespace Voronoi

/-- The loop of `toDecimal`: `tmp` and `count` are its variables; `none`
stands for a loop that outlasts the fuel. -/
def digitLoop : Nat → Int → Nat → Option Nat
  | 0, _, _ => none
  | fuel + 1, tmp, count =>
    if tmp ≤ 0 then some count else digitLoop fuel (Int.tdiv tmp 10) (count + 1)

/-- Model of `toDecimal(f)` on rationals: `int(f)` cuts the fraction off,
and the result is `f / 10^count`. -/
def toDecimal (f : ℚ) : Option ℚ :=
  let tmp : Int := if 0 ≤ f then ⌊f⌋ else ⌈f⌉
  (digitLoop (tmp.toNat + 1) tmp 0).map (fun count => f / 10 ^ count)

/-- Model of the closure `edgeId` of `randomVoronoi` for the world width
`width`, on rationals instead of `float64`. -/
def edgeId (width : Int) (a b : Point) : Option ℚ :=
  let aid : ℚ := ((Dijkstra.wrapInt (Dijkstra.wrapInt (a.Y * width) + a.X) : Int) : ℚ)
  let bid : ℚ := ((Dijkstra.wrapInt (Dijkstra.wrapInt (b.Y * width) + b.X) : Int) : ℚ)
  if bid < aid then (toDecimal aid).map (fun x => bid + x)
  else (toDecimal bid).map (fun x => aid + x)

/-- The part "save unique edges" of the body of the loop of `randomVoronoi`:
`acc` holds the keys of `edgesSeen` and the edges kept so far. -/
def uniqueStep (width : Int) (acc : Option (List ℚ × List (Point × Point)))
    (e : Point × Point) : Option (List ℚ × List (Point × Point)) :=
  match acc, edgeId width e.1 e.2 with
  | some (seen, edges), some eid =>
    if eid ∈ seen then some (seen, edges) else some (eid :: seen, edges ++ [e])
  | _, _ => none

/-- The edges `randomVoronoi` keeps of the edges `es` of the diagram. -/
def uniqueEdges (width : Int) (es : List (Point × Point)) : Option (List (Point × Point)) :=
  (es.foldl (uniqueStep width) (some ([], []))).map Prod.snd

end Voronoi

/-! ## internal/geography: the cache of heightmaps (`editor.go`, `terrain.go`) -/

namespace Geography

/-- The constant `tagPerlin`. -/
def tagPerlin : String := "noise-perlin"

/-- The constant `tagVoro`. -/
def tagVoro : String := "noise-voronoi"

/-- The struct `Editor`, as far as terrain and heightmaps go: the world its
calls change, and the map `hmap` from rectangles to images (`none` is the
nil image).  `I` is the type of images. -/
structure Editor (I : Type) where
  world : World
  hmap : List (Rect × Option I)

/-- What the collaborators of `HeightMap` make of the world for a rectangle:
an error before `SmoothImage` (from `newGraphOp`, a canvas or `Merge`), or
the image and the error flag that `paint.SmoothImage` returns. -/
inductive Render (I : Type) where
  | early
  | smoothed (final : Option I) (err : Bool)

/-- Model of `Editor.HeightMap(proj, area)`: the image and error flag
returned, and the editor after the call. -/
def Editor.HeightMap {I : Type} (render : World → Rect → Render I) (e : Editor I) (area : Rect) :
    (Option I × Bool) × Editor I :=
  match render e.world area with
  | .early => ((none, true), e)
  | .smoothed final err => ((final, err), { e with hmap := Dijkstra.mapSet e.hmap area final })

/-- Model of `Editor.cachedHeightmap(proj, area)`. -/
def Editor.cachedHeightmap {I : Type} [DecidableEq I] (render : World → Rect → Render I)
    (e : Editor I) (area : Rect) : (Option I × Bool) × Editor I :=
  match Dijkstra.mapGet e.hmap area with
  | some hmap => ((hmap, false), e)
  | none =>
    (((e.HeightMap render area).1.1, (e.HeightMap render area).1.2),
      { (e.HeightMap render area).2 with
        hmap := Dijkstra.mapSet (e.HeightMap render area).2.hmap area
          (e.HeightMap render area).1.1 })

/-- Model of `AddRavine` on the editor: the call of `AddRavine` on its world. -/
def Editor.AddRavine {I F : Type} (ops : FloatOps F)
    (lib : Dijkstra.DijGraph → Nat → Nat → Option (List Nat)) (dist : Point → Point → F)
    (ch : Chance) (weight : Int) (tag : String) (src dst : Point) (maxDist : F) (e : Editor I) :
    (List Point × Option FeatureError) × Editor I :=
  ((Geography.AddRavine ops lib dist ch weight tag src dst maxDist e.world).1,
    { e with world := (Geography.AddRavine ops lib dist ch weight tag src dst maxDist e.world).2 })

/-- Model of `AddMountainRange` on the editor. -/
def Editor.AddMountainRange {I F : Type} (ops : FloatOps F)
    (lib : Dijkstra.DijGraph → Nat → Nat → Option (List Nat)) (dist : Point → Point → F)
    (ch : Chance) (weight : Int) (tag : String) (src dst : Point) (maxDist : F) (e : Editor I) :
    (List Point × List Point × Option FeatureError) × Editor I :=
  ((Geography.AddMountainRange ops lib dist ch weight tag src dst maxDist e.world).1,
    { e with world := (Geography.AddMountainRange ops lib dist ch weight tag src dst maxDist e.world).2 })

/-- Model of `AddVolanoes` on the editor. -/
def Editor.AddVolanoes {I F : Type} (ops : FloatOps F)
    (lib : Dijkstra.DijGraph → Nat → Nat → Option (List Nat)) (dist : Point → Point → F)
    (ch : Chance) (count : Int) (src dst : Point) (maxDist : F) (e : Editor I) :
    (List Point × List Point × Option FeatureError) × Editor I :=
  ((Geography.AddVolanoes ops lib dist ch count src dst maxDist e.world).1,
    { e with world := (Geography.AddVolanoes ops lib dist ch count src dst maxDist e.world).2 })

/-- Model of `Editor.SmoothTerrain(proj, radius)` once the project is found:
the error returned and the editor after the call. -/
def Editor.SmoothTerrain {I : Type} (ch : Chance) (radius : Nat) (e : Editor I) :
    Option FeatureError × Editor I :=
  if ch.canvasFails then (some .io, e)
  else
    (if ch.saveCanvasFails then some .io else none,
      { e with world :=
        { e.world with
          drawn := e.world.drawn ++ [.smooth tagMountains radius],
          canvasSaves := if ch.saveCanvasFails then e.world.canvasSaves
            else e.world.canvasSaves ++ [tagMountains] } })

/-- Model of `Editor.FlattenOutside(proj, bounds)` once the project is
found; its three goroutines (mountains, perlin noise, voronoi noise) are run
one after the other. -/
def Editor.FlattenOutside {I : Type} (ch : Chance) (bounds : Rect) (e : Editor I) :
    Option FeatureError × Editor I :=
  if ch.canvasFails then (some .io, e)
  else
    (if ch.saveCanvasFails then some .io else none,
      { e with world :=
        { e.world with
          drawn := e.world.drawn ++ [.flattenOutside tagMountains bounds,
            .flattenOutside tagPerlin bounds, .flattenOutside tagVoro bounds],
          canvasSaves := if ch.saveCanvasFails then e.world.canvasSaves
            else e.world.canvasSaves ++ [tagMountains, tagPerlin, tagVoro] } })

end Geography

/-! ## internal/geography: the landmasses and the components of the mask -/

namespace Geography

/-- Non-sea pixel of the mask: inside its bounds, with `B = 0`. -/
def isLand (sea : Canvas) (p : Point) : Prop :=
  rectContains sea.bounds p = true ∧ sea.B p = 0

/-- The pixels `p` and `q` lie in the same 8-connected component of
non-sea pixels: `q` is reached from `p` by steps between adjacent non-sea
pixels. -/
inductive LandJoin (sea : Canvas) : Point → Point → Prop where
  | refl (p : Point) : isLand sea p → LandJoin sea p p
  | step (p q r : Point) : LandJoin sea p q → adjacent8 q r → isLand sea r → LandJoin sea p r

/-- The pixel `(FirstX, FirstY)` of a landmass. -/
def Landmass.first (m : Landmass) : Point := ⟨m.FirstX, m.FirstY⟩

/-- The counter `num` of `determineLand` for the landmass found after `k`
others: `k + 1`, less `math.MaxUint16` when above it. -/
def landNumber (k : Nat) : Nat := if k + 1 > 65535 then k + 1 - 65535 else k + 1

/-- Termination measure of the inner flood fill of `determineLand`: length
of the worklist plus the number of pixels of the canvas not yet seen. -/
def landMeasure (bnds : Rect) (st : LandFlood) : Nat :=
  st.stack.length + ((scanOrder bnds).filter (fun p => decide (p ∉ st.seen))).length

/-- Invariant of the inner flood fill of `determineLand` started at `start`
on the mask `sea0` with the set `seen0`. -/
structure LandInv (sea0 : Canvas) (start : Point) (seen0 : List Point) (st : LandFlood) :
    Prop where
  bounds : st.sea.bounds = sea0.bounds
  blue : ∀ q, st.sea.B q = sea0.B q
  keep : ∀ q, q ∈ seen0 → q ∈ st.seen
  fresh : ∀ q, q ∈ st.seen → q ∈ seen0 ∨ LandJoin sea0 start q
  stackJoin : ∀ q, q ∈ st.stack → LandJoin sea0 start q
  closed : ∀ q, LandJoin sea0 start q → (q = start ∨ q ∈ st.seen) →
    q ∈ st.stack ∨ ∀ r, adjacent8 q r → isLand sea0 r → r ∈ st.seen

/-- The flood only grows: the worklist is extended at its end, `seen` grows
and the measure does not increase. -/
def LandGrow (bnds : Rect) (st st1 : LandFlood) : Prop :=
  (∃ extra, st1.stack = st.stack ++ extra) ∧ (∀ p, p ∈ st.seen → p ∈ st1.seen) ∧
  landMeasure bnds st1 ≤ landMeasure bnds st

/-- Invariant of the scan of `determineLand` on the mask `sea0`, `done` being
the pixels scanned so far. -/
structure ScanInv (sea0 : Canvas) (done : List Point) (st : LandScan) : Prop where
  bounds : st.sea.bounds = sea0.bounds
  blue : ∀ q, st.sea.B q = sea0.B q
  seenJoin : ∀ q, q ∈ st.seen → ∃ m, m ∈ st.found ∧ LandJoin sea0 m.first q
  firstDone : ∀ m, m ∈ st.found → m.first ∈ done ∧ isLand sea0 m.first
  full : ∀ m, m ∈ st.found → ∀ q, LandJoin sea0 m.first q → q = m.first ∨ q ∈ st.seen
  cover : ∀ p, p ∈ done → isLand sea0 p → ∃ m, m ∈ st.found ∧ LandJoin sea0 m.first p
  least : ∀ m, m ∈ st.found → ∃ d t, scanOrder sea0.bounds = d ++ m.first :: t ∧
    ∀ q, LandJoin sea0 m.first q → q ∉ d
  apart : st.found.Pairwise (fun m1 m2 => ¬ LandJoin sea0 m1.first m2.first)
  colours : ∀ (i : Nat) (m : Landmass), st.found[i]? = some m →
    (m.ColorR, m.ColorG) = splitUint16 (landNumber i % 65536)

end Geography

end Genesis

/-! # Theorems -/

namespace Genesis

/-! ## ClosestPoint -/

namespace Voronoi

/-- C1 (evaluation at the failing input): on the graph with vertices `(0,0)` and
`(10,10)`, `ClosestPoint((10,10))` returns `(0,0)` although the vertex
`(10,10)` is strictly closer to the query point (distance 0): `pythagoras`
adds the coordinates where the distance needs their difference. -/
theorem closestPoint_not_nearest :
    ClosestPoint [⟨0, 0⟩, ⟨10, 10⟩] ⟨10, 10⟩ = some ⟨0, 0⟩ ∧
    euclidSq ⟨10, 10⟩ ⟨10, 10⟩ < euclidSq ⟨10, 10⟩ ⟨0, 0⟩ := by
  decide

end Voronoi

namespace Geography

/-- C2 (evaluation at the failing input): on a mask of 2 by 1 pixels, both of
them land, `determineLand` reports one landmass of size 3 while the mask has
2 non-sea pixels: the first pixel of a landmass is counted when the landmass
is found and again when a neighbour reaches it, as it is not put in `seen`. -/
theorem determineLand_counts_first_pixel_twice :
    determineLand ⟨⟨0, 0, 2, 1⟩, fun _ => ⟨0, 0, 0⟩⟩ = some [⟨3, 0, 1, 0, 0⟩] ∧
    landPixels ⟨⟨0, 0, 2, 1⟩, fun _ => ⟨0, 0, 0⟩⟩ = 2 := by
  decide

/-! ## Flood fill of determineSea -/

theorem mem_rangeInt (lo hi x : Int) : x ∈ rangeInt lo hi ↔ lo ≤ x ∧ x < hi := by
  unfold rangeInt
  simp only [List.mem_map, List.mem_range]
  constructor
  · rintro ⟨i, hlt, rfl⟩
    constructor <;> omega
  · intro hx
    refine ⟨(x - lo).toNat, ?_, ?_⟩ <;> omega

theorem mem_scanOrder (r : Rect) (p : Point) :
    p ∈ scanOrder r ↔ rectContains r p = true := by
  unfold scanOrder rectContains
  simp only [List.mem_flatMap, List.mem_map, mem_rangeInt, Bool.and_eq_true, decide_eq_true_eq]
  constructor
  · rintro ⟨dy, hy, dx, hx, rfl⟩
    exact ⟨⟨⟨hx.1, hx.2⟩, hy.1⟩, hy.2⟩
  · rintro ⟨⟨⟨h1, h2⟩, h3⟩, h4⟩
    exact ⟨p.Y, ⟨h3, h4⟩, p.X, ⟨h1, h2⟩, rfl⟩

theorem inWorld_iff (w h : Int) (p : Point) :
    inWorld w h p = true ↔ 0 ≤ p.X ∧ p.X < w ∧ 0 ≤ p.Y ∧ p.Y < h := by
  unfold inWorld
  simp only [Bool.and_eq_true, decide_eq_true_eq]
  tauto

theorem rectContains_world (w h : Int) (p : Point) :
    rectContains ⟨0, 0, w, h⟩ p = inWorld w h p := rfl

theorem bounds_Set (c : Canvas) (p : Point) (col : Color) : (c.Set p col).bounds = c.bounds := by
  unfold Canvas.Set
  split <;> rfl

theorem B_Set (c : Canvas) (p q : Point) (col : Color) :
    (c.Set p col).B q = if rectContains c.bounds p = true ∧ q = p then col.B else c.B q := by
  unfold Canvas.Set Canvas.B
  by_cases hb : rectContains c.bounds p = true
  · by_cases hq : q = p
    · simp [hb, hq]
    · simp [hb, hq]
  · simp [hb]

theorem isSea_Set (c : Canvas) (p q : Point) :
    isSea (c.Set p seaColor) q ↔ (rectContains c.bounds p = true ∧ q = p) ∨ isSea c q := by
  unfold isSea
  rw [B_Set]
  by_cases hc : rectContains c.bounds p = true ∧ q = p
  · simp [hc, seaColor]
  · simp only [hc, if_false, false_or]

theorem popFront_cons (a : Point) (rest : List Point) :
    ∃ l, l.length = rest.length ∧ (∀ x, x ∈ l ↔ x ∈ rest) ∧ popFront (a :: rest) = l := by
  cases hl : rest.getLast? with
  | none =>
    have : rest = [] := List.getLast?_eq_none_iff.mp hl
    subst this
    exact ⟨[], rfl, fun x => Iff.rfl, rfl⟩
  | some l =>
    have h1 : rest.dropLast ++ [l] = rest := List.dropLast_append_getLast? l hl
    refine ⟨l :: rest.dropLast, ?_, ?_, ?_⟩
    · conv_rhs => rw [← h1]
      simp
    · intro x
      conv_rhs => rw [← h1]
      simp only [List.mem_cons, List.mem_append, List.mem_singleton, List.not_mem_nil, or_false]
      tauto
    · simp only [popFront, hl]

theorem mem_popFront (a x : Point) (rest : List Point) :
    x ∈ popFront (a :: rest) ↔ x ∈ rest := by
  obtain ⟨l, _, h2, h3⟩ := popFront_cons a rest
  rw [h3]
  exact h2 x

theorem length_popFront (a : Point) (rest : List Point) :
    (popFront (a :: rest)).length = rest.length := by
  obtain ⟨l, h1, _, h3⟩ := popFront_cons a rest
  rw [h3]
  exact h1

theorem unseen_le (pixels seen : List Point) (c : Point) :
    (pixels.filter (fun p => decide (p ∉ c :: seen))).length ≤
    (pixels.filter (fun p => decide (p ∉ seen))).length := by
  induction pixels with
  | nil => exact Nat.le_refl _
  | cons a t ih =>
    rw [List.filter_cons, List.filter_cons]
    split_ifs with h1 h2 h2
    · simp only [List.length_cons]
      omega
    · simp only [decide_eq_true_eq, List.mem_cons, not_or] at h1 h2
      exact absurd h1.2 h2
    · simp only [List.length_cons]
      omega
    · exact ih

theorem unseen_lt (pixels seen : List Point) (c : Point) (hc : c ∈ pixels) (hs : c ∉ seen) :
    (pixels.filter (fun p => decide (p ∉ c :: seen))).length + 1 ≤
    (pixels.filter (fun p => decide (p ∉ seen))).length := by
  induction pixels with
  | nil => simp at hc
  | cons a t ih =>
    rw [List.filter_cons, List.filter_cons]
    by_cases h2 : a = c
    · subst h2
      have hle := unseen_le t seen a
      have e1 : decide (a ∉ a :: seen) = false := by simp
      have e2 : decide (a ∉ seen) = true := by simp [hs]
      rw [e1, e2]
      simp only [if_true, List.length_cons, Bool.false_eq_true, if_false]
      omega
    · have hct : c ∈ t := by
        rcases List.mem_cons.mp hc with h | h
        · exact absurd h.symm h2
        · exact h
      have ih1 := ih hct
      split_ifs with h1 h3 h3
      · simp only [List.length_cons]
        omega
      · simp only [decide_eq_true_eq, List.mem_cons, not_or] at h1 h3
        exact absurd h1.2 h3
      · simp only [List.length_cons]
        omega
      · exact ih1

theorem mem_around (p q : Point) (ha : adjacent8 p q) : q ∈ around p := by
  obtain ⟨hne, h1, h2, h3, h4⟩ := ha
  obtain ⟨qx, qy⟩ := q
  obtain ⟨px, py⟩ := p
  simp only at h1 h2 h3 h4
  have hx : qx = px - 1 ∨ qx = px ∨ qx = px + 1 := by omega
  have hy : qy = py - 1 ∨ qy = py ∨ qy = py + 1 := by omega
  unfold around
  rcases hx with rfl | rfl | rfl <;> rcases hy with rfl | rfl | rfl <;> simp

theorem adjacent_of_around (p q : Point) (hq : q ∈ around p)
    (hne : ¬ (q.X = p.X ∧ q.Y = p.Y)) : adjacent8 p q := by
  obtain ⟨qx, qy⟩ := q
  obtain ⟨px, py⟩ := p
  unfold around at hq
  simp only [List.mem_cons, List.mem_singleton, List.not_mem_nil, or_false, Point.mk.injEq] at hq
  simp only at hne
  unfold adjacent8
  simp only [ne_eq, Point.mk.injEq]
  refine ⟨?_, ?_, ?_, ?_, ?_⟩
  · rintro ⟨rfl, rfl⟩
    exact hne ⟨rfl, rfl⟩
  all_goals omega

theorem seaGrow_refl (w h : Int) (st : SeaFlood) : SeaGrow w h st st :=
  ⟨⟨[], (List.append_nil _).symm⟩, fun _ hp => hp, Nat.le_refl _⟩

theorem seaGrow_trans (w h : Int) (a b c : SeaFlood) (h1 : SeaGrow w h a b)
    (h2 : SeaGrow w h b c) : SeaGrow w h a c := by
  obtain ⟨⟨e1, he1⟩, hs1, hm1⟩ := h1
  obtain ⟨⟨e2, he2⟩, hs2, hm2⟩ := h2
  refine ⟨⟨e1 ++ e2, ?_⟩, fun p hp => hs2 p (hs1 p hp), Nat.le_trans hm2 hm1⟩
  rw [he2, he1, List.append_assoc]

/-- One visit of a candidate keeps the invariant, only grows the state and
leaves every candidate of the world other than the centre in `seen`. -/
theorem visitSea_inv (w h : Int) (hmap : Point → Nat) (sl : Nat) (probed : List Point)
    (next : Point) (st : SeaFlood) (c : Point)
    (hinv : SeaInv w h hmap sl probed st) (hnext : next ∈ st.stack) (hc : c ∈ around next) :
    SeaInv w h hmap sl probed (visitSea w h hmap sl next st c) ∧
    SeaGrow w h st (visitSea w h hmap sl next st c) ∧
    (inWorld w h c = true → ¬ (c.X = next.X ∧ c.Y = next.Y) →
      c ∈ (visitSea w h hmap sl next st c).seen) := by
  unfold visitSea
  split_ifs with h1 h2 h3 h4 h5
  · refine ⟨hinv, seaGrow_refl w h st, fun hin _ => ?_⟩
    rw [inWorld_iff] at hin
    omega
  · refine ⟨hinv, seaGrow_refl w h st, fun hin _ => ?_⟩
    rw [inWorld_iff] at hin
    omega
  · exact ⟨hinv, seaGrow_refl w h st, fun _ hne => absurd h3 hne⟩
  · exact ⟨hinv, seaGrow_refl w h st, fun _ _ => h4⟩
  · refine ⟨?_, ?_, fun _ _ => List.mem_cons_self _ _⟩
    · refine ⟨hinv.bounds, hinv.sound, ?_, hinv.stackSea, hinv.stackIn, ?_, hinv.seeds⟩
      · intro p hp hlow
        rcases List.mem_cons.mp hp with rfl | hp
        · exact absurd hlow.2 (by omega)
        · exact hinv.seenLow p hp hlow
      · intro p hp
        rcases hinv.closed p hp with hs | hq
        · exact Or.inl hs
        · exact Or.inr (fun q ha hi => List.mem_cons_of_mem _ (hq q ha hi))
    · refine ⟨⟨[], (List.append_nil _).symm⟩, fun p hp => List.mem_cons_of_mem _ hp, ?_⟩
      unfold seaMeasure
      have := unseen_le (scanOrder ⟨0, 0, w, h⟩) st.seen c
      simp only
      omega
  · have hin : inWorld w h c = true := by
      rw [inWorld_iff]
      omega
    have hset : ∀ q, isSea (st.sea.Set c seaColor) q ↔ q = c ∨ isSea st.sea q := by
      intro q
      rw [isSea_Set, hinv.bounds, rectContains_world, hin]
      simp
    refine ⟨?_, ?_, fun _ _ => List.mem_cons_self _ _⟩
    · refine ⟨?_, ?_, ?_, ?_, ?_, ?_, ?_⟩
      · show (st.sea.Set c seaColor).bounds = _
        rw [bounds_Set]
        exact hinv.bounds
      · intro p hp
        rcases (hset p).mp hp with rfl | hp
        · have hw : 0 < w ∧ 0 < h := by
            rw [inWorld_iff] at hin
            omega
          have hnin := hinv.stackIn hw.1 hw.2 next hnext
          have hreach := hinv.sound next (hinv.stackSea next hnext hnin)
          exact SeaReach.step next p hreach (adjacent_of_around next p hc h3)
            ⟨hin, by omega⟩
        · exact hinv.sound p hp
      · intro p hp hlow
        rcases List.mem_cons.mp hp with rfl | hp
        · exact (hset p).mpr (Or.inl rfl)
        · exact (hset p).mpr (Or.inr (hinv.seenLow p hp hlow))
      · intro p hp hpin
        rcases List.mem_append.mp hp with hp | hp
        · exact (hset p).mpr (Or.inr (hinv.stackSea p hp hpin))
        · exact (hset p).mpr (Or.inl (List.mem_singleton.mp hp))
      · intro hw hh p hp
        rcases List.mem_append.mp hp with hp | hp
        · exact hinv.stackIn hw hh p hp
        · rw [List.mem_singleton.mp hp]
          exact hin
      · intro p hp
        rcases (hset p).mp hp with rfl | hp
        · exact Or.inl (List.mem_append.mpr (Or.inr (List.mem_singleton.mpr rfl)))
        · rcases hinv.closed p hp with hs | hq
          · exact Or.inl (List.mem_append.mpr (Or.inl hs))
          · exact Or.inr (fun q ha hi => List.mem_cons_of_mem _ (hq q ha hi))
      · intro p hp hlow
        exact (hset p).mpr (Or.inr (hinv.seeds p hp hlow))
    · refine ⟨⟨[c], rfl⟩, fun p hp => List.mem_cons_of_mem _ hp, ?_⟩
      unfold seaMeasure
      have hmem : c ∈ scanOrder ⟨0, 0, w, h⟩ := by
        rw [mem_scanOrder, rectContains_world]
        exact hin
      have := unseen_lt (scanOrder ⟨0, 0, w, h⟩) st.seen c hmem h4
      simp only [List.length_append, List.length_singleton]
      omega

/-- The visits of one round keep the invariant and leave every candidate
of the world other than the centre in `seen`. -/
theorem visitAll_inv (w h : Int) (hmap : Point → Nat) (sl : Nat) (probed : List Point)
    (next : Point) (cs : List Point) :
    ∀ st : SeaFlood, SeaInv w h hmap sl probed st → next ∈ st.stack →
      (∀ c, c ∈ cs → c ∈ around next) →
      SeaInv w h hmap sl probed (cs.foldl (visitSea w h hmap sl next) st) ∧
      SeaGrow w h st (cs.foldl (visitSea w h hmap sl next) st) ∧
      (∀ c, c ∈ cs → inWorld w h c = true → ¬ (c.X = next.X ∧ c.Y = next.Y) →
        c ∈ (cs.foldl (visitSea w h hmap sl next) st).seen) := by
  induction cs with
  | nil =>
    intro st hinv _ _
    exact ⟨hinv, seaGrow_refl w h st, fun c hc => absurd hc (List.not_mem_nil c)⟩
  | cons c0 rest ih =>
    intro st hinv hnext hcs
    obtain ⟨hinv1, hgrow1, hseen1⟩ :=
      visitSea_inv w h hmap sl probed next st c0 hinv hnext (hcs c0 (List.mem_cons_self _ _))
    have hnext1 : next ∈ (visitSea w h hmap sl next st c0).stack := by
      obtain ⟨⟨e, he⟩, _, _⟩ := hgrow1
      rw [he]
      exact List.mem_append.mpr (Or.inl hnext)
    obtain ⟨hinv2, hgrow2, hseen2⟩ :=
      ih (visitSea w h hmap sl next st c0) hinv1 hnext1
        (fun c hc => hcs c (List.mem_cons_of_mem _ hc))
    rw [List.foldl_cons]
    refine ⟨hinv2, seaGrow_trans w h _ _ _ hgrow1 hgrow2, ?_⟩
    intro c hc hin hne
    rcases List.mem_cons.mp hc with rfl | hc
    · exact hgrow2.2.1 c (hseen1 hin hne)
    · exact hseen2 c hc hin hne

/-- One round of the flood loop keeps the invariant and lowers the measure. -/
theorem roundSea_inv (w h : Int) (hmap : Point → Nat) (sl : Nat) (probed : List Point)
    (st : SeaFlood) (next : Point) (rest : List Point)
    (hinv : SeaInv w h hmap sl probed st) (hst : st.stack = next :: rest) :
    SeaInv w h hmap sl probed
      { (around next).foldl (visitSea w h hmap sl next) st with
        stack := popFront ((around next).foldl (visitSea w h hmap sl next) st).stack } ∧
    seaMeasure w h
      { (around next).foldl (visitSea w h hmap sl next) st with
        stack := popFront ((around next).foldl (visitSea w h hmap sl next) st).stack } + 1 ≤
    seaMeasure w h st := by
  have hnext : next ∈ st.stack := by
    rw [hst]
    exact List.mem_cons_self _ _
  obtain ⟨hinv1, ⟨⟨extra, hextra⟩, hsub, hmeas⟩, hseen⟩ :=
    visitAll_inv w h hmap sl probed next (around next) st hinv hnext (fun c hc => hc)
  generalize (around next).foldl (visitSea w h hmap sl next) st = st1 at *
  have hstack : st1.stack = next :: (rest ++ extra) := by
    rw [hextra, hst, List.cons_append]
  have hmem : ∀ x, x ∈ popFront st1.stack ↔ x ∈ rest ++ extra := by
    intro x
    rw [hstack]
    exact mem_popFront next x (rest ++ extra)
  constructor
  · refine ⟨hinv1.bounds, hinv1.sound, hinv1.seenLow, ?_, ?_, ?_, hinv1.seeds⟩
    · intro p hp hpin
      refine hinv1.stackSea p ?_ hpin
      rw [hstack]
      exact List.mem_cons_of_mem _ ((hmem p).mp hp)
    · intro hw hh p hp
      refine hinv1.stackIn hw hh p ?_
      rw [hstack]
      exact List.mem_cons_of_mem _ ((hmem p).mp hp)
    · intro p hp
      rcases hinv1.closed p hp with hs | hq
      · rw [hstack] at hs
        rcases List.mem_cons.mp hs with rfl | hs
        · refine Or.inr (fun q ha hi => ?_)
          exact hseen q (mem_around p q ha) hi (fun hxy => ha.1 (by
            obtain ⟨qx, qy⟩ := q
            obtain ⟨px, py⟩ := p
            simp only at hxy
            rw [hxy.1, hxy.2]))
        · exact Or.inl ((hmem p).mpr hs)
      · exact Or.inr hq
  · unfold seaMeasure at hmeas ⊢
    have hlen : (popFront st1.stack).length = (rest ++ extra).length := by
      rw [hstack]
      exact length_popFront next (rest ++ extra)
    simp only [hlen]
    rw [hstack] at hmeas
    simp only [List.length_cons] at hmeas
    omega

/-- With fuel at least the measure, the flood loop ends, with an empty
worklist and the invariant. -/
theorem floodSea_terminates (w h : Int) (hmap : Point → Nat) (sl : Nat) (probed : List Point) :
    ∀ (fuel : Nat) (st : SeaFlood), SeaInv w h hmap sl probed st → seaMeasure w h st ≤ fuel →
      ∃ st1, floodSea w h hmap sl fuel st = some st1 ∧ SeaInv w h hmap sl probed st1 ∧
        st1.stack = [] := by
  intro fuel
  induction fuel with
  | zero =>
    intro st hinv hm
    cases hst : st.stack with
    | nil =>
      refine ⟨st, ?_, hinv, hst⟩
      unfold floodSea
      simp only [hst]
    | cons next rest =>
      unfold seaMeasure at hm
      rw [hst] at hm
      simp only [List.length_cons] at hm
      omega
  | succ n ih =>
    intro st hinv hm
    cases hst : st.stack with
    | nil =>
      refine ⟨st, ?_, hinv, hst⟩
      unfold floodSea
      simp only [hst]
    | cons next rest =>
      obtain ⟨hinv1, hm1⟩ := roundSea_inv w h hmap sl probed st next rest hinv hst
      obtain ⟨st1, hrun, hinv2, hempty⟩ := ih _ hinv1 (by omega)
      refine ⟨st1, ?_, hinv2, hempty⟩
      rw [← hrun]
      conv_lhs => unfold floodSea
      simp only [hst]

theorem adjacent8_symm (p q : Point) (ha : adjacent8 p q) : adjacent8 q p := by
  obtain ⟨hne, h1, h2, h3, h4⟩ := ha
  exact ⟨fun e => hne e.symm, by omega, by omega, by omega, by omega⟩

theorem seaChain_of_reach (w h : Int) (hmap : Point → Nat) (sl : Nat) (p : Point)
    (hr : SeaReach w h hmap sl p) : SeaChain w h hmap sl p := by
  induction hr with
  | seed p hlow hb =>
    refine ⟨[p], rfl, ⟨p, rfl, hb⟩, List.chain'_singleton p, ?_⟩
    intro q hq
    rw [List.mem_singleton.mp hq]
    exact hlow
  | step p q _ hadj hlow ih =>
    obtain ⟨chain, hhead, ⟨b, hlast, hb⟩, hch, hall⟩ := ih
    cases chain with
    | nil => simp at hhead
    | cons a t =>
      have ha : a = p := by simpa using hhead
      subst ha
      refine ⟨q :: a :: t, rfl, ⟨b, ?_, hb⟩, ?_, ?_⟩
      · rw [List.getLast?_cons_cons]
        exact hlast
      · exact List.Chain'.cons (adjacent8_symm a q hadj) hch
      · intro x hx
        rcases List.mem_cons.mp hx with rfl | hx
        · exact hlow
        · exact hall x hx

theorem reach_of_chain (w h : Int) (hmap : Point → Nat) (sl : Nat) (chain : List Point) :
    ∀ p, chain.head? = some p → (∃ b, chain.getLast? = some b ∧ onBorder w h b) →
      List.Chain' adjacent8 chain → (∀ q, q ∈ chain → lowPixel w h hmap sl q) →
      SeaReach w h hmap sl p := by
  induction chain with
  | nil =>
    intro p hhead
    simp at hhead
  | cons a t ih =>
    intro p hhead hlast hch hall
    have ha : a = p := by simpa using hhead
    subst ha
    cases t with
    | nil =>
      obtain ⟨b, hb1, hb2⟩ := hlast
      have hb : a = b := by simpa using hb1
      subst hb
      exact SeaReach.seed a (hall a (List.mem_cons_self _ _)) hb2
    | cons a2 t2 =>
      have hch2 := List.chain'_cons.mp hch
      have hlast2 : ∃ b, (a2 :: t2).getLast? = some b ∧ onBorder w h b := by
        obtain ⟨b, hb1, hb2⟩ := hlast
        rw [List.getLast?_cons_cons] at hb1
        exact ⟨b, hb1, hb2⟩
      have hr := ih a2 rfl hlast2 hch2.2 (fun q hq => hall q (List.mem_cons_of_mem _ hq))
      exact SeaReach.step a2 a hr (adjacent8_symm a a2 hch2.1)
        (hall a (List.mem_cons_self _ _))

theorem seaChain_iff_reach (w h : Int) (hmap : Point → Nat) (sl : Nat) (p : Point) :
    SeaChain w h hmap sl p ↔ SeaReach w h hmap sl p := by
  constructor
  · rintro ⟨chain, hhead, hlast, hch, hall⟩
    exact reach_of_chain w h hmap sl chain p hhead hlast hch hall
  · exact seaChain_of_reach w h hmap sl p

theorem seaSeeds_spec (w h : Int) (i : Point) (hi : i ∈ seaSeeds w h) :
    onBorder w h i ∧ (0 < w → 0 < h → inWorld w h i = true) := by
  unfold seaSeeds at hi
  simp only [List.mem_append, List.mem_flatMap, mem_rangeInt, List.mem_cons,
    List.mem_singleton, List.not_mem_nil, or_false] at hi
  unfold onBorder
  rcases hi with ⟨dx, hdx, rfl | rfl⟩ | ⟨dy, hdy, rfl | rfl⟩ <;>
    refine ⟨by simp, fun hw hh => ?_⟩ <;>
    rw [inWorld_iff] <;> simp only <;> omega

theorem mem_seaSeeds (w h : Int) (p : Point) (hin : inWorld w h p = true)
    (hb : onBorder w h p) : p ∈ seaSeeds w h := by
  rw [inWorld_iff] at hin
  obtain ⟨px, py⟩ := p
  simp only at hin
  unfold onBorder at hb
  simp only at hb
  unfold seaSeeds
  simp only [List.mem_append, List.mem_flatMap, mem_rangeInt, List.mem_cons,
    List.mem_singleton, List.not_mem_nil, or_false, Point.mk.injEq]
  rcases hb with rfl | rfl | rfl | rfl
  · exact Or.inr ⟨py, ⟨hin.2.2.1, hin.2.2.2⟩, Or.inl ⟨rfl, rfl⟩⟩
  · exact Or.inr ⟨py, ⟨hin.2.2.1, hin.2.2.2⟩, Or.inr ⟨rfl, rfl⟩⟩
  · exact Or.inl ⟨px, ⟨hin.1, hin.2.1⟩, Or.inl ⟨rfl, rfl⟩⟩
  · exact Or.inl ⟨px, ⟨hin.1, hin.2.1⟩, Or.inr ⟨rfl, rfl⟩⟩

/-- One border probe keeps the invariant and records the probe. -/
theorem seedSea_inv (w h : Int) (hmap : Point → Nat) (sl : Nat) (probed : List Point)
    (st : SeaFlood) (i : Point) (hinv : SeaInv w h hmap sl probed st)
    (hb : onBorder w h i) (hw : 0 < w → 0 < h → inWorld w h i = true) :
    SeaInv w h hmap sl (i :: probed) (seedSea hmap sl st i) := by
  unfold seedSea
  split_ifs with hlow
  · have hset : ∀ q, isSea (st.sea.Set i seaColor) q ↔
        (inWorld w h i = true ∧ q = i) ∨ isSea st.sea q := by
      intro q
      rw [isSea_Set, hinv.bounds, rectContains_world]
    refine ⟨?_, ?_, ?_, ?_, ?_, ?_, ?_⟩
    · show (st.sea.Set i seaColor).bounds = _
      rw [bounds_Set]
      exact hinv.bounds
    · intro p hp
      rcases (hset p).mp hp with ⟨hin, rfl⟩ | hp
      · exact SeaReach.seed p ⟨hin, hlow⟩ hb
      · exact hinv.sound p hp
    · intro p hp hpl
      rcases List.mem_cons.mp hp with rfl | hp
      · exact (hset p).mpr (Or.inl ⟨hpl.1, rfl⟩)
      · exact (hset p).mpr (Or.inr (hinv.seenLow p hp hpl))
    · intro p hp hpin
      rcases List.mem_append.mp hp with hp | hp
      · exact (hset p).mpr (Or.inr (hinv.stackSea p hp hpin))
      · have hpi : p = i := List.mem_singleton.mp hp
        subst hpi
        exact (hset p).mpr (Or.inl ⟨hpin, rfl⟩)
    · intro hw1 hh1 p hp
      rcases List.mem_append.mp hp with hp | hp
      · exact hinv.stackIn hw1 hh1 p hp
      · rw [List.mem_singleton.mp hp]
        exact hw hw1 hh1
    · intro p hp
      rcases (hset p).mp hp with ⟨_, rfl⟩ | hp
      · exact Or.inl (List.mem_append.mpr (Or.inr (List.mem_singleton.mpr rfl)))
      · rcases hinv.closed p hp with hs | hq
        · exact Or.inl (List.mem_append.mpr (Or.inl hs))
        · exact Or.inr (fun q ha hi => List.mem_cons_of_mem _ (hq q ha hi))
    · intro p hp hpl
      rcases List.mem_cons.mp hp with rfl | hp
      · exact (hset p).mpr (Or.inl ⟨hpl.1, rfl⟩)
      · exact (hset p).mpr (Or.inr (hinv.seeds p hp hpl))
  · refine ⟨hinv.bounds, hinv.sound, hinv.seenLow, hinv.stackSea, hinv.stackIn, hinv.closed, ?_⟩
    intro p hp hpl
    rcases List.mem_cons.mp hp with rfl | hp
    · exact absurd hpl.2 hlow
    · exact hinv.seeds p hp hpl

theorem seedAll_inv (w h : Int) (hmap : Point → Nat) (sl : Nat) (cs : List Point) :
    ∀ (probed : List Point) (st : SeaFlood), SeaInv w h hmap sl probed st →
      (∀ i, i ∈ cs → onBorder w h i ∧ (0 < w → 0 < h → inWorld w h i = true)) →
      SeaInv w h hmap sl (cs.reverse ++ probed) (cs.foldl (seedSea hmap sl) st) := by
  induction cs with
  | nil =>
    intro probed st hinv _
    exact hinv
  | cons i rest ih =>
    intro probed st hinv hcs
    have h1 := seedSea_inv w h hmap sl probed st i hinv (hcs i (List.mem_cons_self _ _)).1
      (hcs i (List.mem_cons_self _ _)).2
    have h2 := ih (i :: probed) (seedSea hmap sl st i) h1
      (fun j hj => hcs j (List.mem_cons_of_mem _ hj))
    rw [List.foldl_cons, List.reverse_cons, List.append_assoc]
    exact h2

theorem seaInv_blank (w h : Int) (hmap : Point → Nat) (sl : Nat) :
    SeaInv w h hmap sl [] ⟨[], [], Canvas.blank w h⟩ := by
  have hno : ∀ p, ¬ isSea (Canvas.blank w h) p := by
    intro p hp
    exact absurd hp (Nat.lt_irrefl 0)
  refine ⟨rfl, ?_, ?_, ?_, ?_, ?_, ?_⟩
  · intro p hp
    exact absurd hp (hno p)
  · intro p hp
    exact absurd hp (List.not_mem_nil p)
  · intro p hp
    exact absurd hp (List.not_mem_nil p)
  · intro _ _ p hp
    exact absurd hp (List.not_mem_nil p)
  · intro p hp
    exact absurd hp (hno p)
  · intro p hp
    exact absurd hp (List.not_mem_nil p)

theorem seededSea_inv (w h : Int) (hmap : Point → Nat) (sl : Nat) :
    SeaInv w h hmap sl ((seaSeeds w h).reverse ++ []) (seededSea w h hmap sl) :=
  seedAll_inv w h hmap sl (seaSeeds w h) [] _ (seaInv_blank w h hmap sl)
    (fun i hi => seaSeeds_spec w h i hi)

/-- The flood of `determineSea` ends within its fuel; the canvas it returns
has the bounds of the world, and a pixel is painted on it exactly when the
flood can reach it. -/
theorem determineSea_reach (w h : Int) (hmap : Point → Nat) (sealevel : Nat) :
    ∃ sea, determineSea w h hmap sealevel = some sea ∧ sea.bounds = ⟨0, 0, w, h⟩ ∧
      ∀ p, isSea sea p ↔ SeaReach w h hmap sealevel p := by
  have hinv0 := seededSea_inv w h hmap sealevel
  have hm : seaMeasure w h (seededSea w h hmap sealevel) ≤
      (seededSea w h hmap sealevel).stack.length + (scanOrder ⟨0, 0, w, h⟩).length := by
    unfold seaMeasure
    exact Nat.add_le_add_left (List.length_filter_le _ _) _
  obtain ⟨st1, hrun, hinv, hempty⟩ :=
    floodSea_terminates w h hmap sealevel _ _ _ hinv0 hm
  refine ⟨st1.sea, ?_, hinv.bounds, ?_⟩
  · unfold determineSea
    simp only [hrun, Option.map_some']
  · intro p
    constructor
    · exact hinv.sound p
    · intro hr
      induction hr with
      | seed p hlow hb =>
        refine hinv.seeds p ?_ hlow
        rw [List.append_nil, List.mem_reverse]
        exact mem_seaSeeds w h p hlow.1 hb
      | step p q _ hadj hlow ih =>
        rcases hinv.closed p ih with hs | hq
        · rw [hempty] at hs
          exact absurd hs (List.not_mem_nil p)
        · exact hinv.seenLow q (hq q hadj hlow.1) hlow

/-- C3: `determineSea` returns a canvas, and on it a pixel is painted as sea
exactly when it is a pixel of the world at or below the sea level that is
joined to a border pixel at or below the sea level by a chain of adjacent
(8-neighbour) pixels of the world, all at or below the sea level; so a low
pixel with no such chain to the border stays land. -/
theorem determineSea_floods_from_border (w h : Int) (hmap : Point → Nat) (sealevel : Nat) :
    ∃ sea, determineSea w h hmap sealevel = some sea ∧
      ∀ p, isSea sea p ↔ SeaChain w h hmap sealevel p := by
  obtain ⟨sea, h1, _, h2⟩ := determineSea_reach w h hmap sealevel
  refine ⟨sea, h1, fun p => ?_⟩
  rw [seaChain_iff_reach]
  exact h2 p

end Geography

namespace Dijkstra

/-! ## Maps held as association lists -/

theorem mapGet_filter_ne {κ α : Type} [DecidableEq κ] (m : List (κ × α)) (k k1 : κ) :
    mapGet (m.filter (fun e => decide (e.1 ≠ k))) k1 = if k1 = k then none else mapGet m k1 := by
  induction m with
  | nil =>
    simp only [List.filter_nil, mapGet]
    split <;> rfl
  | cons e rest ih =>
    rw [List.filter_cons]
    by_cases he : e.1 = k
    · have hd : decide (e.1 ≠ k) = false := by simp [he]
      rw [hd]
      simp only [Bool.false_eq_true, if_false]
      rw [ih]
      by_cases hk : k1 = k
      · simp only [hk, if_true]
      · simp only [hk, if_false]
        have : ¬ e.1 = k1 := fun h => hk (h ▸ he)
        simp only [mapGet, this, if_false]
    · have hd : decide (e.1 ≠ k) = true := by simp [he]
      rw [hd]
      simp only [if_true, mapGet]
      rw [ih]
      by_cases hk : k1 = k
      · have : ¬ e.1 = k1 := fun h => he (h.trans hk)
        simp only [hk, if_true, this, if_false]
        rw [if_neg (by rw [← hk]; exact this)]
      · simp only [hk, if_false]

theorem mapGet_mapSet {κ α : Type} [DecidableEq κ] (m : List (κ × α)) (k k1 : κ) (v : α) :
    mapGet (mapSet m k v) k1 = if k1 = k then some v else mapGet m k1 := by
  unfold mapSet
  rw [mapGet, mapGet_filter_ne]
  by_cases hk : k1 = k
  · simp only [hk, if_true]
  · have : ¬ k = k1 := fun h => hk h.symm
    simp only [hk, this, if_false]

theorem mapGet_isSome_iff {κ α : Type} [DecidableEq κ] (m : List (κ × α)) (k : κ) :
    (mapGet m k).isSome = true ↔ k ∈ m.map Prod.fst := by
  induction m with
  | nil => simp [mapGet]
  | cons e rest ih =>
    simp only [mapGet, List.map_cons, List.mem_cons]
    by_cases he : e.1 = k
    · simp [he]
    · simp only [he, if_false, ih]
      constructor
      · exact Or.inr
      · rintro (h | h)
        · exact absurd h.symm he
        · exact h

theorem arc_AddArc (d : DijGraph) (s t s1 t1 : Nat) (c : Int) :
    (d.AddArc s t c).arc s1 t1 = if s1 = s ∧ t1 = t then some c else d.arc s1 t1 := by
  unfold DijGraph.AddArc DijGraph.arc
  rw [mapGet_mapSet]
  simp only [Prod.mk.injEq]

theorem arc_foldl_AddArc (nbrs : List Nat) (pid : Nat) (c : Int) :
    ∀ (d : DijGraph) (u v : Nat),
      (nbrs.foldl (fun d nid => d.AddArc nid pid c) d).arc u v =
        if u ∈ nbrs ∧ v = pid then some c else d.arc u v := by
  induction nbrs with
  | nil =>
    intro d u v
    simp
  | cons n rest ih =>
    intro d u v
    rw [List.foldl_cons, ih, arc_AddArc]
    by_cases hv : v = pid
    · by_cases hu : u ∈ rest
      · simp [hv, hu]
      · by_cases hn : u = n
        · simp [hv, hn]
        · simp [hv, hu, hn]
    · simp [hv]

/-! ## The point lookup built by New -/

theorem buildLookupFrom_not_mem (vs : List Point) :
    ∀ (i : Nat) (m : List (Point × Nat)) (p : Point), p ∉ vs →
      mapGet (buildLookupFrom i m vs) p = mapGet m p := by
  induction vs with
  | nil =>
    intro i m p _
    rfl
  | cons q rest ih =>
    intro i m p hp
    have hq : p ≠ q := fun h => hp (h ▸ List.mem_cons_self _ _)
    have hr : p ∉ rest := fun h => hp (List.mem_cons_of_mem _ h)
    rw [buildLookupFrom, ih _ _ p hr, mapGet_mapSet, if_neg hq]

theorem buildLookupFrom_some (vs : List Point) :
    ∀ (i : Nat) (m : List (Point × Nat)) (p : Point) (k : Nat),
      mapGet (buildLookupFrom i m vs) p = some k →
      (p ∉ vs ∧ mapGet m p = some k) ∨ (i ≤ k ∧ vs[k - i]? = some p) := by
  induction vs with
  | nil =>
    intro i m p k hk
    exact Or.inl ⟨List.not_mem_nil p, hk⟩
  | cons q rest ih =>
    intro i m p k hk
    rw [buildLookupFrom] at hk
    rcases ih _ _ p k hk with ⟨hnot, hget⟩ | ⟨hle, hget⟩
    · rw [mapGet_mapSet] at hget
      by_cases hpq : p = q
      · rw [if_pos hpq] at hget
        have hki : i = k := Option.some.inj hget
        refine Or.inr ⟨by omega, ?_⟩
        rw [← hki, Nat.sub_self, hpq]
        exact List.getElem?_cons_zero
      · rw [if_neg hpq] at hget
        refine Or.inl ⟨?_, hget⟩
        intro hmem
        rcases List.mem_cons.mp hmem with h | h
        · exact hpq h
        · exact hnot h
    · refine Or.inr ⟨by omega, ?_⟩
      have hk1 : k - i = (k - (i + 1)) + 1 := by omega
      rw [hk1, List.getElem?_cons_succ]
      exact hget

theorem buildLookupFrom_mem (vs : List Point) :
    ∀ (i : Nat) (m : List (Point × Nat)) (p : Point), p ∈ vs →
      ∃ k, mapGet (buildLookupFrom i m vs) p = some k := by
  induction vs with
  | nil =>
    intro i m p hp
    exact absurd hp (List.not_mem_nil p)
  | cons q rest ih =>
    intro i m p hp
    rw [buildLookupFrom]
    by_cases hr : p ∈ rest
    · exact ih _ _ p hr
    · have hpq : p = q := by
        rcases List.mem_cons.mp hp with h | h
        · exact h
        · exact absurd h hr
      refine ⟨i, ?_⟩
      rw [buildLookupFrom_not_mem rest _ _ p hr, mapGet_mapSet, if_pos hpq]

/-- The lookup maps a point to an index of `verts` that holds the point. -/
theorem buildLookup_some (verts : List Point) (p : Point) (k : Nat)
    (hk : mapGet (buildLookup verts) p = some k) : verts[k]? = some p := by
  rcases buildLookupFrom_some verts 0 [] p k hk with ⟨_, hget⟩ | ⟨_, hget⟩
  · simp [mapGet] at hget
  · simpa using hget

/-- The lookup knows every vertex. -/
theorem buildLookup_mem (verts : List Point) (p : Point) (hp : p ∈ verts) :
    ∃ k, mapGet (buildLookup verts) p = some k :=
  buildLookupFrom_mem verts 0 [] p hp

theorem buildLookup_lt (verts : List Point) (p : Point) (k : Nat)
    (hk : mapGet (buildLookup verts) p = some k) : k < verts.length := by
  have h := buildLookup_some verts p k hk
  exact (List.getElem?_eq_some_iff.mp h).1

theorem buildLookup_inj (verts : List Point) (p q : Point) (k : Nat)
    (hp : mapGet (buildLookup verts) p = some k) (hq : mapGet (buildLookup verts) q = some k) :
    p = q := by
  have h1 := buildLookup_some verts p k hp
  have h2 := buildLookup_some verts q k hq
  rw [h1] at h2
  exact Option.some.inj h2

/-! ## The edge loop of New -/

theorem getElem?_set_cases (l : List Int) (i j : Nat) (a : Int) :
    (l.set i a)[j]? = l[j]? ∨ ((l.set i a)[j]? = some a ∧ j = i ∧ i < l.length) := by
  rw [List.getElem?_set]
  by_cases hij : i = j
  · subst hij
    by_cases hlt : i < l.length
    · exact Or.inr ⟨by simp [hlt], rfl, hlt⟩
    · refine Or.inl ?_
      have hn : l[i]? = none := by
        rw [List.getElem?_eq_none_iff]
        omega
      simp [hlt, hn]
  · exact Or.inl (by simp [hij])

theorem getElem?_set_self (l : List Int) (i : Nat) (a : Int) (h : i < l.length) :
    (l.set i a)[i]? = some a := by
  rw [List.getElem?_set]
  simp [h]

theorem markRel_refl (dw : Int) (id0 id1 : Nat) (st : Build) : MarkRel dw id0 id1 st st :=
  ⟨rfl, fun _ => rfl, fun _ => rfl,
   fun _ ws1 h => ⟨ws1, h, rfl, fun _ => Or.inl rfl⟩,
   fun _ d1 h => ⟨d1, h, fun _ _ => Or.inl rfl⟩⟩

theorem markRel_trans (dw : Int) (id0 id1 : Nat) (a b c : Build)
    (h1 : MarkRel dw id0 id1 a b) (h2 : MarkRel dw id0 id1 b c) : MarkRel dw id0 id1 a c := by
  refine ⟨h2.ns.trans h1.ns, fun t => (h2.dijKeys t).trans (h1.dijKeys t),
    fun t => (h2.wKeys t).trans (h1.wKeys t), ?_, ?_⟩
  · intro tag ws2 hws2
    obtain ⟨ws1, hws1, hl1, hv1⟩ := h2.ws tag ws2 hws2
    obtain ⟨ws, hws, hl, hv⟩ := h1.ws tag ws1 hws1
    refine ⟨ws, hws, hl1.trans hl, fun i => ?_⟩
    rcases hv1 i with e1 | e1
    · rcases hv i with e | e
      · exact Or.inl (e1.trans e)
      · exact Or.inr (e1.trans e)
    · exact Or.inr e1
  · intro tag d2 hd2
    obtain ⟨d1, hd1, ha1⟩ := h2.arcs tag d2 hd2
    obtain ⟨d, hd, ha⟩ := h1.arcs tag d1 hd1
    refine ⟨d, hd, fun u v => ?_⟩
    rcases ha1 u v with e1 | e1
    · rcases ha u v with e | e
      · exact Or.inl (e1.trans e)
      · exact Or.inr (e1.trans e)
    · exact Or.inr e1

/-- One round of the tag loop changes only what `MarkRel` allows, marks its
own channel and keeps the marks of the others. -/
theorem markTag_spec (dw : Int) (id0 id1 : Nat) (st : Build) (t : String) :
    MarkRel dw id0 id1 st (markTag dw id0 id1 st t) ∧
    Marked dw id0 id1 (markTag dw id0 id1 st t) t ∧
    (∀ tag, Marked dw id0 id1 st tag → Marked dw id0 id1 (markTag dw id0 id1 st t) tag) := by
  unfold markTag
  cases hd : mapGet st.dij t with
  | none =>
    refine ⟨markRel_refl dw id0 id1 st, ?_, fun _ h => h⟩
    intro d ws hd1
    rw [hd] at hd1
    exact absurd hd1 (by simp)
  | some d0 =>
    cases hw : mapGet st.weights t with
    | none =>
      refine ⟨markRel_refl dw id0 id1 st, ?_, fun _ h => h⟩
      intro d ws _ hw1
      rw [hw] at hw1
      exact absurd hw1 (by simp)
    | some ws0 =>
      simp only
      have hmark : Marked dw id0 id1
          { st with
            weights := mapSet st.weights t ((ws0.set id0 dw).set id1 dw)
            dij := mapSet st.dij t ((d0.AddArc id0 id1 dw).AddArc id1 id0 dw) } t := by
        intro d ws hd1 hw1
        simp only [mapGet_mapSet, if_true] at hd1 hw1
        have hd2 := Option.some.inj hd1
        have hw2 := Option.some.inj hw1
        subst hd2
        subst hw2
        refine ⟨?_, ?_, ?_, ?_⟩
        · rw [arc_AddArc, arc_AddArc]
          by_cases h : id0 = id1
          · subst h
            simp
          · simp [h]
        · rw [arc_AddArc]
          simp
        · intro hlt
          simp only [List.length_set] at hlt
          rcases getElem?_set_cases (ws0.set id0 dw) id1 id0 dw with e | e
          · rw [e]
            exact getElem?_set_self ws0 id0 dw hlt
          · exact e.1
        · intro hlt
          simp only [List.length_set] at hlt
          exact getElem?_set_self _ id1 dw (by simpa using hlt)
      refine ⟨⟨rfl, ?_, ?_, ?_, ?_⟩, hmark, ?_⟩
      · intro tag
        simp only [mapGet_mapSet]
        by_cases h : tag = t
        · simp [h, hd]
        · simp [h]
      · intro tag
        simp only [mapGet_mapSet]
        by_cases h : tag = t
        · simp [h, hw]
        · simp [h]
      · intro tag ws1 hws1
        simp only [mapGet_mapSet] at hws1
        by_cases h : tag = t
        · rw [if_pos h] at hws1
          have e := Option.some.inj hws1
          subst e
          refine ⟨ws0, by rw [h]; exact hw, by simp, fun i => ?_⟩
          rcases getElem?_set_cases (ws0.set id0 dw) id1 i dw with e1 | e1
          · rcases getElem?_set_cases ws0 id0 i dw with e2 | e2
            · exact Or.inl (e1.trans e2)
            · exact Or.inr (e1.trans e2.1)
          · exact Or.inr e1.1
        · rw [if_neg h] at hws1
          exact ⟨ws1, hws1, rfl, fun _ => Or.inl rfl⟩
      · intro tag d1 hd1
        simp only [mapGet_mapSet] at hd1
        by_cases h : tag = t
        · rw [if_pos h] at hd1
          have e := Option.some.inj hd1
          subst e
          refine ⟨d0, by rw [h]; exact hd, fun u v => ?_⟩
          rw [arc_AddArc, arc_AddArc]
          by_cases h1 : u = id1 ∧ v = id0
          · exact Or.inr (by simp [h1])
          · by_cases h2 : u = id0 ∧ v = id1
            · exact Or.inr (by simp [h1, h2])
            · exact Or.inl (by simp [h1, h2])
        · rw [if_neg h] at hd1
          exact ⟨d1, hd1, fun _ _ => Or.inl rfl⟩
      · intro tag hm
        by_cases h : tag = t
        · rw [h]
          exact hmark
        · intro d ws hd1 hw1
          simp only [mapGet_mapSet, if_neg h] at hd1 hw1
          exact hm d ws hd1 hw1

theorem markEdge_spec (dw : Int) (id0 id1 : Nat) (ts : List String) :
    ∀ st : Build,
      MarkRel dw id0 id1 st (markEdge dw id0 id1 st ts) ∧
      (∀ tag, tag ∈ ts → Marked dw id0 id1 (markEdge dw id0 id1 st ts) tag) ∧
      (∀ tag, Marked dw id0 id1 st tag → Marked dw id0 id1 (markEdge dw id0 id1 st ts) tag) := by
  induction ts with
  | nil =>
    intro st
    exact ⟨markRel_refl dw id0 id1 st, fun tag h => absurd h (List.not_mem_nil tag), fun _ h => h⟩
  | cons t rest ih =>
    intro st
    obtain ⟨r1, m1, k1⟩ := markTag_spec dw id0 id1 st t
    obtain ⟨r2, m2, k2⟩ := ih (markTag dw id0 id1 st t)
    have he : markEdge dw id0 id1 st (t :: rest) =
        markEdge dw id0 id1 (markTag dw id0 id1 st t) rest := rfl
    rw [he]
    refine ⟨markRel_trans dw id0 id1 _ _ _ r1 r2, ?_, fun tag h => k2 tag (k1 tag h)⟩
    intro tag htag
    rcases List.mem_cons.mp htag with h | h
    · rw [h]
      exact k2 t m1
    · exact m2 tag h

theorem appendNeighbour_length (ns : List (List Nat)) (i x : Nat) :
    (appendNeighbour ns i x).length = ns.length := by
  unfold appendNeighbour
  simp

theorem appendNeighbour_get (ns : List (List Nat)) (i x j : Nat) (l1 : List Nat)
    (h : (appendNeighbour ns i x)[j]? = some l1) :
    ∃ l, ns[j]? = some l ∧ l1 = if j = i then l ++ [x] else l := by
  unfold appendNeighbour at h
  rw [List.getElem?_set] at h
  by_cases hij : i = j
  · rw [if_pos hij] at h
    by_cases hlt : i < ns.length
    · rw [if_pos hlt] at h
      have hget : ns[i]? = some (ns.getD i []) := by
        rw [List.getD_eq_getElem?_getD, List.getElem?_eq_getElem hlt]
        rfl
      refine ⟨ns.getD i [], by rw [← hij]; exact hget, ?_⟩
      rw [if_pos hij.symm]
      exact (Option.some.inj h).symm
    · rw [if_neg hlt] at h
      exact absurd h (by simp)
  · rw [if_neg hij] at h
    refine ⟨l1, h, ?_⟩
    rw [if_neg (fun e => hij e.symm)]

theorem appendNeighbour_mono (ns : List (List Nat)) (i x j : Nat) (l : List Nat)
    (h : ns[j]? = some l) :
    (appendNeighbour ns i x)[j]? = some (if j = i then l ++ [x] else l) := by
  unfold appendNeighbour
  rw [List.getElem?_set]
  have hj : j < ns.length := (List.getElem?_eq_some_iff.mp h).1
  by_cases hij : i = j
  · subst hij
    rw [if_pos rfl, if_pos hj, if_pos rfl]
    have hget : ns.getD i [] = l := by
      rw [List.getD_eq_getElem?_getD, h]
      rfl
    rw [hget]
  · rw [if_neg hij, if_neg (fun e => hij e.symm)]
    exact h

theorem twoAppends_get (ns : List (List Nat)) (id0 id1 j : Nat) (l2 : List Nat)
    (h : (appendNeighbour (appendNeighbour ns id0 id1) id1 id0)[j]? = some l2) :
    ∃ l, ns[j]? = some l ∧
      ∀ x, x ∈ l2 ↔ (x ∈ l ∨ (j = id0 ∧ x = id1) ∨ (j = id1 ∧ x = id0)) := by
  obtain ⟨l1, h1, e1⟩ := appendNeighbour_get _ id1 id0 j l2 h
  obtain ⟨l, h0, e0⟩ := appendNeighbour_get ns id0 id1 j l1 h1
  refine ⟨l, h0, fun x => ?_⟩
  rw [e1, e0]
  by_cases ha : j = id1
  · by_cases hb : j = id0
    · rw [if_pos ha, if_pos hb]
      simp only [List.mem_append, List.mem_singleton]
      tauto
    · rw [if_pos ha, if_neg hb]
      simp only [List.mem_append, List.mem_singleton]
      tauto
  · by_cases hb : j = id0
    · rw [if_neg ha, if_pos hb]
      simp only [List.mem_append, List.mem_singleton]
      tauto
    · rw [if_neg ha, if_neg hb]
      tauto

theorem twoAppends_some (ns : List (List Nat)) (id0 id1 j : Nat) (l : List Nat)
    (h : ns[j]? = some l) :
    ∃ l2, (appendNeighbour (appendNeighbour ns id0 id1) id1 id0)[j]? = some l2 :=
  ⟨_, appendNeighbour_mono _ id1 id0 j _ (appendNeighbour_mono ns id0 id1 j l h)⟩

theorem getElem?_of_lt (ns : List (List Nat)) (j : Nat) (h : j < ns.length) :
    ∃ l, ns[j]? = some l :=
  ⟨ns[j], List.getElem?_eq_getElem h⟩

/-- Handling one edge keeps the invariant of the edge loop. -/
theorem addEdge_inv (dw : Int) (names : List String) (verts : List Point)
    (done : List (Point × Point)) (st st1 : Build) (e : Point × Point)
    (hinv : BuildInv dw names verts done st)
    (hadd : addEdge dw (buildLookup verts) st e = .ok st1) :
    BuildInv dw names verts (e :: done) st1 := by
  unfold addEdge at hadd
  cases h0 : mapGet (buildLookup verts) e.1 with
  | none =>
    rw [h0] at hadd
    exact absurd hadd (by simp)
  | some id0 =>
    cases h1 : mapGet (buildLookup verts) e.2 with
    | none =>
      rw [h0, h1] at hadd
      exact absurd hadd (by simp)
    | some id1 =>
      rw [h0, h1] at hadd
      simp only [Except.ok.injEq] at hadd
      have hlt0 : id0 < verts.length := buildLookup_lt verts e.1 id0 h0
      have hlt1 : id1 < verts.length := buildLookup_lt verts e.2 id1 h1
      obtain ⟨hrel, hmark, _⟩ := markEdge_spec dw id0 id1 (st.dij.map Prod.fst)
        { st with ns := appendNeighbour (appendNeighbour st.ns id0 id1) id1 id0 }
      rw [hadd] at hrel hmark
      have hns : st1.ns = appendNeighbour (appendNeighbour st.ns id0 id1) id1 id0 := hrel.ns
      have hmk : ∀ tag d1 ws1, mapGet st1.dij tag = some d1 → mapGet st1.weights tag = some ws1 →
          d1.arc id0 id1 = some dw ∧ d1.arc id1 id0 = some dw ∧
          ws1[id0]? = some dw ∧ ws1[id1]? = some dw := by
        intro tag d1 ws1 hd hw
        obtain ⟨ws, hw0, hl, _⟩ := hrel.ws tag ws1 hw
        have hlen : ws1.length = verts.length := hl.trans (hinv.wLen tag ws hw0)
        have hmem : tag ∈ st.dij.map Prod.fst := by
          rw [← mapGet_isSome_iff]
          have := hrel.dijKeys tag
          rw [hd] at this
          exact this.symm
        obtain ⟨a1, a2, a3, a4⟩ := hmark tag hmem d1 ws1 hd hw
        exact ⟨a1, a2, a3 (by omega), a4 (by omega)⟩
      refine ⟨?_, ?_, ?_, ?_, ?_, ?_, ⟨?_, ?_⟩⟩
      · intro tag
        rw [hrel.dijKeys tag]
        exact hinv.dijKeys tag
      · intro tag
        rw [hrel.wKeys tag]
        exact hinv.wKeys tag
      · intro tag ws1 hw
        obtain ⟨ws, hw0, hl, _⟩ := hrel.ws tag ws1 hw
        exact hl.trans (hinv.wLen tag ws hw0)
      · rw [hns, appendNeighbour_length, appendNeighbour_length]
        exact hinv.nsLen
      · intro tag d1 ws1 hd hw v nbrs1 hv u hu
        rw [hns] at hv
        obtain ⟨l, hl0, hmem⟩ := twoAppends_get st.ns id0 id1 v nbrs1 hv
        obtain ⟨d, hd0, ha⟩ := hrel.arcs tag d1 hd
        obtain ⟨ws, hw0, _, hvals⟩ := hrel.ws tag ws1 hw
        obtain ⟨m1, m2, m3, m4⟩ := hmk tag d1 ws1 hd hw
        rcases (hmem u).mp hu with hu | ⟨rfl, rfl⟩ | ⟨rfl, rfl⟩
        · obtain ⟨o1, o2⟩ := hinv.arcs tag d ws hd0 hw0 v l hl0 u hu
          constructor
          · rcases ha u v with e1 | e1
            · exact e1.trans o1
            · exact e1
          · rcases hvals v with e1 | e1
            · exact e1.trans o2
            · exact e1
        · exact ⟨m2, m3⟩
        · exact ⟨m1, m4⟩
      · intro tag ws1 hw x hx
        obtain ⟨ws, hw0, _, hvals⟩ := hrel.ws tag ws1 hw
        obtain ⟨i, hi⟩ := List.mem_iff_getElem?.mp hx
        rcases hvals i with e1 | e1
        · rw [hi] at e1
          exact hinv.wVals tag ws hw0 x (List.mem_iff_getElem?.mpr ⟨i, e1.symm⟩)
        · rw [hi] at e1
          exact Or.inr (Option.some.inj e1)
      · intro a b hab
        have hsome : ∀ j, j < verts.length → ∃ l l2, st.ns[j]? = some l ∧
            st1.ns[j]? = some l2 ∧
            ∀ x, x ∈ l2 ↔ (x ∈ l ∨ (j = id0 ∧ x = id1) ∨ (j = id1 ∧ x = id0)) := by
          intro j hj
          obtain ⟨l, hl⟩ := getElem?_of_lt st.ns j (by rw [hinv.nsLen]; exact hj)
          obtain ⟨l2, hl2⟩ := twoAppends_some st.ns id0 id1 j l hl
          obtain ⟨l3, hl3, hmem⟩ := twoAppends_get st.ns id0 id1 j l2 hl2
          rw [hl] at hl3
          have e3 := Option.some.inj hl3
          subst e3
          exact ⟨l, l2, hl, by rw [hns]; exact hl2, hmem⟩
        rcases List.mem_cons.mp hab with hnew | hold
        · have ea : a = e.1 := congrArg Prod.fst hnew
          have eb : b = e.2 := congrArg Prod.snd hnew
          obtain ⟨_, n0, _, hn0, hm0⟩ := hsome id0 hlt0
          obtain ⟨_, n1, _, hn1, hm1⟩ := hsome id1 hlt1
          refine ⟨id0, id1, n0, n1, by rw [ea]; exact h0, by rw [eb]; exact h1, hn0, ?_, hn1, ?_⟩
          · exact (hm0 id1).mpr (Or.inr (Or.inl ⟨rfl, rfl⟩))
          · exact (hm1 id0).mpr (Or.inr (Or.inr ⟨rfl, rfl⟩))
        · obtain ⟨u, v, nu, nv, hu, hv, hnu, hvu, hnv, huv⟩ := hinv.edgesOf.edgeNbr a b hold
          obtain ⟨lu, nu2, hlu, hnu2, hmu⟩ := hsome u (buildLookup_lt verts a u hu)
          obtain ⟨lv, nv2, hlv, hnv2, hmv⟩ := hsome v (buildLookup_lt verts b v hv)
          rw [hnu] at hlu
          rw [hnv] at hlv
          have e1 := Option.some.inj hlu
          have e2 := Option.some.inj hlv
          subst e1
          subst e2
          exact ⟨u, v, nu2, nv2, hu, hv, hnu2, (hmu v).mpr (Or.inl hvu), hnv2,
            (hmv u).mpr (Or.inl huv)⟩
      · intro u nu v hnu hv
        rw [hns] at hnu
        obtain ⟨l, hl0, hmem⟩ := twoAppends_get st.ns id0 id1 u nu hnu
        rcases (hmem v).mp hv with hv | ⟨rfl, rfl⟩ | ⟨rfl, rfl⟩
        · obtain ⟨a, b, ha, hb, hab⟩ := hinv.edgesOf.nbrEdge u l v hl0 hv
          refine ⟨a, b, ha, hb, ?_⟩
          rcases hab with h | h
          · exact Or.inl (List.mem_cons_of_mem _ h)
          · exact Or.inr (List.mem_cons_of_mem _ h)
        · exact ⟨e.1, e.2, h0, h1, Or.inl (List.mem_cons_self _ _)⟩
        · exact ⟨e.2, e.1, h1, h0, Or.inr (List.mem_cons_self _ _)⟩

theorem addEdges_inv (dw : Int) (names : List String) (verts : List Point)
    (es : List (Point × Point)) :
    ∀ (done : List (Point × Point)) (st st1 : Build), BuildInv dw names verts done st →
      addEdges dw (buildLookup verts) st es = .ok st1 →
      BuildInv dw names verts (es.reverse ++ done) st1 := by
  induction es with
  | nil =>
    intro done st st1 hinv hadd
    simp only [addEdges, Except.ok.injEq] at hadd
    rw [← hadd]
    exact hinv
  | cons e rest ih =>
    intro done st st1 hinv hadd
    rw [addEdges] at hadd
    cases h1 : addEdge dw (buildLookup verts) st e with
    | error err =>
      rw [h1] at hadd
      exact absurd hadd (by simp)
    | ok st2 =>
      rw [h1] at hadd
      have h2 := ih (e :: done) st2 st1 (addEdge_inv dw names verts done st st2 e hinv h1) hadd
      rw [List.reverse_cons, List.append_assoc]
      exact h2

theorem mapGet_foldl_const {α : Type} (names : List String) (c : α) :
    ∀ (m : List (String × α)) (tag : String),
      mapGet (names.foldl (fun m t => mapSet m t c) m) tag =
        if tag ∈ names then some c else mapGet m tag := by
  induction names with
  | nil =>
    intro m tag
    simp
  | cons n rest ih =>
    intro m tag
    rw [List.foldl_cons, ih, mapGet_mapSet]
    by_cases h1 : tag ∈ rest
    · simp [h1]
    · by_cases h2 : tag = n
      · simp [h2]
      · simp [h1, h2]

/-- What `New` establishes. -/
theorem New_inv (dw : Int) (names : List String) (verts : List Point)
    (edges : List (Point × Point)) (g : Graph) (hnew : New dw names verts edges = .ok g) :
    ChanInv names g ∧ ArcInv g ∧ Topology verts edges g ∧ (0 ≤ dw → NonNeg g) := by
  unfold New at hnew
  simp only at hnew
  cases hadd : addEdges dw (buildLookup verts)
      ⟨List.replicate verts.length [],
       names.foldl (fun m tag => mapSet m tag (List.replicate verts.length (0 : Int))) [],
       names.foldl (fun m tag => mapSet m tag (⟨[]⟩ : DijGraph)) []⟩ edges with
  | error err =>
    rw [hadd] at hnew
    exact absurd hnew (by simp)
  | ok st =>
    rw [hadd] at hnew
    simp only [Except.ok.injEq] at hnew
    have hinit : BuildInv dw names verts []
        ⟨List.replicate verts.length [],
         names.foldl (fun m tag => mapSet m tag (List.replicate verts.length (0 : Int))) [],
         names.foldl (fun m tag => mapSet m tag (⟨[]⟩ : DijGraph)) []⟩ := by
      refine ⟨?_, ?_, ?_, ?_, ?_, ?_, ⟨?_, ?_⟩⟩
      · intro tag
        simp only [mapGet_foldl_const]
        by_cases h : tag ∈ names <;> simp [h, mapGet]
      · intro tag
        simp only [mapGet_foldl_const]
        by_cases h : tag ∈ names <;> simp [h, mapGet]
      · intro tag ws hw
        simp only [mapGet_foldl_const] at hw
        by_cases h : tag ∈ names
        · rw [if_pos h] at hw
          rw [← Option.some.inj hw]
          simp
        · rw [if_neg h] at hw
          simp [mapGet] at hw
      · simp
      · intro tag d ws _ _ v nbrs hv u hu
        simp only at hv
        have hmem : nbrs ∈ List.replicate verts.length ([] : List Nat) :=
          List.mem_iff_getElem?.mpr ⟨v, hv⟩
        rw [List.eq_of_mem_replicate hmem] at hu
        exact absurd hu (List.not_mem_nil u)
      · intro tag ws hw x hx
        simp only [mapGet_foldl_const] at hw
        by_cases h : tag ∈ names
        · rw [if_pos h] at hw
          rw [← Option.some.inj hw] at hx
          exact Or.inl (List.eq_of_mem_replicate hx)
        · rw [if_neg h] at hw
          simp [mapGet] at hw
      · intro a b hab
        exact absurd hab (List.not_mem_nil _)
      · intro u nu v hnu hv
        simp only at hnu
        have hmem : nu ∈ List.replicate verts.length ([] : List Nat) :=
          List.mem_iff_getElem?.mpr ⟨u, hnu⟩
        rw [List.eq_of_mem_replicate hmem] at hv
        exact absurd hv (List.not_mem_nil v)
    have hb := addEdges_inv dw names verts edges [] _ st hinit hadd
    rw [← hnew]
    refine ⟨⟨hb.dijKeys, hb.wKeys, hb.wLen, hb.nsLen⟩, ?_, ⟨rfl, rfl, ⟨?_, ?_⟩⟩, ?_⟩
    · intro tag d ws hd hw v nbrs hv u hu
      obtain ⟨e1, e2⟩ := hb.arcs tag d ws hd hw v nbrs hv u hu
      exact e1.trans e2.symm
    · intro a b hab
      exact hb.edgesOf.edgeNbr a b (by simpa using hab)
    · intro u nu v hnu hv
      obtain ⟨a, b, ha, hb1, hab⟩ := hb.edgesOf.nbrEdge u nu v hnu hv
      exact ⟨a, b, ha, hb1, by simpa using hab⟩
    · intro hdw tag ws hw x hx
      rcases hb.wVals tag ws hw x hx with h | h
      · omega
      · omega

/-! ## IncrWeights keeps the invariants -/

theorem keeps_refl (names : List String) (g : Graph) : Keeps names g g :=
  ⟨rfl, rfl, rfl, fun h => h, fun h => h, fun h => h⟩

theorem keeps_trans (names : List String) (a b c : Graph) (h1 : Keeps names a b)
    (h2 : Keeps names b c) : Keeps names a c :=
  ⟨h2.vertsEq.trans h1.vertsEq, h2.nbrsEq.trans h1.nbrsEq, h2.lookupEq.trans h1.lookupEq,
   fun h => h2.chan (h1.chan h), fun h => h2.arcs (h1.arcs h), fun h => h2.nonNeg (h1.nonNeg h)⟩

theorem newWeight_nonneg (w dw : Int) : 0 ≤ newWeight w dw := by
  unfold newWeight
  split_ifs with h
  · exact Int.le_refl 0
  · omega

/-- The result of one round of the tag loop: an error with the graph
untouched, or the update of one weight and of the arcs into the vertex. -/
theorem incrTag_cases (g : Graph) (pid : Nat) (nbrs : List Nat) (td : String × Int) :
    (∃ err, incrTag g pid nbrs td = (g, some err)) ∨
    (∃ d ws w, mapGet g.dij td.1 = some d ∧ mapGet g.weights td.1 = some ws ∧
      ws[pid]? = some w ∧
      incrTag g pid nbrs td =
        ({ g with
           weights := mapSet g.weights td.1 (ws.set pid (newWeight w td.2))
           dij := mapSet g.dij td.1
             (nbrs.foldl (fun d nid => d.AddArc nid pid (newWeight w td.2)) d) }, none)) := by
  cases hd : mapGet g.dij td.1 with
  | none => exact Or.inl ⟨.ErrInvalidTag, by simp only [incrTag, hd]⟩
  | some d =>
    cases hw : mapGet g.weights td.1 with
    | none => exact Or.inl ⟨.Panic, by simp only [incrTag, hd, hw]⟩
    | some ws =>
      cases hp : ws[pid]? with
      | none => exact Or.inl ⟨.Panic, by simp only [incrTag, hd, hw, hp]⟩
      | some w => exact Or.inr ⟨d, ws, w, rfl, rfl, hp, by simp only [incrTag, hd, hw, hp]⟩

theorem incrTag_keeps (names : List String) (g : Graph) (pid : Nat) (nbrs : List Nat)
    (td : String × Int) (hn : g.neighbours[pid]? = some nbrs) :
    Keeps names g (incrTag g pid nbrs td).1 := by
  rcases incrTag_cases g pid nbrs td with ⟨err, he⟩ | ⟨d, ws, w, hd, hw, hp, he⟩
  · rw [he]
    exact keeps_refl names g
  · rw [he]
    have hlt : pid < ws.length := (List.getElem?_eq_some_iff.mp hp).1
    refine ⟨rfl, rfl, rfl, ?_, ?_, ?_⟩
    · intro hc
      refine ⟨?_, ?_, ?_, hc.nsLen⟩
      · intro tag
        simp only [mapGet_mapSet]
        by_cases h : tag = td.1
        · rw [if_pos h, h, ← hc.dijKeys td.1, hd]
          simp
        · rw [if_neg h]
          exact hc.dijKeys tag
      · intro tag
        simp only [mapGet_mapSet]
        by_cases h : tag = td.1
        · rw [if_pos h, h, ← hc.wKeys td.1, hw]
          simp
        · rw [if_neg h]
          exact hc.wKeys tag
      · intro tag ws1 hw1
        simp only [mapGet_mapSet] at hw1
        by_cases h : tag = td.1
        · rw [if_pos h] at hw1
          rw [← Option.some.inj hw1, List.length_set]
          exact hc.wLen td.1 ws hw
        · rw [if_neg h] at hw1
          exact hc.wLen tag ws1 hw1
    · intro ha tag d1 ws1 hd1 hw1 v nv hv u hu
      simp only [mapGet_mapSet] at hd1 hw1
      simp only at hv
      by_cases h : tag = td.1
      · rw [if_pos h] at hd1 hw1
        rw [← Option.some.inj hd1, ← Option.some.inj hw1, arc_foldl_AddArc]
        by_cases hvp : v = pid
        · subst hvp
          rw [hn] at hv
          rw [Option.some.inj hv, if_pos ⟨hu, rfl⟩, getElem?_set_self ws v _ hlt]
        · have hne : ¬ (u ∈ nbrs ∧ v = pid) := fun hh => hvp hh.2
          rw [if_neg hne, List.getElem?_set, if_neg (fun e => hvp e.symm)]
          exact ha td.1 d ws hd hw v nv hv u hu
      · rw [if_neg h] at hd1 hw1
        exact ha tag d1 ws1 hd1 hw1 v nv hv u hu
    · intro hnn tag ws1 hw1 x hx
      simp only [mapGet_mapSet] at hw1
      by_cases h : tag = td.1
      · rw [if_pos h] at hw1
        rw [← Option.some.inj hw1] at hx
        rcases List.mem_or_eq_of_mem_set hx with hx | hx
        · exact hnn td.1 ws hw x hx
        · rw [hx]
          exact newWeight_nonneg w td.2
      · rw [if_neg h] at hw1
        exact hnn tag ws1 hw1 x hx

theorem incrTags_keeps (names : List String) (pid : Nat) (nbrs : List Nat)
    (delta : List (String × Int)) :
    ∀ g : Graph, g.neighbours[pid]? = some nbrs →
      Keeps names g (incrTags pid nbrs g delta).1 := by
  induction delta with
  | nil =>
    intro g _
    exact keeps_refl names g
  | cons td rest ih =>
    intro g hn
    have h1 := incrTag_keeps names g pid nbrs td hn
    rw [incrTags]
    cases he : incrTag g pid nbrs td with
    | mk g1 err =>
      rw [he] at h1
      cases err with
      | some e => exact h1
      | none =>
        simp only
        have hn1 : g1.neighbours[pid]? = some nbrs := by
          rw [h1.nbrsEq]
          exact hn
        exact keeps_trans names g g1 _ h1 (ih g1 hn1)

theorem IncrWeights_keeps (names : List String) (delta : List (String × Int))
    (pts : List Point) : ∀ g : Graph, Keeps names g (IncrWeights g pts delta).1 := by
  induction pts with
  | nil =>
    intro g
    exact keeps_refl names g
  | cons p rest ih =>
    intro g
    rw [IncrWeights]
    cases hp : mapGet g.pointLookup p with
    | none => exact keeps_refl names g
    | some pid =>
      dsimp only
      cases hn : g.neighbours[pid]? with
      | none => exact keeps_refl names g
      | some nbrs =>
        dsimp only
        have h1 := incrTags_keeps names pid nbrs delta g hn
        cases he : incrTags pid nbrs g delta with
        | mk g1 err =>
          rw [he] at h1
          cases err with
          | some e => exact h1
          | none => exact keeps_trans names g g1 _ h1 (ih g1)

theorem IncrWeightsOutside_keeps (names : List String) (g : Graph) (area : Rect)
    (delta : List (String × Int)) : Keeps names g (IncrWeightsOutside g area delta).1 :=
  IncrWeights_keeps names delta _ g

theorem runCalls_incr_keeps (names : List String) (calls : List Call) :
    ∀ g : Graph, (∀ c, c ∈ calls → c.isIncr = true) → Keeps names g (runCalls g calls) := by
  induction calls with
  | nil =>
    intro g _
    exact keeps_refl names g
  | cons c rest ih =>
    intro g hc
    have h1 : Keeps names g (c.run g) := by
      cases c with
      | incr pts delta => exact IncrWeights_keeps names delta pts g
      | incrOutside area delta => exact IncrWeightsOutside_keeps names g area delta
      | setWeights input =>
        have := hc _ (List.mem_cons_self _ _)
        exact absurd this (by simp [Call.isIncr])
    exact keeps_trans names g _ _ h1 (ih _ (fun c1 h => hc c1 (List.mem_cons_of_mem _ h)))

/-! ## The arc-weight invariant -/

theorem weightOf_eq (g : Graph) (tag : String) (p : Point) (pid : Nat) (ws : List Int)
    (hp : mapGet g.pointLookup p = some pid) (hw : mapGet g.weights tag = some ws) :
    g.weightOf tag p = ws[pid]? := by
  simp only [Graph.weightOf, Graph.weightAt, hp, hw]

theorem arcCost_eq (g : Graph) (tag : String) (a b : Point) (u v : Nat) (d : DijGraph)
    (hd : mapGet g.dij tag = some d) (ha : mapGet g.pointLookup a = some u)
    (hb : mapGet g.pointLookup b = some v) : g.arcCost tag a b = d.arc u v := by
  simp only [Graph.arcCost, hd, ha, hb]

/-- After `New` and calls of `IncrWeights` and `IncrWeightsOutside` the
invariants of channels, arcs and topology hold. -/
theorem reached_inv (dw : Int) (names : List String) (verts : List Point)
    (edges : List (Point × Point)) (g : Graph) (calls : List Call)
    (hnew : New dw names verts edges = .ok g) (hcalls : ∀ c, c ∈ calls → c.isIncr = true) :
    ChanInv names (runCalls g calls) ∧ ArcInv (runCalls g calls) ∧
    Topology verts edges (runCalls g calls) := by
  obtain ⟨hc, ha, ht, _⟩ := New_inv dw names verts edges g hnew
  have hk := runCalls_incr_keeps names calls g hcalls
  refine ⟨hk.chan hc, hk.arcs ha, ⟨hk.vertsEq.trans ht.vertsEq, hk.lookupEq.trans ht.lookupEq, ?_⟩⟩
  rw [hk.nbrsEq]
  exact ht.edgesOf

/-- C4: in a graph built by `New`, after any sequence of `IncrWeights` and
`IncrWeightsOutside` calls (failing ones included), for every channel and
every edge `(a, b)` the arc `a → b` costs the current weight of `b` and the
arc `b → a` costs the current weight of `a`. -/
theorem arc_cost_is_destination_weight (dw : Int) (names : List String) (verts : List Point)
    (edges : List (Point × Point)) (g : Graph) (calls : List Call)
    (hnew : New dw names verts edges = .ok g) (hcalls : ∀ c, c ∈ calls → c.isIncr = true) :
    ∀ tag, tag ∈ names → ∀ a b, (a, b) ∈ edges →
      (∃ w, (runCalls g calls).weightOf tag b = some w ∧
        (runCalls g calls).arcCost tag a b = some w) ∧
      (∃ w, (runCalls g calls).weightOf tag a = some w ∧
        (runCalls g calls).arcCost tag b a = some w) := by
  obtain ⟨hc, ha, ht⟩ := reached_inv dw names verts edges g calls hnew hcalls
  intro tag htag a b hab
  obtain ⟨u, v, nu, nv, hu, hv, hnu, hvu, hnv, huv⟩ := ht.edgesOf.edgeNbr a b hab
  rw [← ht.lookupEq] at hu hv
  have hd := (hc.dijKeys tag).mpr htag
  have hw := (hc.wKeys tag).mpr htag
  obtain ⟨d, hd⟩ := Option.isSome_iff_exists.mp hd
  obtain ⟨ws, hw⟩ := Option.isSome_iff_exists.mp hw
  have hlen : ws.length = verts.length := by
    rw [← ht.vertsEq]
    exact hc.wLen tag ws hw
  have hult : u < ws.length := by
    rw [hlen]
    exact buildLookup_lt verts a u (by rw [← ht.lookupEq]; exact hu)
  have hvlt : v < ws.length := by
    rw [hlen]
    exact buildLookup_lt verts b v (by rw [← ht.lookupEq]; exact hv)
  constructor
  · refine ⟨ws[v], ?_, ?_⟩
    · rw [weightOf_eq _ tag b v ws hv hw]
      exact List.getElem?_eq_getElem hvlt
    · rw [arcCost_eq _ tag a b u v d hd hu hv, ha tag d ws hd hw v nv hnv u huv]
      exact List.getElem?_eq_getElem hvlt
  · refine ⟨ws[u], ?_, ?_⟩
    · rw [weightOf_eq _ tag a u ws hu hw]
      exact List.getElem?_eq_getElem hult
    · rw [arcCost_eq _ tag b a v u d hd hv hu, ha tag d ws hd hw u nu hnu v hvu]
      exact List.getElem?_eq_getElem hult

/-- Witness of C4: the graph with one edge `(0,0)-(10,0)` after two calls. -/
theorem arc_cost_is_destination_weight_witness :
    ∃ g, New 5 ["a"] [⟨0, 0⟩, ⟨10, 0⟩] [(⟨0, 0⟩, ⟨10, 0⟩)] = .ok g ∧
      ∀ tag, tag ∈ ["a"] → ∀ a b, (a, b) ∈ [((⟨0, 0⟩ : Point), (⟨10, 0⟩ : Point))] →
        (∃ w, (runCalls g [Call.incr [⟨0, 0⟩] [("a", 3)], Call.incrOutside ⟨1, 1, 9, 9⟩
            [("a", -100)]]).weightOf tag b = some w ∧
          (runCalls g [Call.incr [⟨0, 0⟩] [("a", 3)], Call.incrOutside ⟨1, 1, 9, 9⟩
            [("a", -100)]]).arcCost tag a b = some w) ∧
        (∃ w, (runCalls g [Call.incr [⟨0, 0⟩] [("a", 3)], Call.incrOutside ⟨1, 1, 9, 9⟩
            [("a", -100)]]).weightOf tag a = some w ∧
          (runCalls g [Call.incr [⟨0, 0⟩] [("a", 3)], Call.incrOutside ⟨1, 1, 9, 9⟩
            [("a", -100)]]).arcCost tag b a = some w) :=
  ⟨_, rfl, arc_cost_is_destination_weight 5 ["a"] [⟨0, 0⟩, ⟨10, 0⟩] [(⟨0, 0⟩, ⟨10, 0⟩)] _
    [Call.incr [⟨0, 0⟩] [("a", 3)], Call.incrOutside ⟨1, 1, 9, 9⟩ [("a", -100)]] rfl
    (fun c hc => by
      simp only [List.mem_cons, List.mem_singleton, List.not_mem_nil, or_false] at hc
      rcases hc with rfl | rfl <;> rfl)⟩

/-! ## Adding a delta and taking it back -/

theorem newWeight_roundtrip (w d : Int) (h0 : 0 ≤ w) (h1 : w < 9223372036854775808)
    (hs : 0 ≤ wrapInt (w + d)) : newWeight (newWeight w d) (wrapInt (-d)) = w := by
  unfold newWeight
  unfold wrapInt at *
  split_ifs <;> omega

/-- Unfolding of `IncrWeights` on one vertex and one registered channel. -/
theorem IncrWeights_single (g : Graph) (v : Point) (c : String) (dlt : Int) (pid : Nat)
    (nbrs : List Nat) (d : DijGraph) (ws : List Int) (w : Int)
    (hp : mapGet g.pointLookup v = some pid) (hn : g.neighbours[pid]? = some nbrs)
    (hd : mapGet g.dij c = some d) (hw : mapGet g.weights c = some ws)
    (hx : ws[pid]? = some w) :
    IncrWeights g [v] [(c, dlt)] =
      ({ g with
         weights := mapSet g.weights c (ws.set pid (newWeight w dlt))
         dij := mapSet g.dij c
           (nbrs.foldl (fun d nid => d.AddArc nid pid (newWeight w dlt)) d) }, none) := by
  simp only [IncrWeights, incrTags, incrTag, hp, hn, hd, hw, hx]

/-- C5: on a graph built by `New` and changed by `IncrWeights` and
`IncrWeightsOutside` calls, for a vertex `v`, a registered channel `c` and a
delta `d`: if the weight `w` of `v` on `c` (a Go `int`, so below `2^63`) is at
least zero and the sum `w + d` the code computes is at least zero, then
`IncrWeights([v], {c: d})` followed by `IncrWeights([v], {c: -d})` both
succeed, and afterwards the weight of `v` on `c` is `w` again and every arc
into `v` has its original cost. -/
theorem incr_then_decr_restores (dw : Int) (names : List String) (verts : List Point)
    (edges : List (Point × Point)) (g0 : Graph) (calls : List Call)
    (v : Point) (c : String) (d w : Int)
    (hnew : New dw names verts edges = .ok g0) (hcalls : ∀ k, k ∈ calls → k.isIncr = true)
    (hv : v ∈ verts) (hc : c ∈ names)
    (hw : (runCalls g0 calls).weightOf c v = some w)
    (hw0 : 0 ≤ w) (hw1 : w < 9223372036854775808) (hsum : 0 ≤ wrapInt (w + d)) :
    (IncrWeights (runCalls g0 calls) [v] [(c, d)]).2 = none ∧
    (IncrWeights (IncrWeights (runCalls g0 calls) [v] [(c, d)]).1 [v]
      [(c, wrapInt (-d))]).2 = none ∧
    (IncrWeights (IncrWeights (runCalls g0 calls) [v] [(c, d)]).1 [v]
      [(c, wrapInt (-d))]).1.weightOf c v = some w ∧
    ∀ u, (IncrWeights (IncrWeights (runCalls g0 calls) [v] [(c, d)]).1 [v]
      [(c, wrapInt (-d))]).1.arcCost c u v = (runCalls g0 calls).arcCost c u v := by
  obtain ⟨hch, harc, ht⟩ := reached_inv dw names verts edges g0 calls hnew hcalls
  generalize runCalls g0 calls = g at *
  obtain ⟨pid, hpid⟩ := buildLookup_mem verts v hv
  rw [← ht.lookupEq] at hpid
  have hplt : pid < verts.length :=
    buildLookup_lt verts v pid (by rw [← ht.lookupEq]; exact hpid)
  obtain ⟨nbrs, hn⟩ := getElem?_of_lt g.neighbours pid (by rw [hch.nsLen, ht.vertsEq]; exact hplt)
  obtain ⟨d0, hd0⟩ := Option.isSome_iff_exists.mp ((hch.dijKeys c).mpr hc)
  obtain ⟨ws, hws⟩ := Option.isSome_iff_exists.mp ((hch.wKeys c).mpr hc)
  have hx : ws[pid]? = some w := by
    rw [← weightOf_eq g c v pid ws hpid hws]
    exact hw
  have hlt : pid < ws.length := (List.getElem?_eq_some_iff.mp hx).1
  have h1 := IncrWeights_single g v c d pid nbrs d0 ws w hpid hn hd0 hws hx
  rw [h1]
  have h2 := IncrWeights_single
    { g with
      weights := mapSet g.weights c (ws.set pid (newWeight w d))
      dij := mapSet g.dij c (nbrs.foldl (fun acc nid => acc.AddArc nid pid (newWeight w d)) d0) }
    v c (wrapInt (-d)) pid nbrs
    (nbrs.foldl (fun acc nid => acc.AddArc nid pid (newWeight w d)) d0)
    (ws.set pid (newWeight w d)) (newWeight w d) hpid hn
    (by simp only [mapGet_mapSet, if_true]) (by simp only [mapGet_mapSet, if_true])
    (getElem?_set_self ws pid _ hlt)
  simp only at h2 ⊢
  rw [h2]
  have hback := newWeight_roundtrip w d hw0 hw1 hsum
  refine ⟨trivial, rfl, ?_, ?_⟩
  · simp only [Graph.weightOf, Graph.weightAt, hpid, mapGet_mapSet, if_true]
    rw [getElem?_set_self _ pid _ (by simpa using hlt), hback]
  · intro u
    simp only [Graph.arcCost, mapGet_mapSet, if_true, hd0, hpid]
    cases hu : mapGet g.pointLookup u with
    | none => rfl
    | some uid =>
      simp only [arc_foldl_AddArc, and_true, hback]
      by_cases hmem : uid ∈ nbrs
      · rw [if_pos hmem, harc c d0 ws hd0 hws pid nbrs hn uid hmem, hx]
      · rw [if_neg hmem, if_neg hmem]

/-- Witness of C5: weight 5, delta 7 on the graph with one edge. -/
theorem incr_then_decr_restores_witness :
    ∃ g, New 5 ["a"] [⟨0, 0⟩, ⟨10, 0⟩] [(⟨0, 0⟩, ⟨10, 0⟩)] = .ok g ∧
      (IncrWeights (IncrWeights g [⟨0, 0⟩] [("a", 7)]).1 [⟨0, 0⟩]
        [("a", wrapInt (-7))]).1.weightOf "a" ⟨0, 0⟩ = some 5 :=
  ⟨_, rfl, (incr_then_decr_restores 5 ["a"] [⟨0, 0⟩, ⟨10, 0⟩] [(⟨0, 0⟩, ⟨10, 0⟩)] _ []
    ⟨0, 0⟩ "a" 7 5 rfl (fun k hk => absurd hk (List.not_mem_nil k)) (by decide) (by decide)
    (by decide) (by decide) (by decide) (by decide)).2.2.1⟩

/-! ## SetWeights and the channel invariant -/

theorem setTags_spec (ns : List (List Nat)) (entries : List (String × List Int)) :
    ∀ (dij : List (String × DijGraph)) (acc : List (String × List Int)),
      (∀ tag, (mapGet (setTags ns dij acc entries).1 tag).isSome = (mapGet dij tag).isSome) ∧
      (∀ wts, (setTags ns dij acc entries).2 = .ok wts →
        (∀ tag ws, mapGet wts tag = some ws → (tag, ws) ∈ entries ∨ mapGet acc tag = some ws) ∧
        (∀ tag, (tag ∈ entries.map Prod.fst ∨ (mapGet acc tag).isSome = true) →
          (mapGet wts tag).isSome = true)) := by
  induction entries with
  | nil =>
    intro dij acc
    refine ⟨fun _ => rfl, fun wts hw => ?_⟩
    simp only [setTags, Except.ok.injEq] at hw
    subst hw
    refine ⟨fun tag ws h => Or.inr h, fun tag h => ?_⟩
    rcases h with h | h
    · exact absurd h (by simp)
    · exact h
  | cons e rest ih =>
    intro dij acc
    obtain ⟨tag0, given⟩ := e
    rw [setTags]
    cases hd : mapGet dij tag0 with
    | none =>
      dsimp only
      exact ⟨fun _ => rfl, fun wts hw => absurd hw (by simp)⟩
    | some d =>
      dsimp only
      cases ha : setArcsFrom ns 0 d given with
      | none =>
        dsimp only
        exact ⟨fun _ => rfl, fun wts hw => absurd hw (by simp)⟩
      | some d1 =>
        dsimp only
        obtain ⟨k1, k2⟩ := ih (mapSet dij tag0 d1) (mapSet acc tag0 given)
        refine ⟨fun tag => ?_, fun wts hw => ?_⟩
        · rw [k1 tag, mapGet_mapSet]
          by_cases h : tag = tag0
          · rw [if_pos h, h, hd]
            rfl
          · rw [if_neg h]
        · obtain ⟨m1, m2⟩ := k2 wts hw
          refine ⟨fun tag ws h => ?_, fun tag h => ?_⟩
          · rcases m1 tag ws h with h1 | h1
            · exact Or.inl (List.mem_cons_of_mem _ h1)
            · rw [mapGet_mapSet] at h1
              by_cases ht : tag = tag0
              · rw [if_pos ht] at h1
                rw [ht, ← Option.some.inj h1]
                exact Or.inl (List.mem_cons_self _ _)
              · rw [if_neg ht] at h1
                exact Or.inr h1
          · apply m2 tag
            rw [mapGet_mapSet]
            by_cases ht : tag = tag0
            · rw [if_pos ht]
              exact Or.inr rfl
            · rw [if_neg ht]
              rcases h with h | h
              · rw [List.map_cons, List.mem_cons] at h
                rcases h with h | h
                · exact absurd h ht
                · exact Or.inl h
              · exact Or.inr h

/-- The call `SetWeights` leaves the topology alone, and with well-formed input it
keeps the channel invariant and the zero floor. -/
theorem SetWeights_inv (names : List String) (g : Graph)
    (input : Option (List (String × List Int)))
    (hin : (Call.setWeights input).wellFormed names g.verts.length)
    (hc : ChanInv names g) (hn : NonNeg g) :
    (SetWeights g input).1.verts = g.verts ∧
    ChanInv names (SetWeights g input).1 ∧ NonNeg (SetWeights g input).1 := by
  cases input with
  | none => exact ⟨rfl, hc, hn⟩
  | some entries =>
    obtain ⟨k1, k2⟩ := setTags_spec g.neighbours entries g.dij []
    have hkeys : ∀ (dij : List (String × DijGraph)),
        (∀ tag, (mapGet dij tag).isSome = (mapGet g.dij tag).isSome) →
        ∀ tag, (mapGet dij tag).isSome = true ↔ tag ∈ names := by
      intro dij h tag
      rw [h tag]
      exact hc.dijKeys tag
    rw [SetWeights]
    cases hr : setTags g.neighbours g.dij [] entries with
    | mk dij res =>
      rw [hr] at k1 k2
      cases res with
      | error err =>
        dsimp only
        exact ⟨rfl, ⟨hkeys dij k1, hc.wKeys, hc.wLen, hc.nsLen⟩, hn⟩
      | ok wts =>
        dsimp only
        obtain ⟨m1, m2⟩ := k2 wts rfl
        obtain ⟨g1, g2⟩ := hin
        have hmem : ∀ tag ws, mapGet wts tag = some ws → (tag, ws) ∈ entries := by
          intro tag ws h
          rcases m1 tag ws h with h1 | h1
          · exact h1
          · simp [mapGet] at h1
        refine ⟨rfl, ⟨hkeys dij k1, ?_, ?_, hc.nsLen⟩, ?_⟩
        · intro tag
          constructor
          · intro h
            obtain ⟨ws, hws⟩ := Option.isSome_iff_exists.mp h
            have := hmem tag ws hws
            exact (g1 tag).mp (List.mem_map.mpr ⟨(tag, ws), this, rfl⟩)
          · intro h
            exact m2 tag (Or.inl ((g1 tag).mpr h))
        · intro tag ws h
          exact (g2 tag ws (hmem tag ws h)).1
        · intro tag ws h
          exact (g2 tag ws (hmem tag ws h)).2

theorem runCalls_wellFormed_inv (names : List String) (calls : List Call) :
    ∀ g : Graph, (∀ c, c ∈ calls → c.wellFormed names g.verts.length) →
      ChanInv names g → NonNeg g →
      (runCalls g calls).verts = g.verts ∧ ChanInv names (runCalls g calls) ∧
      NonNeg (runCalls g calls) := by
  induction calls with
  | nil =>
    intro g _ hc hn
    exact ⟨rfl, hc, hn⟩
  | cons c rest ih =>
    intro g hw hc hn
    have h1 : (c.run g).verts = g.verts ∧ ChanInv names (c.run g) ∧ NonNeg (c.run g) := by
      cases c with
      | incr pts delta =>
        have hk := IncrWeights_keeps names delta pts g
        exact ⟨hk.vertsEq, hk.chan hc, hk.nonNeg hn⟩
      | incrOutside area delta =>
        have hk := IncrWeightsOutside_keeps names g area delta
        exact ⟨hk.vertsEq, hk.chan hc, hk.nonNeg hn⟩
      | setWeights input =>
        exact SetWeights_inv names g input (hw _ (List.mem_cons_self _ _)) hc hn
    obtain ⟨e1, c1, n1⟩ := h1
    have h2 := ih (c.run g) (fun c1 h => by
      rw [e1]
      exact hw c1 (List.mem_cons_of_mem _ h)) c1 n1
    exact ⟨h2.1.trans e1, h2.2.1, h2.2.2⟩

/-- C6 as stated fails: `SetWeights` stores the array it is given, so a
negative entry becomes a stored weight (only the arc costs are clamped). -/
theorem setWeights_stores_negative :
    ∃ g, New 1 ["a"] [⟨0, 0⟩] [] = .ok g ∧
      mapGet (runCalls g [Call.setWeights (some [("a", [-1])])]).weights "a" = some [-1] :=
  ⟨_, rfl, rfl⟩

/-- C6 (amended): for a graph built by `New` with a default weight of at
least zero, after any sequence of `IncrWeights` and `IncrWeightsOutside`
calls and of `SetWeights` calls whose input is nil or gives exactly the
channels of the graph arrays of vertex-count length without negative entry,
the channels of the library graphs and of the weight map are those given at
creation, every weight array has one entry per vertex, and every stored
weight is at least zero. -/
theorem channel_invariant (dw : Int) (names : List String) (verts : List Point)
    (edges : List (Point × Point)) (g : Graph) (calls : List Call)
    (hnew : New dw names verts edges = .ok g) (hdw : 0 ≤ dw)
    (hcalls : ∀ c, c ∈ calls → c.wellFormed names verts.length) :
    (∀ tag, (mapGet (runCalls g calls).dij tag).isSome = true ↔ tag ∈ names) ∧
    (∀ tag, (mapGet (runCalls g calls).weights tag).isSome = true ↔ tag ∈ names) ∧
    (∀ tag ws, mapGet (runCalls g calls).weights tag = some ws →
      ws.length = verts.length ∧ ∀ x, x ∈ ws → 0 ≤ x) := by
  obtain ⟨hc, _, ht, hn⟩ := New_inv dw names verts edges g hnew
  obtain ⟨e1, c1, n1⟩ := runCalls_wellFormed_inv names calls g
    (fun c h => by rw [ht.vertsEq]; exact hcalls c h) hc (hn hdw)
  refine ⟨c1.dijKeys, c1.wKeys, fun tag ws h => ⟨?_, n1 tag ws h⟩⟩
  rw [c1.wLen tag ws h, e1, ht.vertsEq]

/-- Witness of C6: one call of each kind on the graph with one edge. -/
theorem channel_invariant_witness :
    ∃ g, New 5 ["a"] [⟨0, 0⟩, ⟨10, 0⟩] [(⟨0, 0⟩, ⟨10, 0⟩)] = .ok g ∧
      ∀ tag ws, mapGet (runCalls g [Call.incr [⟨0, 0⟩] [("a", -9)],
          Call.setWeights (some [("a", [2, 0])]),
          Call.incrOutside ⟨1, 1, 9, 9⟩ [("a", 4)]]).weights tag = some ws →
        ws.length = 2 ∧ ∀ x, x ∈ ws → 0 ≤ x :=
  ⟨_, rfl, (channel_invariant 5 ["a"] [⟨0, 0⟩, ⟨10, 0⟩] [(⟨0, 0⟩, ⟨10, 0⟩)] _
    [Call.incr [⟨0, 0⟩] [("a", -9)], Call.setWeights (some [("a", [2, 0])]),
      Call.incrOutside ⟨1, 1, 9, 9⟩ [("a", 4)]] rfl (by decide)
    (fun c hc => by
      simp only [List.mem_cons, List.mem_singleton, List.not_mem_nil, or_false] at hc
      rcases hc with rfl | rfl | rfl
      · trivial
      · refine ⟨fun tag => by simp, fun tag ws h => ?_⟩
        simp only [List.mem_singleton, Prod.mk.injEq] at h
        obtain ⟨_, rfl⟩ := h
        refine ⟨rfl, fun x hx => ?_⟩
        simp only [List.mem_cons, List.mem_singleton, List.not_mem_nil, or_false] at hx
        rcases hx with rfl | rfl <;> decide
      · trivial)).2.2⟩

/-! ## Unregistered channels -/

theorem incrTags_invalid (names : List String) (pid : Nat) (nbrs : List Nat)
    (delta : List (String × Int)) :
    ∀ g : Graph, ChanInv names g → g.neighbours[pid]? = some nbrs → pid < g.verts.length →
      (∃ td, td ∈ delta ∧ td.1 ∉ names) →
      (incrTags pid nbrs g delta).2 = some .ErrInvalidTag := by
  induction delta with
  | nil =>
    intro g _ _ _ hbad
    obtain ⟨td, h, _⟩ := hbad
    exact absurd h (List.not_mem_nil td)
  | cons td rest ih =>
    intro g hc hn hlt hbad
    rw [incrTags]
    by_cases hreg : td.1 ∈ names
    · obtain ⟨d, hd⟩ := Option.isSome_iff_exists.mp ((hc.dijKeys td.1).mpr hreg)
      obtain ⟨ws, hw⟩ := Option.isSome_iff_exists.mp ((hc.wKeys td.1).mpr hreg)
      have hlen := hc.wLen td.1 ws hw
      have hp : ws[pid]? = some ws[pid] := List.getElem?_eq_getElem (by omega)
      have hk := incrTag_keeps names g pid nbrs td hn
      have he : incrTag g pid nbrs td =
          ({ g with
             weights := mapSet g.weights td.1 (ws.set pid (newWeight ws[pid] td.2))
             dij := mapSet g.dij td.1
               (nbrs.foldl (fun acc nid => acc.AddArc nid pid (newWeight ws[pid] td.2)) d) },
           none) := by
        simp only [incrTag, hd, hw, hp]
      rw [he] at hk ⊢
      dsimp only
      refine ih _ (hk.chan hc) hn hlt ?_
      obtain ⟨t, ht, hnot⟩ := hbad
      rcases List.mem_cons.mp ht with h | h
      · rw [h] at hnot
        exact absurd hreg hnot
      · exact ⟨t, h, hnot⟩
    · have hd : mapGet g.dij td.1 = none := by
        cases h : mapGet g.dij td.1 with
        | none => rfl
        | some d =>
          have := (hc.dijKeys td.1).mp (by rw [h]; rfl)
          exact absurd this hreg
      have he : incrTag g pid nbrs td = (g, some .ErrInvalidTag) := by
        simp only [incrTag, hd]
      rw [he]

theorem IncrWeights_invalid (names : List String) (verts : List Point) (g : Graph)
    (p : Point) (rest : List Point) (delta : List (String × Int))
    (hc : ChanInv names g) (hv : g.verts = verts) (hl : g.pointLookup = buildLookup verts)
    (hp : p ∈ verts) (hbad : ∃ td, td ∈ delta ∧ td.1 ∉ names) :
    (IncrWeights g (p :: rest) delta).2 = some .ErrInvalidTag := by
  obtain ⟨pid, hpid⟩ := buildLookup_mem verts p hp
  have hplt : pid < verts.length := buildLookup_lt verts p pid hpid
  rw [← hl] at hpid
  obtain ⟨nbrs, hn⟩ := getElem?_of_lt g.neighbours pid (by rw [hc.nsLen, hv]; exact hplt)
  have h1 := incrTags_invalid names pid nbrs delta g hc hn (by rw [hv]; exact hplt) hbad
  rw [IncrWeights]
  simp only [hpid, hn]
  cases he : incrTags pid nbrs g delta with
  | mk g1 err =>
    rw [he] at h1
    simp only at h1
    rw [h1]

/-- C7 as stated fails: with an empty list of points `IncrWeights` returns
no error although the delta names a channel that was never registered. -/
theorem incrWeights_empty_list_accepts_unknown_tag :
    ∃ g, New 1 ["a"] [⟨0, 0⟩] [] = .ok g ∧ (IncrWeights g [] [("zz", 1)]).2 = none :=
  ⟨_, rfl, rfl⟩

/-- C7 (amended): on a graph built by `New` and changed by `IncrWeights` and
`IncrWeightsOutside` calls, when the delta names a channel that was not
registered, `IncrWeights` fails with `ErrInvalidTag` for every non-empty list
of points whose first point is a vertex, and `IncrWeightsOutside` does so
whenever its test selects at least one vertex; with no point to handle
(empty list, no vertex selected) both return no error. -/
theorem incr_invalid_tag (dw : Int) (names : List String) (verts : List Point)
    (edges : List (Point × Point)) (g : Graph) (calls : List Call) (delta : List (String × Int))
    (hnew : New dw names verts edges = .ok g) (hcalls : ∀ c, c ∈ calls → c.isIncr = true)
    (hbad : ∃ td, td ∈ delta ∧ td.1 ∉ names) :
    (∀ p rest, p ∈ verts →
      (IncrWeights (runCalls g calls) (p :: rest) delta).2 = some .ErrInvalidTag) ∧
    (∀ area, (∃ s, s ∈ verts ∧ outsideArea area s = true) →
      (IncrWeightsOutside (runCalls g calls) area delta).2 = some .ErrInvalidTag) ∧
    (IncrWeights (runCalls g calls) [] delta).2 = none ∧
    (∀ area, (∀ s, s ∈ verts → outsideArea area s = false) →
      (IncrWeightsOutside (runCalls g calls) area delta).2 = none) := by
  obtain ⟨hc, _, ht⟩ := reached_inv dw names verts edges g calls hnew hcalls
  refine ⟨?_, ?_, rfl, ?_⟩
  · intro p rest hp
    exact IncrWeights_invalid names verts _ p rest delta hc ht.vertsEq ht.lookupEq hp hbad
  · intro area hsel
    obtain ⟨s, hs, hout⟩ := hsel
    unfold IncrWeightsOutside
    rw [ht.vertsEq]
    cases hf : verts.filter (outsideArea area) with
    | nil =>
      have : s ∈ verts.filter (outsideArea area) := List.mem_filter.mpr ⟨hs, hout⟩
      rw [hf] at this
      exact absurd this (List.not_mem_nil s)
    | cons p rest =>
      have hp : p ∈ verts := by
        have : p ∈ verts.filter (outsideArea area) := by
          rw [hf]
          exact List.mem_cons_self _ _
        exact (List.mem_filter.mp this).1
      exact IncrWeights_invalid names verts _ p rest delta hc ht.vertsEq ht.lookupEq hp hbad
  · intro area hnone
    unfold IncrWeightsOutside
    rw [ht.vertsEq]
    have hf : verts.filter (outsideArea area) = [] := by
      rw [List.filter_eq_nil_iff]
      intro s hs
      rw [hnone s hs]
      exact Bool.false_ne_true
    rw [hf]
    rfl

/-- Witness of C7: an unregistered channel on the graph with one edge. -/
theorem incr_invalid_tag_witness :
    ∃ g, New 5 ["a"] [⟨0, 0⟩, ⟨10, 0⟩] [(⟨0, 0⟩, ⟨10, 0⟩)] = .ok g ∧
      (IncrWeights g [⟨10, 0⟩, ⟨3, 3⟩] [("a", 1), ("zz", 1)]).2 = some .ErrInvalidTag :=
  ⟨_, rfl, (incr_invalid_tag 5 ["a"] [⟨0, 0⟩, ⟨10, 0⟩] [(⟨0, 0⟩, ⟨10, 0⟩)] _ []
    [("a", 1), ("zz", 1)] rfl (fun c hc => absurd hc (List.not_mem_nil c))
    ⟨("zz", 1), by decide, by decide⟩).1 ⟨10, 0⟩ [⟨3, 3⟩] (by decide)⟩

/-! ## Shortest -/

/-- C8 (evaluation at the failing input): on the graph with the one edge
`(0,0)-(10,0)`, `Shortest("a", (1,0), (10,0))` fails with `ErrPointNotFound`
whatever the shortest-path library does, although the vertices nearest to the
two query points, `(0,0)` and `(10,0)`, are joined by an edge; queried at the
vertices themselves it returns the path the library finds. -/
theorem shortest_rejects_non_vertex (lib : DijGraph → Nat → Nat → Option (List Nat)) :
    ∃ g, New 1 ["a"] [⟨0, 0⟩, ⟨10, 0⟩] [(⟨0, 0⟩, ⟨10, 0⟩)] = .ok g ∧
      Shortest lib g "a" ⟨1, 0⟩ ⟨10, 0⟩ = .error .ErrPointNotFound ∧
      Shortest (fun _ _ _ => some [0, 1]) g "a" ⟨0, 0⟩ ⟨10, 0⟩ = .ok [⟨0, 0⟩, ⟨10, 0⟩] :=
  ⟨_, rfl, rfl, rfl⟩

/-! ## The effect of IncrWeights on the weights -/

theorem incrTag_weightAt (g : Graph) (pid : Nat) (nbrs : List Nat) (td : String × Int)
    (tag : String) (i : Nat) :
    (incrTag g pid nbrs td).1.weightAt tag i =
      if (incrTag g pid nbrs td).2 = none ∧ tag = td.1 ∧ i = pid then
        (g.weightAt tag i).map (fun w => newWeight w td.2)
      else g.weightAt tag i := by
  rcases incrTag_cases g pid nbrs td with ⟨err, he⟩ | ⟨d, ws, w, hd, hw, hp, he⟩
  · rw [he]
    simp
  · rw [he]
    have hlt : pid < ws.length := (List.getElem?_eq_some_iff.mp hp).1
    simp only [Graph.weightAt, mapGet_mapSet, true_and]
    by_cases ht : tag = td.1
    · rw [if_pos ht]
      by_cases hi : i = pid
      · rw [if_pos ⟨ht, hi⟩, hi, ht, hw]
        dsimp only
        rw [getElem?_set_self ws pid _ hlt, hp]
        rfl
      · rw [if_neg (fun hh => hi hh.2), ht, hw]
        dsimp only
        rw [List.getElem?_set, if_neg (fun e => hi e.symm)]
    · rw [if_neg ht, if_neg (fun hh => ht hh.1)]

theorem incrTags_frame (pid : Nat) (nbrs : List Nat) (delta : List (String × Int))
    (tag : String) (i : Nat) (hi : i ≠ pid) :
    ∀ g : Graph, (incrTags pid nbrs g delta).1.weightAt tag i = g.weightAt tag i := by
  induction delta with
  | nil =>
    intro g
    rfl
  | cons td rest ih =>
    intro g
    have h1 := incrTag_weightAt g pid nbrs td tag i
    rw [if_neg (fun hh => hi hh.2.2)] at h1
    rw [incrTags]
    cases he : incrTag g pid nbrs td with
    | mk g1 err =>
      rw [he] at h1
      cases err with
      | some e => exact h1
      | none =>
        dsimp only
        rw [ih g1]
        exact h1

theorem mapGet_none_of_not_mem {α : Type} (m : List (String × α)) (k : String)
    (h : k ∉ m.map Prod.fst) : mapGet m k = none := by
  cases hg : mapGet m k with
  | none => rfl
  | some v =>
    have := (mapGet_isSome_iff m k).mp (by rw [hg]; rfl)
    exact absurd this h

theorem incrTags_effect (pid : Nat) (nbrs : List Nat) (delta : List (String × Int))
    (tag : String) :
    ∀ g : Graph, (delta.map Prod.fst).Nodup → (incrTags pid nbrs g delta).2 = none →
      (incrTags pid nbrs g delta).1.weightAt tag pid =
        (g.weightAt tag pid).map (applyDelta delta tag) := by
  induction delta with
  | nil =>
    intro g _ _
    have : applyDelta [] tag = id := by
      funext w
      rfl
    rw [this, Option.map_id]
    rfl
  | cons td rest ih =>
    intro g hnd hok
    rw [List.map_cons, List.nodup_cons] at hnd
    have h1 := incrTag_weightAt g pid nbrs td tag pid
    rw [incrTags] at hok ⊢
    cases he : incrTag g pid nbrs td with
    | mk g1 err =>
      rw [he] at h1 hok
      cases err with
      | some e => exact absurd hok (by simp)
      | none =>
        dsimp only at hok ⊢
        rw [ih g1 hnd.2 hok]
        simp only [true_and, and_true] at h1
        rw [h1]
        by_cases ht : tag = td.1
        · rw [if_pos ht, Option.map_map]
          congr 1
          funext w
          simp only [Function.comp, applyDelta, ht, mapGet, if_true,
            mapGet_none_of_not_mem rest td.1 hnd.1]
        · rw [if_neg ht]
          congr 1
          funext w
          have hne : ¬ td.1 = tag := fun e => ht e.symm
          simp only [applyDelta, mapGet, hne, if_false]

theorem incrTags_ok (names : List String) (pid : Nat) (nbrs : List Nat)
    (delta : List (String × Int)) :
    ∀ g : Graph, ChanInv names g → g.neighbours[pid]? = some nbrs → pid < g.verts.length →
      (∀ td, td ∈ delta → td.1 ∈ names) → (incrTags pid nbrs g delta).2 = none := by
  induction delta with
  | nil =>
    intro g _ _ _ _
    rfl
  | cons td rest ih =>
    intro g hc hn hlt hreg
    rw [incrTags]
    have hr := hreg td (List.mem_cons_self _ _)
    obtain ⟨d, hd⟩ := Option.isSome_iff_exists.mp ((hc.dijKeys td.1).mpr hr)
    obtain ⟨ws, hw⟩ := Option.isSome_iff_exists.mp ((hc.wKeys td.1).mpr hr)
    have hlen := hc.wLen td.1 ws hw
    have hp : ws[pid]? = some ws[pid] := List.getElem?_eq_getElem (by omega)
    have hk := incrTag_keeps names g pid nbrs td hn
    have he : incrTag g pid nbrs td =
        ({ g with
           weights := mapSet g.weights td.1 (ws.set pid (newWeight ws[pid] td.2))
           dij := mapSet g.dij td.1
             (nbrs.foldl (fun acc nid => acc.AddArc nid pid (newWeight ws[pid] td.2)) d) },
         none) := by
      simp only [incrTag, hd, hw, hp]
    rw [he] at hk ⊢
    dsimp only
    exact ih _ (hk.chan hc) hn hlt (fun t h => hreg t (List.mem_cons_of_mem _ h))

theorem IncrWeights_ok (names : List String) (verts : List Point) (delta : List (String × Int))
    (hreg : ∀ td, td ∈ delta → td.1 ∈ names) (pts : List Point) :
    ∀ g : Graph, ChanInv names g → g.verts = verts → g.pointLookup = buildLookup verts →
      (∀ p, p ∈ pts → p ∈ verts) → (IncrWeights g pts delta).2 = none := by
  induction pts with
  | nil =>
    intro g _ _ _ _
    rfl
  | cons p rest ih =>
    intro g hc hv hl hp
    obtain ⟨pid, hpid⟩ := buildLookup_mem verts p (hp p (List.mem_cons_self _ _))
    have hplt : pid < verts.length := buildLookup_lt verts p pid hpid
    rw [← hl] at hpid
    obtain ⟨nbrs, hn⟩ := getElem?_of_lt g.neighbours pid (by rw [hc.nsLen, hv]; exact hplt)
    have h1 := incrTags_ok names pid nbrs delta g hc hn (by rw [hv]; exact hplt) hreg
    have hk := incrTags_keeps names pid nbrs delta g hn
    rw [IncrWeights]
    simp only [hpid, hn]
    cases he : incrTags pid nbrs g delta with
    | mk g1 err =>
      rw [he] at h1 hk
      simp only at h1
      subst h1
      dsimp only
      exact ih g1 (hk.chan hc) (hk.vertsEq.trans hv) (hk.lookupEq.trans hl)
        (fun q h => hp q (List.mem_cons_of_mem _ h))

theorem IncrWeights_frame (delta : List (String × Int)) (tag : String) (i : Nat)
    (pts : List Point) :
    ∀ g : Graph, (∀ p, p ∈ pts → mapGet g.pointLookup p ≠ some i) →
      (IncrWeights g pts delta).1.weightAt tag i = g.weightAt tag i := by
  induction pts with
  | nil =>
    intro g _
    rfl
  | cons p rest ih =>
    intro g hne
    rw [IncrWeights]
    cases hp : mapGet g.pointLookup p with
    | none => rfl
    | some pid =>
      dsimp only
      cases hn : g.neighbours[pid]? with
      | none => rfl
      | some nbrs =>
        dsimp only
        have hpi : i ≠ pid := by
          intro e
          exact hne p (List.mem_cons_self _ _) (by rw [hp, e])
        have h1 := incrTags_frame pid nbrs delta tag i hpi g
        have hk := incrTags_keeps [] pid nbrs delta g hn
        cases he : incrTags pid nbrs g delta with
        | mk g1 err =>
          rw [he] at h1 hk
          cases err with
          | some e => exact h1
          | none =>
            dsimp only
            rw [ih g1 (fun q hq => by
              rw [hk.lookupEq]
              exact hne q (List.mem_cons_of_mem _ hq))]
            exact h1

theorem IncrWeights_effect (verts : List Point) (delta : List (String × Int)) (tag : String)
    (hkeys : (delta.map Prod.fst).Nodup) (pts : List Point) :
    ∀ g : Graph, g.pointLookup = buildLookup verts → pts.Nodup →
      (IncrWeights g pts delta).2 = none →
      ∀ q i, mapGet g.pointLookup q = some i → q ∈ pts →
        (IncrWeights g pts delta).1.weightAt tag i =
          (g.weightAt tag i).map (applyDelta delta tag) := by
  induction pts with
  | nil =>
    intro g _ _ _ q i _ hq
    exact absurd hq (List.not_mem_nil q)
  | cons p rest ih =>
    intro g hl hnd hok q i hqi hq
    rw [List.nodup_cons] at hnd
    rw [IncrWeights] at hok ⊢
    cases hp : mapGet g.pointLookup p with
    | none =>
      rw [hp] at hok
      exact absurd hok (by simp)
    | some pid =>
      rw [hp] at hok
      dsimp only at hok ⊢
      cases hn : g.neighbours[pid]? with
      | none =>
        rw [hn] at hok
        exact absurd hok (by simp)
      | some nbrs =>
        rw [hn] at hok
        dsimp only at hok ⊢
        have hk := incrTags_keeps [] pid nbrs delta g hn
        have heff := incrTags_effect pid nbrs delta tag g hkeys
        have hfr := fun j (hj : j ≠ pid) => incrTags_frame pid nbrs delta tag j hj g
        cases he : incrTags pid nbrs g delta with
        | mk g1 err =>
          rw [he] at hok hk heff hfr
          cases err with
          | some e => exact absurd hok (by simp)
          | none =>
            dsimp only at hok ⊢
            have hl1 : g1.pointLookup = buildLookup verts := hk.lookupEq.trans hl
            by_cases hqp : q = p
            · have hip : i = pid := by
                rw [hqp, hp] at hqi
                exact (Option.some.inj hqi).symm
              rw [hip]
              rw [IncrWeights_frame delta tag pid rest g1 (fun r hr hlook => by
                rw [hl1] at hlook
                rw [hl] at hp
                have := buildLookup_inj verts r p pid hlook hp
                rw [this] at hr
                exact hnd.1 hr)]
              exact heff rfl
            · have hqr : q ∈ rest := by
                rcases List.mem_cons.mp hq with h | h
                · exact absurd h hqp
                · exact h
              have hip : i ≠ pid := by
                intro e
                rw [e, hl] at hqi
                rw [hl] at hp
                exact hqp (buildLookup_inj verts q p pid hqi hp)
              rw [ih g1 hl1 hnd.2 hok q i (by rw [hk.lookupEq]; exact hqi) hqr, hfr i hip]

/-- C9 as stated fails: the vertex `(0,0)` lies on the boundary of the
rectangle `(0,0)-(10,10)` (and inside it, by the convention of
`image.Rectangle`), yet `IncrWeightsOutside` changes its weight from 5 to 6. -/
theorem incrWeightsOutside_changes_boundary_vertex :
    ∃ g, New 5 ["a"] [⟨0, 0⟩, ⟨5, 5⟩] [(⟨0, 0⟩, ⟨5, 5⟩)] = .ok g ∧
      g.weightOf "a" ⟨0, 0⟩ = some 5 ∧
      (IncrWeightsOutside g ⟨0, 0, 10, 10⟩ [("a", 1)]).1.weightOf "a" ⟨0, 0⟩ = some 6 ∧
      (IncrWeightsOutside g ⟨0, 0, 10, 10⟩ [("a", 1)]).1.weightOf "a" ⟨5, 5⟩ = some 5 :=
  ⟨_, rfl, rfl, rfl, rfl⟩

/-- C9 (amended): on a graph built by `New` and changed by `IncrWeights` and
`IncrWeightsOutside` calls, `IncrWeightsOutside(rect, deltas)` leaves every
weight of a vertex strictly inside `rect` (`Min.X < X < Max.X` and
`Min.Y < Y < Max.Y`) unchanged, whether it fails or not; and when the vertices
are pairwise distinct and `deltas` is a map of registered channels, it
succeeds and every other vertex, those on the boundary of `rect` included,
has on each channel its old weight plus the delta of the channel, floored at
zero. -/
theorem incrWeightsOutside_effect (dw : Int) (names : List String) (verts : List Point)
    (edges : List (Point × Point)) (g : Graph) (calls : List Call) (area : Rect)
    (delta : List (String × Int))
    (hnew : New dw names verts edges = .ok g) (hcalls : ∀ c, c ∈ calls → c.isIncr = true) :
    (∀ tag p, p ∈ verts → outsideArea area p = false →
      (IncrWeightsOutside (runCalls g calls) area delta).1.weightOf tag p =
        (runCalls g calls).weightOf tag p) ∧
    (verts.Nodup → (delta.map Prod.fst).Nodup → (∀ td, td ∈ delta → td.1 ∈ names) →
      (IncrWeightsOutside (runCalls g calls) area delta).2 = none ∧
      ∀ tag p, p ∈ verts → outsideArea area p = true →
        (IncrWeightsOutside (runCalls g calls) area delta).1.weightOf tag p =
          ((runCalls g calls).weightOf tag p).map (applyDelta delta tag)) := by
  obtain ⟨hc, _, ht⟩ := reached_inv dw names verts edges g calls hnew hcalls
  generalize runCalls g calls = g1 at *
  have hk := IncrWeightsOutside_keeps names g1 area delta
  have hwo : ∀ (tag : String) (p : Point) (i : Nat), mapGet g1.pointLookup p = some i →
      (IncrWeightsOutside g1 area delta).1.weightOf tag p =
        (IncrWeightsOutside g1 area delta).1.weightAt tag i ∧
      g1.weightOf tag p = g1.weightAt tag i := by
    intro tag p i hi
    constructor
    · simp only [Graph.weightOf, hk.lookupEq, hi]
    · simp only [Graph.weightOf, hi]
  constructor
  · intro tag p hp hin
    obtain ⟨i, hi⟩ := buildLookup_mem verts p hp
    rw [← ht.lookupEq] at hi
    rw [(hwo tag p i hi).1, (hwo tag p i hi).2]
    unfold IncrWeightsOutside
    apply IncrWeights_frame
    intro q hq hlook
    rw [ht.vertsEq] at hq
    have hqo := (List.mem_filter.mp hq).2
    rw [ht.lookupEq] at hlook hi
    rw [buildLookup_inj verts q p i hlook hi, hin] at hqo
    exact absurd hqo (by simp)
  · intro hnd hkeys hreg
    have hsub : ∀ p, p ∈ g1.verts.filter (outsideArea area) → p ∈ verts := by
      intro p hp
      rw [ht.vertsEq] at hp
      exact (List.mem_filter.mp hp).1
    have hok : (IncrWeightsOutside g1 area delta).2 = none :=
      IncrWeights_ok names verts delta hreg _ g1 hc ht.vertsEq ht.lookupEq hsub
    refine ⟨hok, ?_⟩
    intro tag p hp hout
    obtain ⟨i, hi⟩ := buildLookup_mem verts p hp
    rw [← ht.lookupEq] at hi
    rw [(hwo tag p i hi).1, (hwo tag p i hi).2]
    unfold IncrWeightsOutside at hok ⊢
    refine IncrWeights_effect verts delta tag hkeys _ g1 ht.lookupEq ?_ hok p i hi ?_
    · rw [ht.vertsEq]
      exact hnd.filter _
    · rw [ht.vertsEq]
      exact List.mem_filter.mpr ⟨hp, hout⟩

/-- Witness of C9: a vertex strictly inside the rectangle keeps its weight. -/
theorem incrWeightsOutside_effect_witness :
    ∃ g, New 5 ["a"] [⟨0, 0⟩, ⟨5, 5⟩] [(⟨0, 0⟩, ⟨5, 5⟩)] = .ok g ∧
      (IncrWeightsOutside g ⟨0, 0, 10, 10⟩ [("a", 1)]).1.weightOf "a" ⟨5, 5⟩ =
        g.weightOf "a" ⟨5, 5⟩ :=
  ⟨_, rfl, (incrWeightsOutside_effect 5 ["a"] [⟨0, 0⟩, ⟨5, 5⟩] [(⟨0, 0⟩, ⟨5, 5⟩)] _ []
    ⟨0, 0, 10, 10⟩ [("a", 1)] rfl (fun c hc => absurd hc (List.not_mem_nil c))).1
    "a" ⟨5, 5⟩ (by decide) (by decide)⟩

/-! ## Neighbours -/

theorem mem_setAdd {α : Type} [DecidableEq α] (s : List α) (x y : α) :
    y ∈ setAdd s x ↔ y ∈ s ∨ y = x := by
  unfold setAdd
  split_ifs with h
  · constructor
    · exact Or.inl
    · rintro (h1 | h1)
      · exact h1
      · rw [h1]
        exact h
  · simp only [List.mem_append, List.mem_singleton]

theorem nodup_setAdd {α : Type} [DecidableEq α] (s : List α) (x : α) (h : s.Nodup) :
    (setAdd s x).Nodup := by
  unfold setAdd
  split_ifs with hx
  · exact h
  · rw [List.nodup_append]
    refine ⟨h, List.nodup_singleton x, ?_⟩
    intro a ha hb
    rw [List.mem_singleton] at hb
    exact hx (hb ▸ ha)

theorem givenIds_spec (pl : List (Point × Nat)) (input : List Point) :
    ∀ acc : List Nat, (∀ p, p ∈ input → ∃ k, mapGet pl p = some k) →
      ∃ given, givenIds pl acc input = .ok given ∧
        ∀ id, id ∈ given ↔ (id ∈ acc ∨ ∃ p, p ∈ input ∧ mapGet pl p = some id) := by
  induction input with
  | nil =>
    intro acc _
    refine ⟨acc, rfl, fun id => ?_⟩
    constructor
    · exact Or.inl
    · rintro (h | ⟨p, hp, _⟩)
      · exact h
      · exact absurd hp (List.not_mem_nil p)
  | cons p rest ih =>
    intro acc hall
    obtain ⟨k, hk⟩ := hall p (List.mem_cons_self _ _)
    obtain ⟨given, hg, hmem⟩ := ih (setAdd acc k) (fun q hq => hall q (List.mem_cons_of_mem _ hq))
    refine ⟨given, ?_, fun id => ?_⟩
    · rw [givenIds]
      simp only [hk]
      exact hg
    · rw [hmem id, mem_setAdd]
      constructor
      · rintro ((h | h) | ⟨q, hq, hqk⟩)
        · exact Or.inl h
        · exact Or.inr ⟨p, List.mem_cons_self _ _, by rw [h]; exact hk⟩
        · exact Or.inr ⟨q, List.mem_cons_of_mem _ hq, hqk⟩
      · rintro (h | ⟨q, hq, hqk⟩)
        · exact Or.inl (Or.inl h)
        · rcases List.mem_cons.mp hq with e | hq
          · rw [e, hk] at hqk
            exact Or.inl (Or.inr (Option.some.inj hqk).symm)
          · exact Or.inr ⟨q, hq, hqk⟩

theorem foundStep_fold (g : Graph) (given : List Nat) (nbrs : List Nat) :
    ∀ found : List Point, found.Nodup → (∀ nid, nid ∈ nbrs → nid < g.verts.length) →
      ∃ found1, nbrs.foldl (foundStep g given) (some found) = some found1 ∧ found1.Nodup ∧
        ∀ q, q ∈ found1 ↔
          (q ∈ found ∨ ∃ nid, nid ∈ nbrs ∧ nid ∉ given ∧ g.verts[nid]? = some q) := by
  induction nbrs with
  | nil =>
    intro found hnd _
    refine ⟨found, rfl, hnd, fun q => ?_⟩
    constructor
    · exact Or.inl
    · rintro (h | ⟨nid, hn, _⟩)
      · exact h
      · exact absurd hn (List.not_mem_nil nid)
  | cons n rest ih =>
    intro found hnd hlt
    rw [List.foldl_cons]
    have hrest : ∀ nid, nid ∈ rest → nid < g.verts.length :=
      fun nid h => hlt nid (List.mem_cons_of_mem _ h)
    by_cases hg : n ∈ given
    · have hs : foundStep g given (some found) n = some found := by
        simp only [foundStep, hg, if_true]
      rw [hs]
      obtain ⟨f1, h1, h2, h3⟩ := ih found hnd hrest
      refine ⟨f1, h1, h2, fun q => ?_⟩
      rw [h3 q]
      constructor
      · rintro (h | ⟨nid, hn, hng, hq⟩)
        · exact Or.inl h
        · exact Or.inr ⟨nid, List.mem_cons_of_mem _ hn, hng, hq⟩
      · rintro (h | ⟨nid, hn, hng, hq⟩)
        · exact Or.inl h
        · rcases List.mem_cons.mp hn with e | hn
          · rw [e] at hng
            exact absurd hg hng
          · exact Or.inr ⟨nid, hn, hng, hq⟩
    · have hn : n < g.verts.length := hlt n (List.mem_cons_self _ _)
      obtain ⟨q0, hget⟩ : ∃ q0, g.verts[n]? = some q0 :=
        ⟨g.verts[n], List.getElem?_eq_getElem hn⟩
      have hs : foundStep g given (some found) n = some (setAdd found q0) := by
        simp only [foundStep, hg, if_false, hget]
      rw [hs]
      obtain ⟨f1, h1, h2, h3⟩ := ih (setAdd found q0) (nodup_setAdd _ _ hnd) hrest
      refine ⟨f1, h1, h2, fun q => ?_⟩
      rw [h3 q, mem_setAdd]
      constructor
      · rintro ((h | h) | ⟨nid, hn1, hng, hq⟩)
        · exact Or.inl h
        · exact Or.inr ⟨n, List.mem_cons_self _ _, hg, by rw [h]; exact hget⟩
        · exact Or.inr ⟨nid, List.mem_cons_of_mem _ hn1, hng, hq⟩
      · rintro (h | ⟨nid, hn1, hng, hq⟩)
        · exact Or.inl (Or.inl h)
        · rcases List.mem_cons.mp hn1 with e | hn1
          · rw [e, hget] at hq
            exact Or.inl (Or.inr (Option.some.inj hq).symm)
          · exact Or.inr ⟨nid, hn1, hng, hq⟩

theorem foundRow_fold (g : Graph) (given : List Nat) (ids : List Nat) :
    ∀ found : List Point, found.Nodup →
      (∀ pid, pid ∈ ids → ∃ nbrs, g.neighbours[pid]? = some nbrs ∧
        ∀ nid, nid ∈ nbrs → nid < g.verts.length) →
      ∃ found1, ids.foldl (foundRow g given) (some found) = some found1 ∧ found1.Nodup ∧
        ∀ q, q ∈ found1 ↔
          (q ∈ found ∨ ∃ pid nbrs nid, pid ∈ ids ∧ g.neighbours[pid]? = some nbrs ∧
            nid ∈ nbrs ∧ nid ∉ given ∧ g.verts[nid]? = some q) := by
  induction ids with
  | nil =>
    intro found hnd _
    refine ⟨found, rfl, hnd, fun q => ?_⟩
    constructor
    · exact Or.inl
    · rintro (h | ⟨pid, _, _, hp, _⟩)
      · exact h
      · exact absurd hp (List.not_mem_nil pid)
  | cons pid rest ih =>
    intro found hnd hall
    obtain ⟨nbrs, hn, hlt⟩ := hall pid (List.mem_cons_self _ _)
    obtain ⟨f0, e0, nd0, m0⟩ := foundStep_fold g given nbrs found hnd hlt
    have hrow : foundRow g given (some found) pid = some f0 := by
      simp only [foundRow, hn]
      exact e0
    obtain ⟨f1, e1, nd1, m1⟩ := ih f0 nd0 (fun p hp => hall p (List.mem_cons_of_mem _ hp))
    refine ⟨f1, ?_, nd1, fun q => ?_⟩
    · rw [List.foldl_cons, hrow]
      exact e1
    · rw [m1 q, m0 q]
      constructor
      · rintro ((h | ⟨nid, h1, h2, h3⟩) | ⟨p, nb, nid, h0, h1, h2, h3, h4⟩)
        · exact Or.inl h
        · exact Or.inr ⟨pid, nbrs, nid, List.mem_cons_self _ _, hn, h1, h2, h3⟩
        · exact Or.inr ⟨p, nb, nid, List.mem_cons_of_mem _ h0, h1, h2, h3, h4⟩
      · rintro (h | ⟨p, nb, nid, h0, h1, h2, h3, h4⟩)
        · exact Or.inl (Or.inl h)
        · rcases List.mem_cons.mp h0 with e | h0
          · rw [e, hn] at h1
            rw [← Option.some.inj h1] at h2
            exact Or.inl (Or.inr ⟨nid, h2, h3, h4⟩)
          · exact Or.inr ⟨p, nb, nid, h0, h1, h2, h3, h4⟩

theorem SetWeights_frame (g : Graph) (input : Option (List (String × List Int))) :
    (SetWeights g input).1.verts = g.verts ∧
    (SetWeights g input).1.neighbours = g.neighbours ∧
    (SetWeights g input).1.pointLookup = g.pointLookup := by
  cases input with
  | none => exact ⟨rfl, rfl, rfl⟩
  | some entries =>
    rw [SetWeights]
    cases hr : setTags g.neighbours g.dij [] entries with
    | mk dij res =>
      cases res with
      | error err => exact ⟨rfl, rfl, rfl⟩
      | ok wts => exact ⟨rfl, rfl, rfl⟩

theorem runCalls_frame (calls : List Call) :
    ∀ g : Graph, (runCalls g calls).verts = g.verts ∧
      (runCalls g calls).neighbours = g.neighbours ∧
      (runCalls g calls).pointLookup = g.pointLookup := by
  induction calls with
  | nil =>
    intro g
    exact ⟨rfl, rfl, rfl⟩
  | cons c rest ih =>
    intro g
    have h1 : (c.run g).verts = g.verts ∧ (c.run g).neighbours = g.neighbours ∧
        (c.run g).pointLookup = g.pointLookup := by
      cases c with
      | incr pts delta =>
        have hk := IncrWeights_keeps [] delta pts g
        exact ⟨hk.vertsEq, hk.nbrsEq, hk.lookupEq⟩
      | incrOutside area delta =>
        have hk := IncrWeightsOutside_keeps [] g area delta
        exact ⟨hk.vertsEq, hk.nbrsEq, hk.lookupEq⟩
      | setWeights input => exact SetWeights_frame g input
    obtain ⟨a1, a2, a3⟩ := ih (c.run g)
    exact ⟨a1.trans h1.1, a2.trans h1.2.1, a3.trans h1.2.2⟩

/-- C10: on a graph built by `New` (and after any calls that change its
weights), for every list of points that are all vertices, `Neighbours`
returns a list without duplicates that holds exactly the points joined by an
edge to at least one point of the list and not themselves in the list. -/
theorem neighbours_spec (dw : Int) (names : List String) (verts : List Point)
    (edges : List (Point × Point)) (g : Graph) (calls : List Call) (input : List Point)
    (hnew : New dw names verts edges = .ok g) (hin : ∀ p, p ∈ input → p ∈ verts) :
    ∃ res, Neighbours (runCalls g calls) input = .ok res ∧ res.Nodup ∧
      ∀ q, q ∈ res ↔ (q ∉ input ∧ ∃ p, p ∈ input ∧ ((p, q) ∈ edges ∨ (q, p) ∈ edges)) := by
  obtain ⟨hc, _, ht, _⟩ := New_inv dw names verts edges g hnew
  obtain ⟨f1, f2, f3⟩ := runCalls_frame calls g
  generalize runCalls g calls = g1 at *
  have hv : g1.verts = verts := f1.trans ht.vertsEq
  have hl : g1.pointLookup = buildLookup verts := f3.trans ht.lookupEq
  have he : EdgesOf verts edges g1.neighbours := by
    rw [f2]
    exact ht.edgesOf
  have hlen : g1.neighbours.length = verts.length := by
    rw [f2, hc.nsLen, ht.vertsEq]
  obtain ⟨given, hgiven, hgm⟩ := givenIds_spec g1.pointLookup input []
    (fun p hp => by rw [hl]; exact buildLookup_mem verts p (hin p hp))
  have hgm1 : ∀ id, id ∈ given ↔ ∃ p, p ∈ input ∧ mapGet (buildLookup verts) p = some id := by
    intro id
    rw [hgm id, hl]
    constructor
    · rintro (h | h)
      · exact absurd h (List.not_mem_nil id)
      · exact h
    · exact Or.inr
  obtain ⟨res, hres, hnd, hmem⟩ := foundRow_fold g1 given given [] List.nodup_nil (by
    intro pid hp
    obtain ⟨p, _, hk⟩ := (hgm1 pid).mp hp
    obtain ⟨nbrs, hn⟩ := getElem?_of_lt g1.neighbours pid
      (by rw [hlen]; exact buildLookup_lt verts p pid hk)
    refine ⟨nbrs, hn, fun nid hnid => ?_⟩
    obtain ⟨a, b, _, hb, _⟩ := he.nbrEdge pid nbrs nid hn hnid
    rw [hv]
    exact buildLookup_lt verts b nid hb)
  refine ⟨res, ?_, hnd, fun q => ?_⟩
  · simp only [Neighbours, hgiven, foundPoints, hres]
  · rw [hmem q]
    constructor
    · rintro (h | ⟨pid, nbrs, nid, h0, h1, h2, h3, h4⟩)
      · exact absurd h (List.not_mem_nil q)
      · obtain ⟨p, hp, hk⟩ := (hgm1 pid).mp h0
        obtain ⟨a, b, ha, hb, hab⟩ := he.nbrEdge pid nbrs nid h1 h2
        have eap : a = p := buildLookup_inj verts a p pid ha hk
        have ebq : b = q := by
          have := buildLookup_some verts b nid hb
          rw [hv, this] at h4
          exact Option.some.inj h4
        rw [eap, ebq] at hab
        rw [ebq] at hb
        refine ⟨fun hq => h3 ((hgm1 nid).mpr ⟨q, hq, hb⟩), p, hp, hab⟩
    · rintro ⟨hq, p, hp, hab⟩
      refine Or.inr ?_
      rcases hab with hab | hab
      · obtain ⟨u, v, nu, nv, hu, hv1, hnu, hvu, _, _⟩ := he.edgeNbr p q hab
        refine ⟨u, nu, v, (hgm1 u).mpr ⟨p, hp, hu⟩, hnu, hvu, ?_, ?_⟩
        · intro hvg
          obtain ⟨p1, hp1, hk1⟩ := (hgm1 v).mp hvg
          rw [buildLookup_inj verts p1 q v hk1 hv1] at hp1
          exact hq hp1
        · rw [hv]
          exact buildLookup_some verts q v hv1
      · obtain ⟨u, v, nu, nv, hu, hv1, _, _, hnv, huv⟩ := he.edgeNbr q p hab
        refine ⟨v, nv, u, (hgm1 v).mpr ⟨p, hp, hv1⟩, hnv, huv, ?_, ?_⟩
        · intro hug
          obtain ⟨p1, hp1, hk1⟩ := (hgm1 u).mp hug
          rw [buildLookup_inj verts p1 q u hk1 hu] at hp1
          exact hq hp1
        · rw [hv]
          exact buildLookup_some verts q u hu

/-- Witness of C10: the neighbours of two vertices of a path of three edges. -/
theorem neighbours_spec_witness :
    ∃ g, New 5 ["a"] [⟨0, 0⟩, ⟨1, 0⟩, ⟨2, 0⟩, ⟨3, 0⟩]
        [(⟨0, 0⟩, ⟨1, 0⟩), (⟨1, 0⟩, ⟨2, 0⟩), (⟨2, 0⟩, ⟨3, 0⟩)] = .ok g ∧
      Neighbours g [⟨1, 0⟩, ⟨2, 0⟩] = .ok [⟨0, 0⟩, ⟨3, 0⟩] ∧
      ∃ res, Neighbours (runCalls g []) [⟨1, 0⟩, ⟨2, 0⟩] = .ok res ∧ res.Nodup ∧
        ∀ q, q ∈ res ↔ (q ∉ [(⟨1, 0⟩ : Point), ⟨2, 0⟩] ∧ ∃ p, p ∈ [(⟨1, 0⟩ : Point), ⟨2, 0⟩] ∧
          ((p, q) ∈ [((⟨0, 0⟩ : Point), (⟨1, 0⟩ : Point)), (⟨1, 0⟩, ⟨2, 0⟩), (⟨2, 0⟩, ⟨3, 0⟩)] ∨
           (q, p) ∈ [((⟨0, 0⟩ : Point), (⟨1, 0⟩ : Point)), (⟨1, 0⟩, ⟨2, 0⟩), (⟨2, 0⟩, ⟨3, 0⟩)])) :=
  ⟨_, rfl, rfl, neighbours_spec 5 ["a"] [⟨0, 0⟩, ⟨1, 0⟩, ⟨2, 0⟩, ⟨3, 0⟩]
    [(⟨0, 0⟩, ⟨1, 0⟩), (⟨1, 0⟩, ⟨2, 0⟩), (⟨2, 0⟩, ⟨3, 0⟩)] _ [] [⟨1, 0⟩, ⟨2, 0⟩] rfl
    (by decide)⟩

end Dijkstra

namespace Geography

/-! ## trimPath -/

/-- What the loop of `trimPath` keeps: a front part of the points it is
given; at every point kept the running total is not `>= max`, and at the
first point dropped it is. -/
theorem trimLoop_spec {F : Type} (ops : FloatOps F) (dist : Point → Point → F)
    (max : F) (rest : List Point) : ∀ (total : F) (prev : Point),
      ∃ dropped, rest = trimLoop ops dist max total prev rest ++ dropped ∧
        (∀ k, 1 ≤ k → k ≤ (trimLoop ops dist max total prev rest).length →
          ops.ge (totalFrom ops dist total prev
            ((trimLoop ops dist max total prev rest).take k)) max = false) ∧
        (∀ q more, dropped = q :: more →
          ops.ge (totalFrom ops dist total prev
            (trimLoop ops dist max total prev rest ++ [q])) max = true) := by
  induction rest with
  | nil =>
    intro total prev
    refine ⟨[], rfl, fun k h1 h2 => ?_, fun q more h => ?_⟩
    · simp only [trimLoop, List.length_nil] at h2
      omega
    · exact absurd h (by simp)
  | cons p rest ih =>
    intro total prev
    cases hcut : ops.ge (ops.add total (dist prev p)) max with
    | true =>
      have he : trimLoop ops dist max total prev (p :: rest) = [] := by
        simp only [trimLoop, hcut, if_true]
      rw [he]
      refine ⟨p :: rest, rfl, fun k h1 h2 => ?_, fun q more h => ?_⟩
      · simp only [List.length_nil] at h2
        omega
      · have hq : p = q := (List.cons.inj h).1
        rw [← hq]
        simpa only [List.nil_append, totalFrom] using hcut
    | false =>
      have he : trimLoop ops dist max total prev (p :: rest) =
          p :: trimLoop ops dist max (ops.add total (dist prev p)) p rest := by
        simp only [trimLoop, hcut, Bool.false_eq_true, if_false]
      rw [he]
      obtain ⟨dropped, h1, h2, h3⟩ := ih (ops.add total (dist prev p)) p
      refine ⟨dropped, ?_, fun k hk1 hk2 => ?_, fun q more h => ?_⟩
      · rw [List.cons_append, ← h1]
      · cases k with
        | zero => omega
        | succ n =>
          rw [List.take_succ_cons, totalFrom]
          cases n with
          | zero =>
            rw [List.take_zero, totalFrom]
            exact hcut
          | succ n1 =>
            simp only [List.length_cons] at hk2
            exact h2 (n1 + 1) (by omega) (by omega)
      · rw [List.cons_append, totalFrom]
        exact h3 q more h

/-- The length of the last segment is at least `0.0` when every length is. -/
theorem lastSegment_nonneg {F : Type} [Preorder F] (ops : FloatOps F)
    (dist : Point → Point → F) (hd : ∀ a b, ops.zero ≤ dist a b) :
    ∀ l : List Point, ops.zero ≤ lastSegment ops dist l
  | [] => le_refl _
  | [_] => le_refl _
  | [a, b] => hd a b
  | _ :: b :: c :: rest => by
    simp only [lastSegment]
    exact lastSegment_nonneg ops dist hd (b :: c :: rest)

/-- C12 as stated fails: the path `(0,0), (3,4)` has Euclidean length exactly
5 (no rounding occurs: the root of 25 is 5), so with `maxDist = 5` the whole
path is a prefix whose length does not exceed `maxDist`, yet `trimPath`
returns the first point only (it cuts as soon as the running total is
`>= max`). -/
theorem trimPath_cuts_at_exact_length :
    trimPath exactOps
      (fun a b => Real.sqrt (((a.X - b.X : Int) : ℝ) ^ 2 + ((a.Y - b.Y : Int) : ℝ) ^ 2))
      [⟨0, 0⟩, ⟨3, 4⟩] 5 = [⟨0, 0⟩] ∧
    pathTotal exactOps
      (fun a b => Real.sqrt (((a.X - b.X : Int) : ℝ) ^ 2 + ((a.Y - b.Y : Int) : ℝ) ^ 2))
      [⟨0, 0⟩, ⟨3, 4⟩] = 5 := by
  have h5 : Real.sqrt ((((0 : Int) - 3 : Int) : ℝ) ^ 2 + (((0 : Int) - 4 : Int) : ℝ) ^ 2) = 5 := by
    have e : ((((0 : Int) - 3 : Int) : ℝ) ^ 2 + (((0 : Int) - 4 : Int) : ℝ) ^ 2) = (5 : ℝ) ^ 2 := by
      norm_num
    rw [e]
    exact Real.sqrt_sq (by norm_num)
  constructor
  · simp only [trimPath, trimLoop, exactOps, zero_add, h5, le_refl, decide_True, if_true]
  · simp only [pathTotal, totalFrom, exactOps, zero_add, h5]

/-- C12 (amended): for every path and `maxDist`, whatever the `float64`
operations compute, `trimPath` returns the longest prefix along which the
running total of the segment lengths, as the code computes it, stays below
`maxDist`, the first point being kept in any case: the result is a prefix of
the path, it is not empty when the path is not, at each of its points after
the first the running total up to that point is not `>= maxDist`, and if a
point was dropped, the running total up to the first dropped point is
`>= maxDist`. -/
theorem trimPath_longest_below {F : Type} (ops : FloatOps F)
    (dist : Point → Point → F) (path : List Point) (max : F) :
    ∃ dropped, path = trimPath ops dist path max ++ dropped ∧
      (path ≠ [] → trimPath ops dist path max ≠ []) ∧
      (∀ k, 2 ≤ k → k ≤ (trimPath ops dist path max).length →
        ops.ge (pathTotal ops dist ((trimPath ops dist path max).take k)) max = false) ∧
      (∀ q more, dropped = q :: more →
        ops.ge (pathTotal ops dist (trimPath ops dist path max ++ [q])) max = true) := by
  cases path with
  | nil =>
    refine ⟨[], rfl, fun h => absurd rfl h, fun k h1 h2 => ?_, fun q more h => ?_⟩
    · simp only [trimPath, List.length_nil] at h2
      omega
    · exact absurd h (by simp)
  | cons p0 rest =>
    obtain ⟨dropped, h1, h2, h3⟩ := trimLoop_spec ops dist max rest ops.zero p0
    refine ⟨dropped, ?_, fun _ => by simp [trimPath], fun k hk1 hk2 => ?_, fun q more h => ?_⟩
    · simp only [trimPath, List.cons_append]
      rw [← h1]
    · simp only [trimPath, List.length_cons] at hk2
      cases k with
      | zero => omega
      | succ n =>
        simp only [trimPath, List.take_succ_cons, pathTotal]
        exact h2 n (by omega) (by omega)
    · simp only [trimPath, List.cons_append, pathTotal]
      exact h3 q more h

/-- C13 as stated fails: with `maxDist = -1` the path of the single point
`(0,0)` is returned as it is (no arithmetic is done); its length 0 exceeds
`maxDist` by 1, more than the length 0 of its last segment, and the total
length 0 of the path is greater than `maxDist` while the length up to the
last returned point is not `<= maxDist`. -/
theorem trimPath_negative_maxDist :
    trimPath exactOps
      (fun a b => Real.sqrt (((a.X - b.X : Int) : ℝ) ^ 2 + ((a.Y - b.Y : Int) : ℝ) ^ 2))
      [⟨0, 0⟩] (-1) = [⟨0, 0⟩] ∧
    ¬ pathTotal exactOps
        (fun a b => Real.sqrt (((a.X - b.X : Int) : ℝ) ^ 2 + ((a.Y - b.Y : Int) : ℝ) ^ 2))
        [⟨0, 0⟩] ≤
      (-1 : ℝ) + lastSegment exactOps
        (fun a b => Real.sqrt (((a.X - b.X : Int) : ℝ) ^ 2 + ((a.Y - b.Y : Int) : ℝ) ^ 2))
        [⟨0, 0⟩] ∧
    (-1 : ℝ) < pathTotal exactOps
        (fun a b => Real.sqrt (((a.X - b.X : Int) : ℝ) ^ 2 + ((a.Y - b.Y : Int) : ℝ) ^ 2))
        [⟨0, 0⟩] ∧
    ¬ pathTotal exactOps
        (fun a b => Real.sqrt (((a.X - b.X : Int) : ℝ) ^ 2 + ((a.Y - b.Y : Int) : ℝ) ^ 2))
        [⟨0, 0⟩] ≤ (-1 : ℝ) := by
  refine ⟨rfl, ?_, ?_, ?_⟩
  · simp only [pathTotal, totalFrom, lastSegment, exactOps]
    norm_num
  · simp only [pathTotal, totalFrom, exactOps]
    norm_num
  · simp only [pathTotal, totalFrom, exactOps]
    norm_num

/-- C13 (amended): for every path and every `maxDist >= 0`, with the lengths
as the code computes them (a running total in which `>=` is the test of a
total order, adding a length `>= 0` does not lower a total, and every segment
length is `>= 0`, as in `float64` apart from NaN): the running total of the
prefix returned by `trimPath` does not exceed `maxDist` by more than the
length of its last segment, and for a path whose running total is greater
than `maxDist` the running total up to the last returned point is
`<= maxDist`. -/
theorem trimPath_length_le {F : Type} [Preorder F] [IsTotal F (· ≤ ·)] (ops : FloatOps F)
    (dist : Point → Point → F) (path : List Point) (max : F)
    (hge : ∀ a b, ops.ge a b = true ↔ b ≤ a)
    (hadd : ∀ x d, ops.zero ≤ d → x ≤ ops.add x d)
    (hd : ∀ a b, ops.zero ≤ dist a b) (hmax : ops.zero ≤ max) :
    pathTotal ops dist (trimPath ops dist path max) ≤
      ops.add max (lastSegment ops dist (trimPath ops dist path max)) ∧
    (max < pathTotal ops dist path → pathTotal ops dist (trimPath ops dist path max) ≤ max) := by
  have h1 : pathTotal ops dist (trimPath ops dist path max) ≤ max := by
    cases path with
    | nil => exact hmax
    | cons p0 rest =>
      obtain ⟨_, _, h2, _⟩ := trimLoop_spec ops dist max rest ops.zero p0
      by_cases hk : trimLoop ops dist max ops.zero p0 rest = []
      · simp only [trimPath, pathTotal, hk, totalFrom]
        exact hmax
      · have hlen : 1 ≤ (trimLoop ops dist max ops.zero p0 rest).length :=
          List.length_pos.mpr hk
        have h3 := h2 _ hlen (Nat.le_refl _)
        rw [List.take_length] at h3
        have h4 : ¬ max ≤ totalFrom ops dist ops.zero p0
            (trimLoop ops dist max ops.zero p0 rest) := by
          intro hle
          rw [(hge _ _).mpr hle] at h3
          exact absurd h3 (by simp)
        simp only [trimPath, pathTotal]
        exact (total_of (fun a b : F => a ≤ b) max _).resolve_left h4
  exact ⟨le_trans h1 (hadd max _ (lastSegment_nonneg ops dist hd _)), fun _ => h1⟩

/-- Witness of C13: a path along the x axis with unit steps counted as
lengths in exact integer arithmetic, trimmed at 2. -/
theorem trimPath_length_le_witness :
    pathTotal exactOps (fun a b : Point => |a.X - b.X|)
      (trimPath exactOps (fun a b : Point => |a.X - b.X|)
        [⟨0, 0⟩, ⟨1, 0⟩, ⟨2, 0⟩, ⟨3, 0⟩] 2) ≤
      exactOps.add 2 (lastSegment exactOps (fun a b : Point => |a.X - b.X|)
        (trimPath exactOps (fun a b : Point => |a.X - b.X|)
          [⟨0, 0⟩, ⟨1, 0⟩, ⟨2, 0⟩, ⟨3, 0⟩] 2)) :=
  (trimPath_length_le exactOps (fun a b : Point => |a.X - b.X|)
    [⟨0, 0⟩, ⟨1, 0⟩, ⟨2, 0⟩, ⟨3, 0⟩] 2
    (fun a b => by simp [exactOps])
    (fun x d h => by
      have h0 : (0 : Int) ≤ d := h
      show x ≤ x + d
      omega)
    (fun a b => abs_nonneg _) (by decide)).1

end Geography

namespace Geography

/-! ## Rain -/

/-- C16 (evaluation at the failing input): for the current value 200 and the
lost amount 100, `incrUint8` returns 44 and not `min(255, 200 + 100) = 255`:
the sum of the two `uint8` values wraps around before it is compared with
255, so the rain value of the pixel drops from 200 to 44. -/
theorem incrUint8_wraps_around :
    incrUint8 200 100 = 44 ∧ min 255 (200 + (⌊(100 : ℚ)⌋).toNat) = 255 := by
  constructor
  · simp [incrUint8]
    norm_num
  · simp

/-- C15: with a storm multiplier of zero (or below) `Rain` returns the rain
canvas that was stored before the call and leaves every stored layer, the
rain layer included, exactly as it was, whatever the prevailing winds, the
other layers and the storm simulation are. -/
theorem rain_zero_multiplier_keeps_layer {H : Type} (prevailingWinds : List H)
    (storms : List H → Layers → Canvas) (layers : Layers) :
    Rain 0 prevailingWinds storms layers = (layers.rain, layers) ∧
    (Rain 0 prevailingWinds storms layers).2.rain = layers.rain := by
  have h : Rain 0 prevailingWinds storms layers = (layers.rain, layers) := by
    simp [Rain]
  rw [h]
  exact ⟨rfl, rfl⟩

end Geography

namespace Types

/-! ## Dice -/

theorem wrapInt_id (z : Int) (h1 : -9223372036854775808 ≤ z) (h2 : z < 9223372036854775808) :
    Dijkstra.wrapInt z = z := by
  unfold Dijkstra.wrapInt
  omega

theorem rollFrom_bounds (rnd : Nat → Nat) (l : List Int) :
    ∀ (i : Nat) (v : Int), (∀ x, x ∈ l → 0 < x) → -9223372036854775808 ≤ v →
      v + (l.map (fun r => r - 1)).sum < 9223372036854775808 →
      v ≤ rollFrom rnd i v l ∧ rollFrom rnd i v l ≤ v + (l.map (fun r => r - 1)).sum := by
  induction l with
  | nil =>
    intro i v _ _ _
    simp [rollFrom]
  | cons x rest ih =>
    intro i v hpos hlo hhi
    have hx : 0 < x := hpos x (List.mem_cons_self _ _)
    have hr0 : 0 ≤ (rnd i : Int) % x := Int.emod_nonneg _ (by omega)
    have hr1 : (rnd i : Int) % x < x := Int.emod_lt_of_pos _ hx
    have hrest : ∀ y, y ∈ rest → 0 < y := fun y hy => hpos y (List.mem_cons_of_mem _ hy)
    have hsum0 : 0 ≤ (rest.map (fun r => r - 1)).sum := by
      apply List.sum_nonneg
      intro y hy
      obtain ⟨r, hr, rfl⟩ := List.mem_map.mp hy
      have := hrest r hr
      omega
    simp only [List.map_cons, List.sum_cons] at hhi ⊢
    have hw : Dijkstra.wrapInt (v + (rnd i : Int) % x) = v + (rnd i : Int) % x :=
      wrapInt_id _ (by omega) (by omega)
    simp only [rollFrom, hw]
    obtain ⟨h1, h2⟩ := ih (i + 1) (v + (rnd i : Int) % x) hrest (by omega) (by omega)
    constructor <;> omega

/-- C19 as stated fails: the sum of `Roll` is a 64-bit sum, so for
`NewDice(9223372036854775807, 2)` a draw of 1 wraps the result around to the
smallest `int`, which is below `add`. -/
theorem dice_roll_can_overflow :
    (NewDice 9223372036854775807 [2]).Roll (fun _ => 1) = -9223372036854775808 := by
  decide

/-- C19 (amended): for every dice built by `NewDice(add, rolls...)` whose
largest sum `add + sum of (r - 1) over the sides r > 0` is still an `int`
(below `2^63`), and every outcome of its random draws, `Roll` returns a value
`v` with `add <= v <= add + sum of (r - 1)`, sides `r <= 0` being ignored; so
`NewDice(5, 6, 6).Roll()` is in `[5, 17)`. -/
theorem dice_roll_bounds (add : Int) (rolls : List Int) (rnd : Nat → Nat)
    (hadd : -9223372036854775808 ≤ add)
    (hsum : add + diceSpan rolls < 9223372036854775808) :
    add ≤ (NewDice add rolls).Roll rnd ∧ (NewDice add rolls).Roll rnd ≤ add + diceSpan rolls := by
  unfold Dice.Roll NewDice diceSpan
  unfold diceSpan at hsum
  exact rollFrom_bounds rnd _ 0 add
    (fun x hx => by simpa using (List.mem_filter.mp hx).2) hadd hsum

/-- Witness of C19: `NewDice(5, 6, 6)` rolls between 5 and 15. -/
theorem dice_roll_bounds_witness :
    5 ≤ (NewDice 5 [6, 6]).Roll (fun i => 7 * i + 4) ∧
    (NewDice 5 [6, 6]).Roll (fun i => 7 * i + 4) ≤ 5 + diceSpan [6, 6] ∧
    5 + diceSpan [6, 6] < 17 :=
  ⟨(dice_roll_bounds 5 [6, 6] (fun i => 7 * i + 4) (by decide) (by decide)).1,
   (dice_roll_bounds 5 [6, 6] (fun i => 7 * i + 4) (by decide) (by decide)).2, by decide⟩

end Types

namespace Geography

/-! ## determineSea run on its own mask -/

theorem twoTone_Set (c : Canvas) (p : Point) (h : TwoTone c) : TwoTone (c.Set p seaColor) := by
  intro q
  unfold Canvas.Set
  split_ifs with hb
  · by_cases hq : q = p
    · exact Or.inr (by simp [hq])
    · simpa [hq] using h q
  · exact h q

theorem twoTone_seedAll (hmap : Point → Nat) (sl : Nat) (cs : List Point) :
    ∀ st : SeaFlood, TwoTone st.sea → TwoTone (cs.foldl (seedSea hmap sl) st).sea := by
  induction cs with
  | nil =>
    intro st h
    exact h
  | cons i rest ih =>
    intro st h
    rw [List.foldl_cons]
    apply ih
    unfold seedSea
    split_ifs
    · exact twoTone_Set _ _ h
    · exact h

theorem twoTone_visitAll (w h : Int) (hmap : Point → Nat) (sl : Nat) (next : Point)
    (cs : List Point) :
    ∀ st : SeaFlood, TwoTone st.sea →
      TwoTone (cs.foldl (visitSea w h hmap sl next) st).sea := by
  induction cs with
  | nil =>
    intro st h
    exact h
  | cons c rest ih =>
    intro st hst
    rw [List.foldl_cons]
    apply ih
    unfold visitSea
    split_ifs
    · exact hst
    · exact hst
    · exact hst
    · exact hst
    · exact hst
    · exact twoTone_Set _ _ hst

theorem twoTone_floodSea (w h : Int) (hmap : Point → Nat) (sl : Nat) :
    ∀ (fuel : Nat) (st st1 : SeaFlood), floodSea w h hmap sl fuel st = some st1 →
      TwoTone st.sea → TwoTone st1.sea := by
  intro fuel
  induction fuel with
  | zero =>
    intro st st1 hrun hst
    unfold floodSea at hrun
    cases hs : st.stack with
    | nil =>
      simp only [hs, Option.some.injEq] at hrun
      rw [← hrun]
      exact hst
    | cons next rest =>
      simp only [hs] at hrun
      exact absurd hrun (by simp)
  | succ n ih =>
    intro st st1 hrun hst
    unfold floodSea at hrun
    cases hs : st.stack with
    | nil =>
      simp only [hs, Option.some.injEq] at hrun
      rw [← hrun]
      exact hst
    | cons next rest =>
      simp only [hs] at hrun
      exact ih _ st1 hrun (twoTone_visitAll w h hmap sl next (around next) st hst)

theorem twoTone_determineSea (w h : Int) (hmap : Point → Nat) (sl : Nat) (sea : Canvas)
    (hrun : determineSea w h hmap sl = some sea) : TwoTone sea := by
  unfold determineSea at hrun
  simp only [Option.map_eq_some'] at hrun
  obtain ⟨st1, h1, h2⟩ := hrun
  rw [← h2]
  refine twoTone_floodSea w h hmap sl _ _ st1 h1 ?_
  apply twoTone_seedAll
  intro p
  exact Or.inl rfl

theorem inWorld_of_reach (w h : Int) (hmap : Point → Nat) (sl : Nat) (p : Point)
    (hr : SeaReach w h hmap sl p) : inWorld w h p = true := by
  cases hr with
  | seed _ hlow _ => exact hlow.1
  | step _ _ _ _ hlow => exact hlow.1

/-- When every pixel is low, the flood reaches every pixel of the world
(walk to the left border). -/
theorem reach_of_all_low (w h : Int) (hmap : Point → Nat) (sl : Nat)
    (hlow : ∀ p, hmap p ≤ sl) :
    ∀ (n : Nat) (p : Point), p.X = (n : Int) → inWorld w h p = true →
      SeaReach w h hmap sl p := by
  intro n
  induction n with
  | zero =>
    intro p hx hin
    exact SeaReach.seed p ⟨hin, hlow p⟩ (Or.inl (by simpa using hx))
  | succ k ih =>
    intro p hx hin
    have hin1 := (inWorld_iff w h p).mp hin
    have hq : inWorld w h ⟨p.X - 1, p.Y⟩ = true := by
      rw [inWorld_iff]
      simp only
      push_cast at hx
      omega
    have hr := ih ⟨p.X - 1, p.Y⟩ (by simp only; push_cast at hx; omega) hq
    refine SeaReach.step ⟨p.X - 1, p.Y⟩ p hr ?_ ⟨hin, hlow p⟩
    refine ⟨?_, by simp only; omega, by simp only; omega, by simp only; omega,
      by simp only; omega⟩
    intro e
    have := congrArg Point.X e
    simp only at this
    omega

theorem pix_of_twoTone (c : Canvas) (h : TwoTone c) (p : Point) :
    c.pix p = if 0 < c.B p then seaColor else ⟨0, 0, 0⟩ := by
  unfold Canvas.B
  rcases h p with e | e
  · rw [e]
    simp
  · rw [e]
    simp [seaColor]

/-- C20 as stated fails: in a world of one pixel of height 9 above the sea
level 5, `determineSea` paints nothing; run again on that mask (whose red
channel, the height it reads, is 0) it paints the pixel as sea. -/
theorem determineSea_not_idempotent :
    ∃ mask mask2, determineSea 1 1 (fun _ => 9) 5 = some mask ∧
      determineSea 1 1 (fun p => (mask.pix p).R) 5 = some mask2 ∧
      mask.B ⟨0, 0⟩ = 0 ∧ mask2.B ⟨0, 0⟩ = 255 :=
  ⟨_, _, rfl, rfl, rfl, rfl⟩

/-- C20 (amended): for every heightmap and sea level, `determineSea` run
again on the mask it produced (read as a heightmap through its red channel,
with the same sea level) paints every pixel of the world as sea; the second
mask is identical to the first exactly when the first mask has no land pixel. -/
theorem determineSea_on_own_mask (w h : Int) (hmap : Point → Nat) (sealevel : Nat) :
    ∃ mask mask2, determineSea w h hmap sealevel = some mask ∧
      determineSea w h (fun p => (mask.pix p).R) sealevel = some mask2 ∧
      (∀ p, isSea mask2 p ↔ inWorld w h p = true) ∧
      (mask2 = mask ↔ ∀ p, inWorld w h p = true → isSea mask p) := by
  obtain ⟨mask, h1, hb1, hr1⟩ := determineSea_reach w h hmap sealevel
  have ht1 := twoTone_determineSea w h hmap sealevel mask h1
  have hred : ∀ p, (mask.pix p).R ≤ sealevel := by
    intro p
    rcases ht1 p with e | e
    · rw [e]
      exact Nat.zero_le _
    · rw [e]
      exact Nat.zero_le _
  obtain ⟨mask2, h2, hb2, hr2⟩ := determineSea_reach w h (fun p => (mask.pix p).R) sealevel
  have ht2 := twoTone_determineSea w h _ sealevel mask2 h2
  have hall : ∀ p, isSea mask2 p ↔ inWorld w h p = true := by
    intro p
    rw [hr2 p]
    constructor
    · exact inWorld_of_reach w h _ sealevel p
    · intro hin
      have hx : p.X = ((p.X.toNat : Nat) : Int) := by
        have := (inWorld_iff w h p).mp hin
        omega
      exact reach_of_all_low w h _ sealevel hred p.X.toNat p hx hin
  refine ⟨mask, mask2, h1, h2, hall, ?_⟩
  constructor
  · intro e p hin
    rw [← e]
    exact (hall p).mpr hin
  · intro hsea
    have hsame : ∀ p, isSea mask2 p ↔ isSea mask p := by
      intro p
      rw [hall p]
      constructor
      · exact hsea p
      · intro hp
        exact inWorld_of_reach w h hmap sealevel p ((hr1 p).mp hp)
    have hpix : mask2.pix = mask.pix := by
      funext p
      rw [pix_of_twoTone mask2 ht2 p, pix_of_twoTone mask ht1 p]
      have := hsame p
      unfold isSea at this
      by_cases hp : 0 < mask.B p
      · rw [if_pos hp, if_pos (this.mpr hp)]
      · rw [if_neg hp, if_neg (fun h2 => hp (this.mp h2))]
    cases mask with
    | mk b1 p1 =>
      cases mask2 with
      | mk b2 p2 =>
        simp only at hb1 hb2 hpix
        rw [hb1, hb2, hpix]

end Geography

namespace Geography

/-! ## BuildEdges -/

/-- C17 (evaluation at the failing input): a grid of one cell holding the two
points 0 and 1, with weight functions that accept every pair, yields no edge
at all: the inner loops stop at `len(ns)-1`, so the last point of a cell is
never paired and the pair `(0, 1)` is never offered. -/
theorem buildEdges_skips_last_point :
    ∃ g0 g1 g2, NewGridBucket 10 10 10 false = some g0 ∧
      g0.AddPoint 0 ⟨1, 1⟩ = some g1 ∧ g1.AddPoint 1 ⟨2, 2⟩ = some g2 ∧
      g2.neighbours = [[0, 1]] ∧
      internalOffers [0, 1] = [] ∧
      g2.BuildEdges (fun _ _ => (0 : Int)) (fun _ _ => (0 : Int)) 5 = some [] :=
  ⟨_, _, _, rfl, rfl, rfl, rfl, rfl, rfl⟩

/-- C18 (evaluation at the failing input): two cells side by side, the left
one holding the points 0 and 1 and the right one the points 2 and 3, with
`maxExternal = 1` and external weights 5 for `(0,2)`, 1 for `(1,3)` and 7
otherwise.  All four cross pairs have a weight of at least zero, but the
worker of the left cell offers the pair `(0,2)` only and emits it, although
the pair `(1,3)` that is left out has a smaller weight. -/
theorem buildEdges_external_skips_last_points :
    ∃ g0 g1 g2 g3 g4, NewGridBucket 20 10 10 false = some g0 ∧
      g0.AddPoint 0 ⟨1, 1⟩ = some g1 ∧ g1.AddPoint 1 ⟨2, 2⟩ = some g2 ∧
      g2.AddPoint 2 ⟨11, 1⟩ = some g3 ∧ g3.AddPoint 3 ⟨12, 2⟩ = some g4 ∧
      g4.neighbours = [[0, 1], [2, 3]] ∧
      g4.neighbouringGrids 0 = some [[2, 3]] ∧
      externalOffers [0, 1] [2, 3] = [(0, 2)] ∧
      cellEdges g4 (fun _ _ => (-1 : Int))
        (fun a b => if a = 0 ∧ b = 2 then (5 : Int) else if a = 1 ∧ b = 3 then 1 else 7)
        1 0 = some [(0, 2)] :=
  ⟨_, _, _, _, _, rfl, rfl, rfl, rfl, rfl, rfl, rfl, rfl, rfl⟩

end Geography

namespace Geography

/-! ## Feature placement without a path -/

/-- C14: when the shortest-path query fails or the trimmed path has fewer
than two points, `AddRavine`, `AddMountainRange` and `AddVolanoes` (the last
once its canvas is loaded, which it does before the query) return `ErrNoPath`
and leave the world as it was: no weight and no tag of the graph is changed,
no draw directive is issued, neither the graph nor a canvas is saved.  When
the canvas of `AddVolanoes` does not load, the world is left as it was too. -/
theorem no_path_aborts_before_mutation {F : Type} (ops : FloatOps F)
    (lib : Dijkstra.DijGraph → Nat → Nat → Option (List Nat)) (dist : Point → Point → F)
    (ch : Chance) (weight count : Int) (tag : String) (src dst : Point) (maxDist : F)
    (w : World) :
    (noPath ops lib dist w.graph tagRavines src dst maxDist →
      AddRavine ops lib dist ch weight tag src dst maxDist w = (([], some .ErrNoPath), w)) ∧
    (noPath ops lib dist w.graph tagMountains src dst maxDist →
      AddMountainRange ops lib dist ch weight tag src dst maxDist w =
        (([], [], some .ErrNoPath), w)) ∧
    (noPath ops lib dist w.graph tagVolcanoes src dst maxDist → ch.canvasFails = false →
      AddVolanoes ops lib dist ch count src dst maxDist w = (([], [], some .ErrNoPath), w)) ∧
    (noPath ops lib dist w.graph tagVolcanoes src dst maxDist →
      (AddVolanoes ops lib dist ch count src dst maxDist w).2 = w) := by
  refine ⟨?_, ?_, ?_, ?_⟩
  · rintro (⟨e, he⟩ | ⟨found, hf, hlen⟩)
    · simp only [AddRavine, he]
    · simp only [AddRavine, hf, hlen, if_true]
  · rintro (⟨e, he⟩ | ⟨found, hf, hlen⟩)
    · simp only [AddMountainRange, he]
    · simp only [AddMountainRange, hf, hlen, if_true]
  · rintro (⟨e, he⟩ | ⟨found, hf, hlen⟩) hc
    · simp [AddVolanoes, he, hc]
    · simp [AddVolanoes, hf, hlen, hc]
  · rintro (⟨e, he⟩ | ⟨found, hf, hlen⟩)
    · cases hc : ch.canvasFails <;> simp [AddVolanoes, he, hc]
    · cases hc : ch.canvasFails <;> simp [AddVolanoes, hf, hlen, hc]

theorem no_path_aborts_before_mutation_witness :
    ∃ g, Dijkstra.New 1 [tagRavines, tagMountains, tagVolcanoes] [⟨0, 0⟩, ⟨10, 0⟩]
        [(⟨0, 0⟩, ⟨10, 0⟩)] = .ok g ∧
      AddRavine exactOps (fun _ _ _ => some [0, 1]) (fun _ _ => (10 : Int))
          ⟨false, false, false, [⟨3, 3⟩], id, 1⟩ 2 "range" ⟨1, 0⟩ ⟨10, 0⟩ 5 ⟨g, [], [], 0, []⟩ =
        (([], some .ErrNoPath), ⟨g, [], [], 0, []⟩) ∧
      AddMountainRange exactOps (fun _ _ _ => some [0, 1]) (fun _ _ => (10 : Int))
          ⟨false, false, false, [⟨3, 3⟩], id, 1⟩ 2 "range" ⟨0, 0⟩ ⟨10, 0⟩ 5 ⟨g, [], [], 0, []⟩ =
        (([], [], some .ErrNoPath), ⟨g, [], [], 0, []⟩) ∧
      AddVolanoes exactOps (fun _ _ _ => none) (fun _ _ => (10 : Int))
          ⟨false, false, false, [⟨3, 3⟩], id, 1⟩ 3 ⟨0, 0⟩ ⟨10, 0⟩ 5 ⟨g, [], [], 0, []⟩ =
        (([], [], some .ErrNoPath), ⟨g, [], [], 0, []⟩) :=
  ⟨_, rfl,
    (no_path_aborts_before_mutation _ _ _ _ 2 3 "range" ⟨1, 0⟩ ⟨10, 0⟩ 5 _).1
      (Or.inl ⟨_, rfl⟩),
    (no_path_aborts_before_mutation _ _ _ _ 2 3 "range" ⟨0, 0⟩ ⟨10, 0⟩ 5 _).2.1
      (Or.inr ⟨_, rfl, by decide⟩),
    (no_path_aborts_before_mutation _ _ _ _ 2 3 "range" ⟨0, 0⟩ ⟨10, 0⟩ 5 _).2.2.1
      (Or.inl ⟨_, rfl⟩) rfl⟩

end Geography

namespace Dijkstra

/-! ## Maps that hold every key once -/

theorem keys_mapSet {κ α : Type} [DecidableEq κ] (m : List (κ × α)) (k : κ) (v : α)
    (h : (m.map Prod.fst).Nodup) : ((mapSet m k v).map Prod.fst).Nodup := by
  unfold mapSet
  rw [List.map_cons, List.nodup_cons]
  constructor
  · intro hk
    obtain ⟨e, he, hek⟩ := List.mem_map.mp hk
    have := (List.mem_filter.mp he).2
    simp only [ne_eq, decide_not, Bool.not_eq_eq_eq_not, Bool.not_true,
      decide_eq_false_iff_not] at this
    exact this hek
  · exact h.sublist (List.Sublist.map _ (List.filter_sublist _))

theorem keys_foldl_mapSet {α : Type} (names : List String) (c : α) :
    ∀ m : List (String × α), (m.map Prod.fst).Nodup →
      ((names.foldl (fun m t => mapSet m t c) m).map Prod.fst).Nodup := by
  induction names with
  | nil => exact fun m h => h
  | cons n rest ih => exact fun m h => ih _ (keys_mapSet m n c h)

theorem markTag_keys (dw : Int) (id0 id1 : Nat) (st : Build) (tag : String)
    (h : (st.weights.map Prod.fst).Nodup) :
    ((markTag dw id0 id1 st tag).weights.map Prod.fst).Nodup := by
  unfold markTag
  split
  · exact keys_mapSet _ _ _ h
  · exact h

theorem markEdge_keys (dw : Int) (id0 id1 : Nat) (tags : List String) :
    ∀ st : Build, (st.weights.map Prod.fst).Nodup →
      ((markEdge dw id0 id1 st tags).weights.map Prod.fst).Nodup := by
  induction tags with
  | nil => exact fun st h => h
  | cons t rest ih =>
    intro st h
    exact ih _ (markTag_keys dw id0 id1 st t h)

theorem addEdges_keys (dw : Int) (pl : List (Point × Nat)) (edges : List (Point × Point)) :
    ∀ st st1 : Build, (st.weights.map Prod.fst).Nodup → addEdges dw pl st edges = .ok st1 →
      (st1.weights.map Prod.fst).Nodup := by
  induction edges with
  | nil =>
    intro st st1 h he
    simp only [addEdges, Except.ok.injEq] at he
    rw [← he]
    exact h
  | cons e rest ih =>
    intro st st1 h he
    rw [addEdges] at he
    cases ha : addEdge dw pl st e with
    | error err =>
      rw [ha] at he
      exact absurd he (by simp)
    | ok st2 =>
      rw [ha] at he
      dsimp only at he
      refine ih st2 st1 ?_ he
      unfold addEdge at ha
      cases h0 : mapGet pl e.1 with
      | none =>
        rw [h0] at ha
        exact absurd ha (by simp)
      | some id0 =>
        rw [h0] at ha
        dsimp only at ha
        cases h1 : mapGet pl e.2 with
        | none =>
          rw [h1] at ha
          exact absurd ha (by simp)
        | some id1 =>
          rw [h1] at ha
          dsimp only at ha
          simp only [Except.ok.injEq] at ha
          rw [← ha]
          exact markEdge_keys dw id0 id1 _ _ h

theorem New_keys (dw : Int) (names : List String) (verts : List Point)
    (edges : List (Point × Point)) (g : Graph) (hnew : New dw names verts edges = .ok g) :
    (g.weights.map Prod.fst).Nodup := by
  unfold New at hnew
  simp only at hnew
  cases hadd : addEdges dw (buildLookup verts)
      ⟨List.replicate verts.length [],
       names.foldl (fun m tag => mapSet m tag (List.replicate verts.length (0 : Int))) [],
       names.foldl (fun m tag => mapSet m tag (⟨[]⟩ : DijGraph)) []⟩ edges with
  | error err =>
    rw [hadd] at hnew
    exact absurd hnew (by simp)
  | ok st =>
    rw [hadd] at hnew
    simp only [Except.ok.injEq] at hnew
    rw [← hnew]
    exact addEdges_keys dw _ edges _ st (keys_foldl_mapSet names _ [] List.nodup_nil) hadd

theorem incrTag_keys (g : Graph) (pid : Nat) (nbrs : List Nat) (td : String × Int)
    (h : (g.weights.map Prod.fst).Nodup) :
    ((incrTag g pid nbrs td).1.weights.map Prod.fst).Nodup := by
  rcases incrTag_cases g pid nbrs td with ⟨err, he⟩ | ⟨d, ws, w, _, _, _, he⟩
  · rw [he]
    exact h
  · rw [he]
    exact keys_mapSet _ _ _ h

theorem incrTags_keys (pid : Nat) (nbrs : List Nat) (delta : List (String × Int)) :
    ∀ g : Graph, (g.weights.map Prod.fst).Nodup →
      ((incrTags pid nbrs g delta).1.weights.map Prod.fst).Nodup := by
  induction delta with
  | nil => exact fun g h => h
  | cons td rest ih =>
    intro g h
    rw [incrTags]
    have h1 := incrTag_keys g pid nbrs td h
    cases hr : incrTag g pid nbrs td with
    | mk g1 res =>
      rw [hr] at h1
      cases res with
      | some err => exact h1
      | none => exact ih g1 h1

theorem IncrWeights_keys (delta : List (String × Int)) (pts : List Point) :
    ∀ g : Graph, (g.weights.map Prod.fst).Nodup →
      ((IncrWeights g pts delta).1.weights.map Prod.fst).Nodup := by
  induction pts with
  | nil => exact fun g h => h
  | cons p rest ih =>
    intro g h
    rw [IncrWeights]
    cases hp : mapGet g.pointLookup p with
    | none => exact h
    | some pid =>
      dsimp only
      cases hn : g.neighbours[pid]? with
      | none => exact h
      | some nbrs =>
        dsimp only
        have h1 := incrTags_keys pid nbrs delta g h
        cases hr : incrTags pid nbrs g delta with
        | mk g1 res =>
          rw [hr] at h1
          cases res with
          | some err => exact h1
          | none => exact ih g1 h1

end Dijkstra

namespace Dijkstra

/-! ## What SetWeights does to the arcs -/

theorem setArcsFrom_spec (ns : List (List Nat)) (given : List Int) :
    ∀ (pid : Nat) (d : DijGraph), pid + given.length ≤ ns.length →
      ∃ d1, setArcsFrom ns pid d given = some d1 ∧
        ∀ u v, d1.arc u v =
          if pid ≤ v ∧ v < pid + given.length ∧ u ∈ ns.getD v [] then
            some (max (given.getD (v - pid) 0) 0)
          else d.arc u v := by
  induction given with
  | nil =>
    intro pid d _
    refine ⟨d, rfl, fun u v => ?_⟩
    rw [if_neg]
    rintro ⟨h1, h2, _⟩
    simp only [List.length_nil, Nat.add_zero] at h2
    omega
  | cons w rest ih =>
    intro pid d hlen
    simp only [List.length_cons] at hlen
    have hp : pid < ns.length := by omega
    rw [setArcsFrom, List.getElem?_eq_getElem hp]
    dsimp only
    obtain ⟨d1, h1, h2⟩ := ih (pid + 1)
      ((ns[pid]).foldl (fun d nid => d.AddArc nid pid (if w < 0 then 0 else w)) d) (by omega)
    refine ⟨d1, h1, fun u v => ?_⟩
    rw [h2, arc_foldl_AddArc]
    have hget : ns.getD pid [] = ns[pid] := by
      rw [List.getD_eq_getElem?_getD, List.getElem?_eq_getElem hp]
      rfl
    have hclamp : (if w < 0 then 0 else w) = max w 0 := by
      split
      · rw [max_eq_right (by omega)]
      · rw [max_eq_left (by omega)]
    by_cases hv : v = pid
    · subst hv
      have c1 : ¬ (v + 1 ≤ v ∧ v < v + 1 + rest.length ∧ u ∈ ns.getD v []) :=
        fun h => absurd h.1 (by omega)
      rw [if_neg c1]
      by_cases hu : u ∈ ns[v]
      · have c2 : u ∈ ns[v] ∧ v = v := ⟨hu, rfl⟩
        have c3 : v ≤ v ∧ v < v + (w :: rest).length ∧ u ∈ ns.getD v [] :=
          ⟨le_refl _, by simp only [List.length_cons]; omega, by rw [hget]; exact hu⟩
        rw [if_pos c2, if_pos c3, hclamp]
        simp
      · have c2 : ¬ (u ∈ ns[v] ∧ v = v) := fun h => hu h.1
        have c3 : ¬ (v ≤ v ∧ v < v + (w :: rest).length ∧ u ∈ ns.getD v []) :=
          fun h => hu (by rw [← hget]; exact h.2.2)
        rw [if_neg c2, if_neg c3]
    · by_cases hc : pid + 1 ≤ v ∧ v < pid + 1 + rest.length ∧ u ∈ ns.getD v []
      · have c3 : pid ≤ v ∧ v < pid + (w :: rest).length ∧ u ∈ ns.getD v [] :=
          ⟨by omega, by simp only [List.length_cons]; omega, hc.2.2⟩
        rw [if_pos hc, if_pos c3]
        have : v - pid = (v - (pid + 1)) + 1 := by omega
        rw [this, List.getD_cons_succ]
      · have c2 : ¬ (u ∈ ns[pid] ∧ v = pid) := fun h => hv h.2
        have c3 : ¬ (pid ≤ v ∧ v < pid + (w :: rest).length ∧ u ∈ ns.getD v []) := by
          rintro ⟨a1, a2, a3⟩
          simp only [List.length_cons] at a2
          exact hc ⟨by omega, by omega, a3⟩
        rw [if_neg hc, if_neg c2, if_neg c3]

theorem setTags_nodup (ns : List (List Nat)) (entries : List (String × List Int)) :
    ∀ (dij : List (String × DijGraph)) (acc : List (String × List Int)),
      (entries.map Prod.fst).Nodup →
      (∀ tag given, (tag, given) ∈ entries →
        (mapGet dij tag).isSome = true ∧ given.length ≤ ns.length) →
      ∃ dij1 wts, setTags ns dij acc entries = (dij1, .ok wts) ∧
        (∀ tag given, (tag, given) ∈ entries → mapGet wts tag = some given ∧
          ∃ d d1, mapGet dij tag = some d ∧ setArcsFrom ns 0 d given = some d1 ∧
            mapGet dij1 tag = some d1) ∧
        (∀ tag, tag ∉ entries.map Prod.fst →
          mapGet wts tag = mapGet acc tag ∧ mapGet dij1 tag = mapGet dij tag) ∧
        ((acc.map Prod.fst).Nodup → (wts.map Prod.fst).Nodup) := by
  induction entries with
  | nil =>
    intro dij acc _ _
    exact ⟨dij, acc, rfl, fun _ _ h => absurd h (List.not_mem_nil _),
      fun _ _ => ⟨rfl, rfl⟩, fun h => h⟩
  | cons e rest ih =>
    intro dij acc hnd hin
    obtain ⟨tag0, given0⟩ := e
    rw [List.map_cons, List.nodup_cons] at hnd
    obtain ⟨hd0, hlen0⟩ := hin tag0 given0 (List.mem_cons_self _ _)
    obtain ⟨d, hd⟩ := Option.isSome_iff_exists.mp hd0
    obtain ⟨d1, hd1, _⟩ := setArcsFrom_spec ns given0 0 d (by omega)
    obtain ⟨dij1, wts, hr, k1, k2, k3⟩ := ih (mapSet dij tag0 d1) (mapSet acc tag0 given0) hnd.2
      (fun tag given h => by
        obtain ⟨a1, a2⟩ := hin tag given (List.mem_cons_of_mem _ h)
        refine ⟨?_, a2⟩
        rw [mapGet_mapSet]
        split
        · rfl
        · exact a1)
    refine ⟨dij1, wts, ?_, ?_, ?_, fun h => k3 (keys_mapSet _ _ _ h)⟩
    · rw [setTags, hd]
      dsimp only
      rw [hd1]
      exact hr
    · intro tag given h
      rcases List.mem_cons.mp h with h2 | h2
      · obtain ⟨rfl, rfl⟩ := Prod.mk.inj h2
        obtain ⟨b1, b2⟩ := k2 tag hnd.1
        rw [mapGet_mapSet, if_pos rfl] at b1 b2
        exact ⟨b1, d, d1, hd, hd1, b2⟩
      · have hne : tag ≠ tag0 := by
          intro he
          subst he
          exact hnd.1 (List.mem_map.mpr ⟨(tag, given), h2, rfl⟩)
        obtain ⟨b1, d2, d3, c1, c2, c3⟩ := k1 tag given h2
        rw [mapGet_mapSet, if_neg hne] at c1
        exact ⟨b1, d2, d3, c1, c2, c3⟩
    · intro tag hnot
      rw [List.map_cons, List.mem_cons, not_or] at hnot
      obtain ⟨b1, b2⟩ := k2 tag hnot.2
      rw [mapGet_mapSet, if_neg hnot.1] at b1 b2
      exact ⟨b1, b2⟩

theorem mapGet_of_mem_nodup {α : Type} (m : List (String × α)) (k : String) (v : α)
    (hnd : (m.map Prod.fst).Nodup) (h : (k, v) ∈ m) : mapGet m k = some v := by
  induction m with
  | nil => exact absurd h (List.not_mem_nil _)
  | cons e rest ih =>
    rw [List.map_cons, List.nodup_cons] at hnd
    rcases List.mem_cons.mp h with h | h
    · rw [← h]
      simp only [mapGet, if_true]
    · have hne : ¬ e.1 = k := by
        intro he
        exact hnd.1 (List.mem_map.mpr ⟨(k, v), h, he.symm⟩)
      simp only [mapGet, hne, if_false]
      exact ih hnd.2 h

theorem mem_of_mapGet {α : Type} (m : List (String × α)) (k : String) (v : α)
    (h : mapGet m k = some v) : (k, v) ∈ m := by
  induction m with
  | nil => simp [mapGet] at h
  | cons e rest ih =>
    simp only [mapGet] at h
    by_cases he : e.1 = k
    · rw [if_pos he] at h
      have : e = (k, v) := Prod.ext he (Option.some.inj h)
      rw [this]
      exact List.mem_cons_self _ _
    · rw [if_neg he] at h
      exact List.mem_cons_of_mem _ (ih h)

theorem addEdges_ok (dw : Int) (pl : List (Point × Nat)) (edges : List (Point × Point))
    (h : ∀ a b, (a, b) ∈ edges → (mapGet pl a).isSome = true ∧ (mapGet pl b).isSome = true) :
    ∀ st : Build, ∃ st1, addEdges dw pl st edges = .ok st1 := by
  induction edges with
  | nil => exact fun st => ⟨st, rfl⟩
  | cons e rest ih =>
    intro st
    obtain ⟨a, b⟩ := e
    obtain ⟨h0, h1⟩ := h a b (List.mem_cons_self _ _)
    obtain ⟨id0, h0⟩ := Option.isSome_iff_exists.mp h0
    obtain ⟨id1, h1⟩ := Option.isSome_iff_exists.mp h1
    rw [addEdges]
    simp only [addEdge, h0, h1]
    exact ih (fun a b hab => h a b (List.mem_cons_of_mem _ hab)) _

theorem New_ok (dw : Int) (names : List String) (verts : List Point)
    (edges : List (Point × Point))
    (h : ∀ a b, (a, b) ∈ edges → (mapGet (buildLookup verts) a).isSome = true ∧
      (mapGet (buildLookup verts) b).isSome = true) :
    ∃ g, New dw names verts edges = .ok g := by
  unfold New
  simp only
  obtain ⟨st, hst⟩ := addEdges_ok dw (buildLookup verts) edges h
    ⟨List.replicate verts.length [],
      names.foldl (fun m tag => mapSet m tag (List.replicate verts.length (0 : Int))) [],
      names.foldl (fun m tag => mapSet m tag (⟨[]⟩ : DijGraph)) []⟩
  rw [hst]
  exact ⟨_, rfl⟩

end Dijkstra

namespace Voronoi

open Dijkstra

/-! ## Save and load of a graph -/

/-- What `Unmarshal` makes of the bytes of a valid graph: it succeeds (but
for `rebuildVoronoi`), the exported fields and the weight arrays are those
saved, the arc from a neighbour `u` of `v` into `v` costs the saved weight
of `v` floored at zero, and the graph loaded is valid. -/
theorem Unmarshal_spec (g : graph) (hv : Valid g) (rf : Bool) :
    ∃ g1, Unmarshal g.Marshal.2 rf = (g1, if rf then some .rebuild else none) ∧
      g1.WeightNames = g.WeightNames ∧ g1.Vertices = g.Vertices ∧ g1.Edges = g.Edges ∧
      g1.Tags = g.Tags ∧
      (∀ tag, mapGet g1.dij.weights tag = mapGet g.dij.weights tag) ∧
      (∀ tag, tag ∈ g.WeightNames → ∀ u v nbrs, g1.dij.neighbours[v]? = some nbrs → u ∈ nbrs →
        ∃ d ws w, mapGet g1.dij.dij tag = some d ∧ mapGet g.dij.weights tag = some ws ∧
          ws[v]? = some w ∧ d.arc u v = some (max w 0)) ∧
      Valid g1 := by
  have hlook : ∀ a b, (a, b) ∈ g.Edges →
      (mapGet (buildLookup g.Vertices) a).isSome = true ∧
      (mapGet (buildLookup g.Vertices) b).isSome = true := by
    intro a b hab
    obtain ⟨u, v, _, _, hu, hv1, _⟩ := hv.topo.edgesOf.edgeNbr a b hab
    rw [hu, hv1]
    exact ⟨rfl, rfl⟩
  obtain ⟨g0, hnew⟩ := New_ok g.DefaultWeight g.WeightNames g.Vertices g.Edges hlook
  obtain ⟨hc0, _, ht0, _⟩ := New_inv _ _ _ _ g0 hnew
  have hns : g0.neighbours.length = g.dij.verts.length := by
    rw [hc0.nsLen, ht0.vertsEq, hv.topo.vertsEq]
  have hent : ∀ tag given, (tag, given) ∈ g.dij.weights →
      (mapGet g0.dij tag).isSome = true ∧ given.length ≤ g0.neighbours.length := by
    intro tag given h
    have hm := mapGet_of_mem_nodup _ _ _ hv.keys h
    have hin : tag ∈ g.WeightNames := (hv.chan.wKeys tag).mp (by rw [hm]; rfl)
    refine ⟨(hc0.dijKeys tag).mpr hin, ?_⟩
    rw [hns, hv.chan.wLen tag given hm]
  obtain ⟨dij1, wts, hr, k1, k2, k3⟩ :=
    setTags_nodup g0.neighbours g.dij.weights g0.dij [] hv.keys hent
  have hsw : SetWeights g0 (some g.dij.weights) =
      ({ g0 with dij := dij1, weights := wts }, none) := by
    simp only [SetWeights, hr]
  have hw : ∀ tag, mapGet wts tag = mapGet g.dij.weights tag := by
    intro tag
    cases hm : mapGet g.dij.weights tag with
    | some ws => exact (k1 tag ws (mem_of_mapGet _ _ _ hm)).1
    | none =>
      have hnot : tag ∉ g.dij.weights.map Prod.fst := by
        intro h
        have := (mapGet_isSome_iff _ _).mpr h
        rw [hm] at this
        exact absurd this (by simp)
      rw [(k2 tag hnot).1]
      rfl
  have hkeys := (setTags_spec g0.neighbours g.dij.weights g0.dij []).1
  rw [hr] at hkeys
  refine ⟨{ decoded g.Marshal.2 with dij := { g0 with dij := dij1, weights := wts } }, ?_,
    rfl, rfl, rfl, rfl, hw, ?_, ?_⟩
  · have hnew1 : New g.Marshal.2.DefaultWeight g.Marshal.2.WeightNames g.Marshal.2.Vertices
        g.Marshal.2.Edges = .ok g0 := hnew
    have hsw1 : SetWeights g0 (some g.Marshal.2.Weights) =
        ({ g0 with dij := dij1, weights := wts }, none) := hsw
    simp only [Unmarshal, hnew1, hsw1]
  · intro tag htag u v nbrs hn hu
    have hn0 : g0.neighbours[v]? = some nbrs := hn
    obtain ⟨ws, hws⟩ := Option.isSome_iff_exists.mp ((hv.chan.wKeys tag).mpr htag)
    obtain ⟨_, d, d1, _, hd1, hd2⟩ := k1 tag ws (mem_of_mapGet _ _ _ hws)
    have hlen : ws.length = g0.neighbours.length := by
      rw [hns, hv.chan.wLen tag ws hws]
    obtain ⟨d2, e1, e2⟩ := setArcsFrom_spec g0.neighbours ws 0 d (by omega)
    rw [hd1] at e1
    have hd : d1 = d2 := Option.some.inj e1
    have hvlt : v < g0.neighbours.length := (List.getElem?_eq_some_iff.mp hn0).1
    have hvw : v < ws.length := by omega
    have hgetD : g0.neighbours.getD v [] = nbrs := by
      rw [List.getD_eq_getElem?_getD, hn0]
      rfl
    refine ⟨d1, ws, ws[v], hd2, hws, List.getElem?_eq_getElem hvw, ?_⟩
    have c : 0 ≤ v ∧ v < 0 + ws.length ∧ u ∈ g0.neighbours.getD v [] :=
      ⟨Nat.zero_le _, by omega, by rw [hgetD]; exact hu⟩
    rw [hd, e2, if_pos c, Nat.sub_zero, List.getD_eq_getElem?_getD,
      List.getElem?_eq_getElem hvw]
    rfl
  · refine ⟨⟨fun tag => ?_, fun tag => ?_, fun tag ws h => ?_, hc0.nsLen⟩,
      ⟨ht0.vertsEq, ht0.lookupEq, ht0.edgesOf⟩, k3 List.nodup_nil⟩
    · have := hkeys tag
      change (mapGet dij1 tag).isSome = true ↔ tag ∈ g.WeightNames
      rw [this]
      exact hc0.dijKeys tag
    · change (mapGet wts tag).isSome = true ↔ tag ∈ g.WeightNames
      rw [hw tag]
      exact hv.chan.wKeys tag
    · have h1 : mapGet wts tag = some ws := h
      rw [hw tag] at h1
      change ws.length = g0.verts.length
      rw [hv.chan.wLen tag ws h1, ht0.vertsEq, hv.topo.vertsEq]

/-- Every reachable graph is valid. -/
theorem reachable_valid (g : graph) (h : Reachable g) : Valid g := by
  induction h with
  | new name weightNames width height defweight seed sites verts edges g h =>
    unfold newGraph at h
    cases hnew : New defweight weightNames verts edges with
    | error err =>
      rw [hnew] at h
      exact absurd h (by simp)
    | ok dij =>
      rw [hnew] at h
      simp only [Except.ok.injEq] at h
      obtain ⟨hc, _, ht, _⟩ := New_inv _ _ _ _ dij hnew
      rw [← h]
      exact ⟨hc, ht, New_keys _ _ _ _ dij hnew⟩
  | tag g name pts _ ih => exact ⟨ih.chan, ih.topo, ih.keys⟩
  | incr g pts delta _ ih =>
    have hk := IncrWeights_keeps g.WeightNames delta pts g.dij
    refine ⟨hk.chan ih.chan, ⟨hk.vertsEq.trans ih.topo.vertsEq,
      hk.lookupEq.trans ih.topo.lookupEq, ?_⟩, IncrWeights_keys delta pts g.dij ih.keys⟩
    change EdgesOf g.Vertices g.Edges (IncrWeights g.dij pts delta).1.neighbours
    rw [hk.nbrsEq]
    exact ih.topo.edgesOf
  | incrOutside g area delta _ ih =>
    have hk := IncrWeightsOutside_keeps g.WeightNames g.dij area delta
    refine ⟨hk.chan ih.chan, ⟨hk.vertsEq.trans ih.topo.vertsEq,
      hk.lookupEq.trans ih.topo.lookupEq, ?_⟩,
      IncrWeights_keys delta _ g.dij ih.keys⟩
    change EdgesOf g.Vertices g.Edges (IncrWeightsOutside g.dij area delta).1.neighbours
    rw [hk.nbrsEq]
    exact ih.topo.edgesOf
  | marshal g _ ih => exact ⟨ih.chan, ih.topo, ih.keys⟩
  | load g rf _ _ ih =>
    obtain ⟨g1, h1, e1, e2, e3, _, _, _, hv1⟩ := Unmarshal_spec g ih rf
    rw [h1]
    exact hv1

/-- C11 as stated fails: with the default weight -1 the saved weight of
`(10,0)` is -1 and the arc `(0,0) → (10,0)` costs -1 in the graph saved, but
after the load the arc costs 0 (the weight array is loaded as saved). -/
theorem unmarshal_floors_negative_weight :
    ∃ g, newGraph "g" ["a"] 10 10 (-1) 1 [] [⟨0, 0⟩, ⟨10, 0⟩] [(⟨0, 0⟩, ⟨10, 0⟩)] = .ok g ∧
      g.Marshal.2.Weights = [("a", [-1, -1])] ∧
      g.dij.weightOf "a" ⟨10, 0⟩ = some (-1) ∧
      g.dij.arcCost "a" ⟨0, 0⟩ ⟨10, 0⟩ = some (-1) ∧
      (Unmarshal g.Marshal.2 false).2 = none ∧
      (Unmarshal g.Marshal.2 false).1.dij.weightOf "a" ⟨10, 0⟩ = some (-1) ∧
      (Unmarshal g.Marshal.2 false).1.dij.arcCost "a" ⟨0, 0⟩ ⟨10, 0⟩ = some 0 :=
  ⟨_, rfl, rfl, rfl, rfl, rfl, rfl, rfl⟩

/-- C11 (amended): for every reachable graph `g`, `Unmarshal` of the bytes
of `g.Marshal()` succeeds (unless `rebuildVoronoi` fails) and leaves a graph
with the vertices, edges and tags of `g` and with the weight array of `g` on
every channel, in which for every channel and every edge `(a, b)` the arc
`a → b` costs the saved weight of `b` floored at zero, and the arc `b → a`
the saved weight of `a` floored at zero. -/
theorem unmarshal_marshal_roundtrip (g : graph) (hg : Reachable g) (rebuildFails : Bool) :
    ∃ g1, Unmarshal g.Marshal.2 rebuildFails =
        (g1, if rebuildFails then some .rebuild else none) ∧
      g1.Vertices = g.Vertices ∧ g1.Edges = g.Edges ∧ g1.Tags = g.Tags ∧
      (∀ tag, mapGet g1.dij.weights tag = mapGet g.dij.weights tag) ∧
      ∀ tag, tag ∈ g.WeightNames → ∀ a b, (a, b) ∈ g.Edges →
        (∃ w, g.dij.weightOf tag b = some w ∧ g1.dij.arcCost tag a b = some (max w 0)) ∧
        (∃ w, g.dij.weightOf tag a = some w ∧ g1.dij.arcCost tag b a = some (max w 0)) := by
  have hv := reachable_valid g hg
  obtain ⟨g1, h1, e0, e1, e2, e3, hw, harc, hv1⟩ := Unmarshal_spec g hv rebuildFails
  refine ⟨g1, h1, e1, e2, e3, hw, ?_⟩
  intro tag htag a b hab
  have hab1 : (a, b) ∈ g1.Edges := by rw [e2]; exact hab
  obtain ⟨u, v, nu, nv, hu, hvv, hnu, hvu, hnv, huv⟩ := hv1.topo.edgesOf.edgeNbr a b hab1
  have hu1 : mapGet g1.dij.pointLookup a = some u := by rw [hv1.topo.lookupEq]; exact hu
  have hv2 : mapGet g1.dij.pointLookup b = some v := by rw [hv1.topo.lookupEq]; exact hvv
  have hu0 : mapGet g.dij.pointLookup a = some u := by
    rw [hv.topo.lookupEq, ← e1]; exact hu
  have hv0 : mapGet g.dij.pointLookup b = some v := by
    rw [hv.topo.lookupEq, ← e1]; exact hvv
  constructor
  · obtain ⟨d, ws, w, hd, hws, hwv, hcost⟩ := harc tag htag u v nv hnv huv
    refine ⟨w, ?_, ?_⟩
    · rw [weightOf_eq _ tag b v ws hv0 hws]
      exact hwv
    · rw [arcCost_eq _ tag a b u v d hd hu1 hv2]
      exact hcost
  · obtain ⟨d, ws, w, hd, hws, hwv, hcost⟩ := harc tag htag v u nu hnu hvu
    refine ⟨w, ?_, ?_⟩
    · rw [weightOf_eq _ tag a u ws hu0 hws]
      exact hwv
    · rw [arcCost_eq _ tag b a v u d hd hv2 hu1]
      exact hcost

/-- Witness of C11: the graph with the edge `(0,0)-(10,0)` and default weight
5, after `IncrWeights` on `(0,0)` and a tag. -/
theorem unmarshal_marshal_roundtrip_witness :
    ∃ g, newGraph "g" ["a"] 10 10 5 1 [] [⟨0, 0⟩, ⟨10, 0⟩] [(⟨0, 0⟩, ⟨10, 0⟩)] = .ok g ∧
      Reachable ((g.IncrWeights [⟨0, 0⟩] [("a", 3)]).1.Tag "t" [⟨0, 0⟩]) ∧
      ∃ g1, Unmarshal ((g.IncrWeights [⟨0, 0⟩] [("a", 3)]).1.Tag "t" [⟨0, 0⟩]).Marshal.2 false =
          (g1, if false = true then some .rebuild else none) ∧
        g1.Vertices = ((g.IncrWeights [⟨0, 0⟩] [("a", 3)]).1.Tag "t" [⟨0, 0⟩]).Vertices ∧
        g1.Edges = ((g.IncrWeights [⟨0, 0⟩] [("a", 3)]).1.Tag "t" [⟨0, 0⟩]).Edges ∧
        g1.Tags = ((g.IncrWeights [⟨0, 0⟩] [("a", 3)]).1.Tag "t" [⟨0, 0⟩]).Tags ∧
        (∀ tag, mapGet g1.dij.weights tag =
          mapGet ((g.IncrWeights [⟨0, 0⟩] [("a", 3)]).1.Tag "t" [⟨0, 0⟩]).dij.weights tag) ∧
        ∀ tag, tag ∈ ((g.IncrWeights [⟨0, 0⟩] [("a", 3)]).1.Tag "t" [⟨0, 0⟩]).WeightNames →
          ∀ a b, (a, b) ∈ ((g.IncrWeights [⟨0, 0⟩] [("a", 3)]).1.Tag "t" [⟨0, 0⟩]).Edges →
          (∃ w, ((g.IncrWeights [⟨0, 0⟩] [("a", 3)]).1.Tag "t" [⟨0, 0⟩]).dij.weightOf tag b =
              some w ∧ g1.dij.arcCost tag a b = some (max w 0)) ∧
          (∃ w, ((g.IncrWeights [⟨0, 0⟩] [("a", 3)]).1.Tag "t" [⟨0, 0⟩]).dij.weightOf tag a =
              some w ∧ g1.dij.arcCost tag b a = some (max w 0)) :=
  ⟨_, rfl,
    Reachable.tag _ _ _ (Reachable.incr _ _ _ (Reachable.new "g" ["a"] 10 10 5 1 [] [⟨0, 0⟩, ⟨10, 0⟩]
      [(⟨0, 0⟩, ⟨10, 0⟩)] _ rfl)),
    unmarshal_marshal_roundtrip _
      (Reachable.tag _ _ _ (Reachable.incr _ _ _ (Reachable.new "g" ["a"] 10 10 5 1 [] [⟨0, 0⟩, ⟨10, 0⟩]
      [(⟨0, 0⟩, ⟨10, 0⟩)] _ rfl)))
      false⟩

end Voronoi

namespace Geography

/-! ## NextEpoch -/

/-- C22 (evaluation at the failing input): for the project `p` at epoch 0
with a mountains canvas and a sea canvas, `NextEpoch` returns no error and
sets the epoch to 1, but it also copies the sea canvas into epoch 1 and
makes a (blank) rain canvas there, neither of which existed under epoch 1
before the call: `copyCanvasBetweenEpoch` lists `sea` and `rain`. -/
theorem nextEpoch_copies_sea_and_rain :
    (NextEpoch (0 : Nat) (fun _ => false) false
      ⟨[("p-0-mountains", 4), ("p-0-sea", 7)], ⟨"p", "world", 0, 1, 10, 10⟩⟩).2 = false ∧
    (NextEpoch (0 : Nat) (fun _ => false) false
      ⟨[("p-0-mountains", 4), ("p-0-sea", 7)], ⟨"p", "world", 0, 1, 10, 10⟩⟩).1.project.Epoch = 1 ∧
    Dijkstra.mapGet [("p-0-mountains", (4 : Nat)), ("p-0-sea", 7)] "p-1-sea" = none ∧
    Dijkstra.mapGet [("p-0-mountains", (4 : Nat)), ("p-0-sea", 7)] "p-1-rain" = none ∧
    Dijkstra.mapGet (NextEpoch (0 : Nat) (fun _ => false) false
      ⟨[("p-0-mountains", 4), ("p-0-sea", 7)], ⟨"p", "world", 0, 1, 10, 10⟩⟩).1.canvases
      "p-1-mountains" = some 4 ∧
    Dijkstra.mapGet (NextEpoch (0 : Nat) (fun _ => false) false
      ⟨[("p-0-mountains", 4), ("p-0-sea", 7)], ⟨"p", "world", 0, 1, 10, 10⟩⟩).1.canvases
      "p-1-sea" = some 7 ∧
    Dijkstra.mapGet (NextEpoch (0 : Nat) (fun _ => false) false
      ⟨[("p-0-mountains", 4), ("p-0-sea", 7)], ⟨"p", "world", 0, 1, 10, 10⟩⟩).1.canvases
      "p-1-rain" = some 0 := by
  refine ⟨?_, ?_, ?_, ?_, ?_, ?_, ?_⟩ <;> decide

/-! ## The wrap of the grid -/

/-- C25 (evaluation at the failing input): in the wrapping grid of 3 by 3
cells, the cell below the bottom-row cell 7 (column 1) is given as 6, the
first cell of the bottom row, and not as the top-row cell 1 of its column;
so `below(above(1)) = 6`.  Above, left and right wrap as claimed. -/
theorem grid_wrap_below_wrong :
    ∃ g, NewGridBucket 30 30 10 true = some g ∧
      (g.indexAboveBelow 7).2 = 6 ∧
      (g.indexAboveBelow 1).1 = 7 ∧
      (g.indexAboveBelow (g.indexAboveBelow 1).1).2 = 6 ∧
      (g.indexLeftRight 3).1 = 5 ∧ (g.indexLeftRight 5).2 = 3 :=
  ⟨_, rfl, by decide, by decide, by decide, by decide, by decide⟩

/-! ## The index of a point in the grid -/

/-- C29 (evaluation at the failing input): in the grid of a world of 25 by 25
with cells of size 10 (2 by 2 cells), the point `(24, 24)` of the world has
column 2, which is not below `gridWidth = 2`, and index 6, outside the 4
buckets: `AddPoint` and `NeighbouringPoints` panic.  The point `(24, 4)` gets
the index 2 of the point `(4, 14)`, which lies in another cell. -/
theorem grid_index_out_of_range :
    ∃ g, NewGridBucket 25 25 10 false = some g ∧
      g.gridWidth = 2 ∧ g.neighbours.length = 4 ∧
      Int.tdiv 24 g.size = 2 ∧ g.index ⟨24, 24⟩ = 6 ∧
      g.AddPoint 0 ⟨24, 24⟩ = none ∧ g.NeighbouringPoints ⟨24, 24⟩ = none ∧
      g.index ⟨24, 4⟩ = 2 ∧ g.index ⟨4, 14⟩ = 2 :=
  ⟨_, rfl, by decide, by decide, by decide, by decide, by decide, by decide, by decide,
    by decide⟩

/-! ## The bands of the rain -/

/-- C26 (evaluation at the failing input): for a world of height 10 and
three headings the generator of `Rain` makes the bands of the rows 0..2,
3..5 and 6..8; the row 9 of the world belongs to no band. -/
theorem rainBands_leave_rows_out :
    rainBands 8 10 [] [Heading.EAST, Heading.WEST, Heading.EAST] =
      some [(⟨0, 0, 8, 3⟩, Heading.EAST), (⟨0, 3, 8, 6⟩, Heading.WEST),
        (⟨0, 6, 8, 9⟩, Heading.EAST)] ∧
    ∀ band, band ∈ [((⟨0, 0, 8, 3⟩ : Rect), Heading.EAST), (⟨0, 3, 8, 6⟩, Heading.WEST),
        (⟨0, 6, 8, 9⟩, Heading.EAST)] → rowInBand band.1 9 = false := by
  constructor
  · decide
  · decide

/-! ## The seeds of the storms -/

/-- C30 (evaluation at the failing input): for the rectangle
`(0,0)-(3,2)` and the heading `SOUTH`, `edgePoints` emits `(0,2), (1,2),
(2,2)`, whose `y` is `r.Max.Y`: none of them lies inside the rectangle, and
each meets the test that ends the walk of a storm at its first step.  For
`EAST` the points have `x = r.Max.X` and are outside as well. -/
theorem edgePoints_outside_rectangle :
    edgePoints ⟨0, 0, 3, 2⟩ .SOUTH = [⟨0, 2⟩, ⟨1, 2⟩, ⟨2, 2⟩] ∧
    (∀ p, p ∈ edgePoints ⟨0, 0, 3, 2⟩ .SOUTH →
      rectContains ⟨0, 0, 3, 2⟩ p = false ∧ stormLeft ⟨0, 0, 3, 2⟩ p = true) ∧
    edgePoints ⟨0, 0, 3, 2⟩ .EAST = [⟨3, 0⟩, ⟨3, 1⟩] ∧
    (∀ p, p ∈ edgePoints ⟨0, 0, 3, 2⟩ .EAST → rectContains ⟨0, 0, 3, 2⟩ p = false) := by
  refine ⟨by decide, ?_, by decide, ?_⟩
  · intro p hp
    have h : p ∈ [(⟨0, 2⟩ : Point), ⟨1, 2⟩, ⟨2, 2⟩] := hp
    simp only [List.mem_cons, List.mem_singleton, List.not_mem_nil, or_false] at h
    rcases h with h | h | h <;> subst h <;> exact ⟨by decide, by decide⟩
  · intro p hp
    have h : p ∈ [(⟨3, 0⟩ : Point), ⟨3, 1⟩] := hp
    simp only [List.mem_cons, List.mem_singleton, List.not_mem_nil, or_false] at h
    rcases h with h | h <;> subst h <;> decide

end Geography

namespace Voronoi

/-! ## The identifier of an edge -/

theorem uniqueStep_some (width : Int) (seen : List ℚ) (edges : List (Point × Point))
    (a b : Point) (eid : ℚ) (h : edgeId width a b = some eid) :
    uniqueStep width (some (seen, edges)) (a, b) =
      if eid ∈ seen then some (seen, edges) else some (eid :: seen, edges ++ [(a, b)]) := by
  unfold uniqueStep
  rw [h]

/-- C28 (evaluation at the failing input): in a world of width 20 the edges
`(0,0)-(1,0)` and `(0,0)-(10,0)` get the same identifier `1/10`, since
`toDecimal` turns both 1 and 10 into `0.1`; the second edge is dropped as
seen although it is another edge. -/
theorem edgeId_collision :
    edgeId 20 ⟨0, 0⟩ ⟨1, 0⟩ = some (1 / 10) ∧ edgeId 20 ⟨0, 0⟩ ⟨10, 0⟩ = some (1 / 10) ∧
    uniqueEdges 20 [(⟨0, 0⟩, ⟨1, 0⟩), (⟨0, 0⟩, ⟨10, 0⟩)] = some [(⟨0, 0⟩, ⟨1, 0⟩)] := by
  have f1 : (if (0 : ℚ) ≤ 1 then ⌊(1 : ℚ)⌋ else ⌈(1 : ℚ)⌉) = 1 := by simp
  have f10 : (if (0 : ℚ) ≤ 10 then ⌊(10 : ℚ)⌋ else ⌈(10 : ℚ)⌉) = 10 := by
    have : ⌊(10 : ℚ)⌋ = 10 := Int.floor_ofNat 10
    simp [this]
  have d1 : digitLoop ((1 : Int).toNat + 1) 1 0 = some 1 := by decide
  have d10 : digitLoop ((10 : Int).toNat + 1) 10 0 = some 2 := by decide
  have t1 : toDecimal 1 = some (1 / 10) := by
    unfold toDecimal
    simp only [f1, d1, Option.map_some']
    norm_num
  have t10 : toDecimal 10 = some (1 / 10) := by
    unfold toDecimal
    simp only [f10, d10, Option.map_some']
    norm_num
  have a0 : Dijkstra.wrapInt (Dijkstra.wrapInt (0 * 20) + 0) = 0 := by decide
  have a1 : Dijkstra.wrapInt (Dijkstra.wrapInt (0 * 20) + 1) = 1 := by decide
  have a10 : Dijkstra.wrapInt (Dijkstra.wrapInt (0 * 20) + 10) = 10 := by decide
  have h1 : edgeId 20 ⟨0, 0⟩ ⟨1, 0⟩ = some (1 / 10) := by
    simp only [edgeId, a0, a1, Int.cast_zero, Int.cast_one, t1]
    norm_num
  have h2 : edgeId 20 ⟨0, 0⟩ ⟨10, 0⟩ = some (1 / 10) := by
    simp only [edgeId, a0, a10, Int.cast_zero, Int.cast_ofNat, t10]
    norm_num
  refine ⟨h1, h2, ?_⟩
  have m1 : (1 / 10 : ℚ) ∉ ([] : List ℚ) := List.not_mem_nil _
  have m2 : (1 / 10 : ℚ) ∈ [(1 / 10 : ℚ)] := List.mem_singleton.mpr rfl
  rw [uniqueEdges, List.foldl_cons, uniqueStep_some 20 [] [] ⟨0, 0⟩ ⟨1, 0⟩ (1 / 10) h1, if_neg m1,
    List.foldl_cons, uniqueStep_some 20 [1 / 10] _ ⟨0, 0⟩ ⟨10, 0⟩ (1 / 10) h2, if_pos m2,
    List.foldl_nil]
  rfl

end Voronoi

namespace Dijkstra

/-! ## IncrWeights and the arcs of the vertex -/

/-- C24 as stated fails: on the graph with the edge `(0,0)-(10,0)` and default
weight 5, `IncrWeights([(0,0)], {a: 3})` makes the weight of `(0,0)` 8 and
puts 8 on the arc `(10,0) → (0,0)`, but the arc `(0,0) → (10,0)` still costs
5, the weight of `(10,0)`. -/
theorem incrWeights_leaves_outgoing_arc :
    ∃ g, New 5 ["a"] [⟨0, 0⟩, ⟨10, 0⟩] [(⟨0, 0⟩, ⟨10, 0⟩)] = .ok g ∧
      (IncrWeights g [⟨0, 0⟩] [("a", 3)]).2 = none ∧
      (IncrWeights g [⟨0, 0⟩] [("a", 3)]).1.weightOf "a" ⟨0, 0⟩ = some 8 ∧
      (IncrWeights g [⟨0, 0⟩] [("a", 3)]).1.arcCost "a" ⟨10, 0⟩ ⟨0, 0⟩ = some 8 ∧
      (IncrWeights g [⟨0, 0⟩] [("a", 3)]).1.arcCost "a" ⟨0, 0⟩ ⟨10, 0⟩ = some 5 :=
  ⟨_, rfl, rfl, rfl, rfl, rfl⟩

/-- C24 (amended): on a graph built by `New` and changed by `IncrWeights`
and `IncrWeightsOutside` calls, for a vertex `v` with weight `w` on a
registered channel `c`, `IncrWeights([v], {c: d})` succeeds, the weight of
`v` becomes `w + d` floored at zero, every arc `u → v` from a neighbour `u`
of `v` carries that new weight, and every arc `v → u` out of `v` to another
vertex keeps its cost. -/
theorem incrWeights_updates_incoming_arcs (dw : Int) (names : List String)
    (verts : List Point) (edges : List (Point × Point)) (g0 : Graph) (calls : List Call)
    (v : Point) (c : String) (d w : Int)
    (hnew : New dw names verts edges = .ok g0) (hcalls : ∀ k, k ∈ calls → k.isIncr = true)
    (hv : v ∈ verts) (hc : c ∈ names)
    (hw : (runCalls g0 calls).weightOf c v = some w) :
    (IncrWeights (runCalls g0 calls) [v] [(c, d)]).2 = none ∧
    (IncrWeights (runCalls g0 calls) [v] [(c, d)]).1.weightOf c v = some (newWeight w d) ∧
    (∀ u, ((v, u) ∈ edges ∨ (u, v) ∈ edges) →
      (IncrWeights (runCalls g0 calls) [v] [(c, d)]).1.arcCost c u v = some (newWeight w d)) ∧
    (∀ u, u ≠ v →
      (IncrWeights (runCalls g0 calls) [v] [(c, d)]).1.arcCost c v u =
        (runCalls g0 calls).arcCost c v u) := by
  obtain ⟨hch, harc, ht⟩ := reached_inv dw names verts edges g0 calls hnew hcalls
  generalize runCalls g0 calls = g at *
  obtain ⟨pid, hpid⟩ := buildLookup_mem verts v hv
  have hpid0 := hpid
  rw [← ht.lookupEq] at hpid
  have hplt : pid < verts.length := buildLookup_lt verts v pid hpid0
  obtain ⟨nbrs, hn⟩ := getElem?_of_lt g.neighbours pid (by rw [hch.nsLen, ht.vertsEq]; exact hplt)
  obtain ⟨d0, hd0⟩ := Option.isSome_iff_exists.mp ((hch.dijKeys c).mpr hc)
  obtain ⟨ws, hws⟩ := Option.isSome_iff_exists.mp ((hch.wKeys c).mpr hc)
  have hx : ws[pid]? = some w := by
    rw [← weightOf_eq g c v pid ws hpid hws]
    exact hw
  have hlt : pid < ws.length := (List.getElem?_eq_some_iff.mp hx).1
  rw [IncrWeights_single g v c d pid nbrs d0 ws w hpid hn hd0 hws hx]
  refine ⟨rfl, ?_, ?_, ?_⟩
  · simp only [Graph.weightOf, Graph.weightAt, hpid, mapGet_mapSet, if_true]
    exact getElem?_set_self ws pid _ hlt
  · intro u hu
    have hmem : ∃ uid, mapGet g.pointLookup u = some uid ∧ uid ∈ nbrs := by
      rcases hu with hu | hu
      · obtain ⟨a, b, na, nb, ha, hb, hna, hba, _, _⟩ := ht.edgesOf.edgeNbr v u hu
        rw [hpid0] at ha
        have he : a = pid := (Option.some.inj ha).symm
        rw [he, hn] at hna
        rw [← Option.some.inj hna] at hba
        exact ⟨b, by rw [ht.lookupEq]; exact hb, hba⟩
      · obtain ⟨a, b, na, nb, ha, hb, _, _, hnb, hab⟩ := ht.edgesOf.edgeNbr u v hu
        rw [hpid0] at hb
        have he : b = pid := (Option.some.inj hb).symm
        rw [he, hn] at hnb
        rw [← Option.some.inj hnb] at hab
        exact ⟨a, by rw [ht.lookupEq]; exact ha, hab⟩
    obtain ⟨uid, huid, hin⟩ := hmem
    simp only [Graph.arcCost, mapGet_mapSet, if_true, hpid, huid, arc_foldl_AddArc, and_true]
    rw [if_pos hin]
  · intro u hne
    simp only [Graph.arcCost, mapGet_mapSet, if_true, hd0, hpid]
    cases hu : mapGet g.pointLookup u with
    | none => rfl
    | some uid =>
      have hid : uid ≠ pid := by
        intro e
        rw [e, ht.lookupEq] at hu
        exact hne (buildLookup_inj verts u v pid hu hpid0)
      simp only [arc_foldl_AddArc]
      rw [if_neg (fun h => hid h.2)]

/-- Witness of C24: the graph with the edge `(0,0)-(10,0)`, delta 3 on `(0,0)`. -/
theorem incrWeights_updates_incoming_arcs_witness :
    ∃ g, New 5 ["a"] [⟨0, 0⟩, ⟨10, 0⟩] [(⟨0, 0⟩, ⟨10, 0⟩)] = .ok g ∧
      (IncrWeights (runCalls g []) [⟨0, 0⟩] [("a", 3)]).1.arcCost "a" ⟨10, 0⟩ ⟨0, 0⟩ =
        some (newWeight 5 3) :=
  ⟨_, rfl, (incrWeights_updates_incoming_arcs 5 ["a"] [⟨0, 0⟩, ⟨10, 0⟩] [(⟨0, 0⟩, ⟨10, 0⟩)] _ []
    ⟨0, 0⟩ "a" 3 5 rfl (fun k hk => absurd hk (List.not_mem_nil k)) (by decide) (by decide)
    rfl).2.2.1 ⟨10, 0⟩ (Or.inl (by decide))⟩

end Dijkstra

namespace Geography

/-! ## The cache of heightmaps -/

/-- C23 as stated fails: with an image that shows how many draw directives
the world has seen, `HeightMap` caches the image 0 for the rectangle; a
successful `AddRavine` then draws a channel, and `cachedHeightmap` for the
same rectangle still returns the image 0 computed before that call, although
the heightmap of the world is now the image 1. -/
theorem heightmap_cache_survives_mutation :
    ∃ g, Dijkstra.New 1 [tagRavines, tagMountains, tagRivers, tagVolcanoes] [⟨0, 0⟩, ⟨10, 0⟩]
        [(⟨0, 0⟩, ⟨10, 0⟩)] = .ok g ∧
      ((Editor.HeightMap (fun w _ => Render.smoothed (some w.drawn.length) false)
        (⟨⟨g, [], [], 0, []⟩, []⟩ : Editor Nat) ⟨0, 0, 20, 20⟩).2.AddRavine
          exactOps (fun _ _ _ => some [0, 1]) (fun _ _ => (1 : Int))
          ⟨false, false, false, [], id, 0⟩ 2 "" ⟨0, 0⟩ ⟨10, 0⟩ 5).1 =
        ([⟨0, 0⟩, ⟨10, 0⟩], none) ∧
      (Editor.cachedHeightmap (fun w _ => Render.smoothed (some w.drawn.length) false)
        ((Editor.HeightMap (fun w _ => Render.smoothed (some w.drawn.length) false)
          (⟨⟨g, [], [], 0, []⟩, []⟩ : Editor Nat) ⟨0, 0, 20, 20⟩).2.AddRavine
            exactOps (fun _ _ _ => some [0, 1]) (fun _ _ => (1 : Int))
            ⟨false, false, false, [], id, 0⟩ 2 "" ⟨0, 0⟩ ⟨10, 0⟩ 5).2 ⟨0, 0, 20, 20⟩).1 =
        (some 0, false) ∧
      (Editor.HeightMap (fun w _ => Render.smoothed (some w.drawn.length) false)
        ((Editor.HeightMap (fun w _ => Render.smoothed (some w.drawn.length) false)
          (⟨⟨g, [], [], 0, []⟩, []⟩ : Editor Nat) ⟨0, 0, 20, 20⟩).2.AddRavine
            exactOps (fun _ _ _ => some [0, 1]) (fun _ _ => (1 : Int))
            ⟨false, false, false, [], id, 0⟩ 2 "" ⟨0, 0⟩ ⟨10, 0⟩ 5).2 ⟨0, 0, 20, 20⟩).1 =
        (some 1, false) :=
  ⟨_, rfl, rfl, rfl, rfl⟩

/-- C23 (amended): no terrain mutation touches the cache of heightmaps:
`AddRavine`, `AddMountainRange`, `AddVolanoes`, `SmoothTerrain` and
`FlattenOutside` leave `hmap` as it was, whether they succeed or not; and a
request for a cached rectangle returns the cached image without error and
without recomputation (whatever the collaborators would render), the editor
staying as it is.  So after a mutation `cachedHeightmap` returns the image
cached before it; an entry changes only when `HeightMap` runs for its
rectangle. -/
theorem heightmap_cache_never_invalidated {I F : Type} [DecidableEq I] (ops : FloatOps F)
    (lib : Dijkstra.DijGraph → Nat → Nat → Option (List Nat)) (dist : Point → Point → F)
    (ch : Chance) (weight count : Int) (tag : String) (src dst : Point) (maxDist : F)
    (radius : Nat) (bounds : Rect) (render : World → Rect → Render I) (e : Editor I) :
    (e.AddRavine ops lib dist ch weight tag src dst maxDist).2.hmap = e.hmap ∧
    (e.AddMountainRange ops lib dist ch weight tag src dst maxDist).2.hmap = e.hmap ∧
    (e.AddVolanoes ops lib dist ch count src dst maxDist).2.hmap = e.hmap ∧
    (e.SmoothTerrain ch radius).2.hmap = e.hmap ∧
    (e.FlattenOutside ch bounds).2.hmap = e.hmap ∧
    (∀ area h, Dijkstra.mapGet e.hmap area = some h →
      e.cachedHeightmap render area = ((h, false), e) ∧
      ((e.AddRavine ops lib dist ch weight tag src dst maxDist).2.cachedHeightmap render area).1 =
        (h, false) ∧
      ((e.AddMountainRange ops lib dist ch weight tag src dst maxDist).2.cachedHeightmap
        render area).1 = (h, false) ∧
      ((e.AddVolanoes ops lib dist ch count src dst maxDist).2.cachedHeightmap render area).1 =
        (h, false) ∧
      ((e.SmoothTerrain ch radius).2.cachedHeightmap render area).1 = (h, false) ∧
      ((e.FlattenOutside ch bounds).2.cachedHeightmap render area).1 = (h, false)) ∧
    (∀ area final err, render e.world area = .smoothed final err →
      Dijkstra.mapGet (e.HeightMap render area).2.hmap area = some final) := by
  have h4 : (e.SmoothTerrain ch radius).2.hmap = e.hmap := by
    unfold Editor.SmoothTerrain
    split <;> rfl
  have h5 : (e.FlattenOutside ch bounds).2.hmap = e.hmap := by
    unfold Editor.FlattenOutside
    split <;> rfl
  have hc : ∀ (e1 : Editor I) (area : Rect) (h : Option I), e1.hmap = e.hmap →
      Dijkstra.mapGet e.hmap area = some h → (e1.cachedHeightmap render area).1 = (h, false) := by
    intro e1 area h he hm
    rw [← he] at hm
    simp only [Editor.cachedHeightmap, hm]
  refine ⟨rfl, rfl, rfl, h4, h5, fun area h hm => ⟨?_, hc _ area h rfl hm, hc _ area h rfl hm,
    hc _ area h rfl hm, hc _ area h h4 hm, hc _ area h h5 hm⟩, fun area final err hr => ?_⟩
  · simp only [Editor.cachedHeightmap, hm]
  · simp only [Editor.HeightMap, hr, Dijkstra.mapGet_mapSet, if_true]

end Geography

namespace Geography

/-! ## The components of the mask -/

theorem landJoin_right (sea : Canvas) (p q : Point) (h : LandJoin sea p q) : isLand sea q := by
  cases h with
  | refl hl => exact hl
  | step _ _ _ _ hl => exact hl

theorem landJoin_left (sea : Canvas) (p q : Point) (h : LandJoin sea p q) : isLand sea p := by
  induction h with
  | refl hl => exact hl
  | step _ _ _ _ _ ih => exact ih

theorem landJoin_trans (sea : Canvas) (p q r : Point) (h1 : LandJoin sea p q)
    (h2 : LandJoin sea q r) : LandJoin sea p r := by
  induction h2 with
  | refl _ => exact h1
  | step a b _ hadj hl ih => exact LandJoin.step p a b ih hadj hl

theorem landJoin_symm (sea : Canvas) (p q : Point) (h : LandJoin sea p q) : LandJoin sea q p := by
  induction h with
  | refl hl => exact LandJoin.refl _ hl
  | step a b hab hadj hl ih =>
    have h1 : LandJoin sea b a :=
      LandJoin.step b b a (LandJoin.refl b hl) (adjacent8_symm a b hadj)
        (landJoin_right sea p a hab)
    exact landJoin_trans sea b a p h1 ih

/-! ## The inner flood fill of determineLand -/

theorem landGrow_refl (bnds : Rect) (st : LandFlood) : LandGrow bnds st st :=
  ⟨⟨[], (List.append_nil _).symm⟩, fun _ hp => hp, Nat.le_refl _⟩

theorem landGrow_trans (bnds : Rect) (a b c : LandFlood) (h1 : LandGrow bnds a b)
    (h2 : LandGrow bnds b c) : LandGrow bnds a c := by
  obtain ⟨⟨e1, he1⟩, hs1, hm1⟩ := h1
  obtain ⟨⟨e2, he2⟩, hs2, hm2⟩ := h2
  refine ⟨⟨e1 ++ e2, ?_⟩, fun p hp => hs2 p (hs1 p hp), Nat.le_trans hm2 hm1⟩
  rw [he2, he1, List.append_assoc]

/-- One visit of a candidate keeps the invariant, only grows the state and
leaves every non-sea candidate other than the centre in `seen`. -/
theorem visitLand_inv (sea0 : Canvas) (start : Point) (seen0 : List Point) (col : Color)
    (hcol : col.B = 0) (next : Point) (st : LandFlood) (c : Point)
    (hinv : LandInv sea0 start seen0 st) (hnext : next ∈ st.stack) (hc : c ∈ around next) :
    LandInv sea0 start seen0 (visitLand sea0.bounds col next st c) ∧
    LandGrow sea0.bounds st (visitLand sea0.bounds col next st c) ∧
    (isLand sea0 c → ¬ (c.X = next.X ∧ c.Y = next.Y) →
      c ∈ (visitLand sea0.bounds col next st c).seen) := by
  have hbox : ∀ q, isLand sea0 q → sea0.bounds.MinX ≤ q.X ∧ q.X < sea0.bounds.MaxX ∧
      sea0.bounds.MinY ≤ q.Y ∧ q.Y < sea0.bounds.MaxY := by
    intro q hq
    have := hq.1
    unfold rectContains at this
    simp only [Bool.and_eq_true, decide_eq_true_eq] at this
    omega
  unfold visitLand
  split_ifs with h1 h2 h3 h4 h5
  · refine ⟨hinv, landGrow_refl _ st, fun hl _ => ?_⟩
    have := hbox c hl
    omega
  · refine ⟨hinv, landGrow_refl _ st, fun hl _ => ?_⟩
    have := hbox c hl
    omega
  · exact ⟨hinv, landGrow_refl _ st, fun _ hne => absurd h3 hne⟩
  · refine ⟨hinv, landGrow_refl _ st, fun hl _ => ?_⟩
    rw [hinv.blue c, hl.2] at h4
    exact absurd h4 (by omega)
  · exact ⟨hinv, landGrow_refl _ st, fun _ _ => h5⟩
  · have hin : rectContains sea0.bounds c = true := by
      unfold rectContains
      simp only [Bool.and_eq_true, decide_eq_true_eq]
      omega
    have hb0 : sea0.B c = 0 := by
      rw [← hinv.blue c]
      omega
    have hland : isLand sea0 c := ⟨hin, hb0⟩
    have hjoin : LandJoin sea0 start c :=
      LandJoin.step start next c (hinv.stackJoin next hnext) (adjacent_of_around next c hc h3)
        hland
    refine ⟨?_, ?_, fun _ _ => List.mem_cons_self _ _⟩
    · refine ⟨?_, ?_, ?_, ?_, ?_, ?_⟩
      · show (st.sea.Set c col).bounds = _
        rw [bounds_Set]
        exact hinv.bounds
      · intro q
        show (st.sea.Set c col).B q = _
        rw [B_Set]
        split_ifs with hq
        · rw [hcol, hq.2, hb0]
        · exact hinv.blue q
      · intro q hq
        exact List.mem_cons_of_mem _ (hinv.keep q hq)
      · intro q hq
        rcases List.mem_cons.mp hq with rfl | hq
        · exact Or.inr hjoin
        · exact hinv.fresh q hq
      · intro q hq
        rcases List.mem_append.mp hq with hq | hq
        · exact hinv.stackJoin q hq
        · rw [List.mem_singleton.mp hq]
          exact hjoin
      · intro q hj hq
        have hq1 : q = c ∨ (q = start ∨ q ∈ st.seen) := by
          rcases hq with hq | hq
          · exact Or.inr (Or.inl hq)
          · rcases List.mem_cons.mp hq with hq | hq
            · exact Or.inl hq
            · exact Or.inr (Or.inr hq)
        rcases hq1 with rfl | hq1
        · exact Or.inl (List.mem_append.mpr (Or.inr (List.mem_singleton.mpr rfl)))
        · rcases hinv.closed q hj hq1 with hs | hr
          · exact Or.inl (List.mem_append.mpr (Or.inl hs))
          · exact Or.inr (fun r ha hl => List.mem_cons_of_mem _ (hr r ha hl))
    · refine ⟨⟨[c], rfl⟩, fun p hp => List.mem_cons_of_mem _ hp, ?_⟩
      unfold landMeasure
      have hmem : c ∈ scanOrder sea0.bounds := (mem_scanOrder _ _).mpr hin
      have := unseen_lt (scanOrder sea0.bounds) st.seen c hmem h5
      simp only [List.length_append, List.length_singleton]
      omega

/-- The visits of one round keep the invariant and leave every non-sea
candidate other than the centre in `seen`. -/
theorem visitLandAll_inv (sea0 : Canvas) (start : Point) (seen0 : List Point) (col : Color)
    (hcol : col.B = 0) (next : Point) (cs : List Point) :
    ∀ st : LandFlood, LandInv sea0 start seen0 st → next ∈ st.stack →
      (∀ c, c ∈ cs → c ∈ around next) →
      LandInv sea0 start seen0 (cs.foldl (visitLand sea0.bounds col next) st) ∧
      LandGrow sea0.bounds st (cs.foldl (visitLand sea0.bounds col next) st) ∧
      (∀ c, c ∈ cs → isLand sea0 c → ¬ (c.X = next.X ∧ c.Y = next.Y) →
        c ∈ (cs.foldl (visitLand sea0.bounds col next) st).seen) := by
  induction cs with
  | nil =>
    intro st hinv _ _
    exact ⟨hinv, landGrow_refl _ st, fun c hc => absurd hc (List.not_mem_nil c)⟩
  | cons c0 rest ih =>
    intro st hinv hnext hcs
    obtain ⟨hinv1, hgrow1, hseen1⟩ :=
      visitLand_inv sea0 start seen0 col hcol next st c0 hinv hnext
        (hcs c0 (List.mem_cons_self _ _))
    have hnext1 : next ∈ (visitLand sea0.bounds col next st c0).stack := by
      obtain ⟨⟨e, he⟩, _, _⟩ := hgrow1
      rw [he]
      exact List.mem_append.mpr (Or.inl hnext)
    obtain ⟨hinv2, hgrow2, hseen2⟩ :=
      ih (visitLand sea0.bounds col next st c0) hinv1 hnext1
        (fun c hc => hcs c (List.mem_cons_of_mem _ hc))
    rw [List.foldl_cons]
    refine ⟨hinv2, landGrow_trans _ _ _ _ hgrow1 hgrow2, ?_⟩
    intro c hc hl hne
    rcases List.mem_cons.mp hc with rfl | hc
    · exact hgrow2.2.1 c (hseen1 hl hne)
    · exact hseen2 c hc hl hne

/-- One round of the flood loop keeps the invariant and lowers the measure. -/
theorem roundLand_inv (sea0 : Canvas) (start : Point) (seen0 : List Point) (col : Color)
    (hcol : col.B = 0) (st : LandFlood) (next : Point) (rest : List Point)
    (hinv : LandInv sea0 start seen0 st) (hst : st.stack = next :: rest) :
    LandInv sea0 start seen0
      { (around next).foldl (visitLand sea0.bounds col next) st with
        stack := popFront ((around next).foldl (visitLand sea0.bounds col next) st).stack } ∧
    landMeasure sea0.bounds
      { (around next).foldl (visitLand sea0.bounds col next) st with
        stack := popFront ((around next).foldl (visitLand sea0.bounds col next) st).stack } + 1 ≤
    landMeasure sea0.bounds st := by
  have hnext : next ∈ st.stack := by
    rw [hst]
    exact List.mem_cons_self _ _
  obtain ⟨hinv1, ⟨⟨extra, hextra⟩, hsub, hmeas⟩, hseen⟩ :=
    visitLandAll_inv sea0 start seen0 col hcol next (around next) st hinv hnext (fun c hc => hc)
  generalize (around next).foldl (visitLand sea0.bounds col next) st = st1 at *
  have hstack : st1.stack = next :: (rest ++ extra) := by
    rw [hextra, hst, List.cons_append]
  have hmem : ∀ x, x ∈ popFront st1.stack ↔ x ∈ rest ++ extra := by
    intro x
    rw [hstack]
    exact mem_popFront next x (rest ++ extra)
  constructor
  · refine ⟨hinv1.bounds, hinv1.blue, hinv1.keep, hinv1.fresh, ?_, ?_⟩
    · intro q hq
      refine hinv1.stackJoin q ?_
      rw [hstack]
      exact List.mem_cons_of_mem _ ((hmem q).mp hq)
    · intro q hj hq
      rcases hinv1.closed q hj hq with hs | hr
      · rw [hstack] at hs
        rcases List.mem_cons.mp hs with rfl | hs
        · refine Or.inr (fun r ha hl => ?_)
          exact hseen r (mem_around q r ha) hl (fun hxy => ha.1 (by
            obtain ⟨rx, ry⟩ := r
            obtain ⟨qx, qy⟩ := q
            simp only at hxy
            rw [hxy.1, hxy.2]))
        · exact Or.inl ((hmem q).mpr hs)
      · exact Or.inr hr
  · unfold landMeasure at hmeas ⊢
    have hlen : (popFront st1.stack).length = (rest ++ extra).length := by
      rw [hstack]
      exact length_popFront next (rest ++ extra)
    simp only [hlen]
    rw [hstack] at hmeas
    simp only [List.length_cons] at hmeas
    omega

/-- With fuel at least the measure, the flood loop ends, with an empty
worklist and the invariant. -/
theorem floodLand_terminates (sea0 : Canvas) (start : Point) (seen0 : List Point) (col : Color)
    (hcol : col.B = 0) :
    ∀ (fuel : Nat) (st : LandFlood), LandInv sea0 start seen0 st →
      landMeasure sea0.bounds st ≤ fuel →
      ∃ st1, floodLand sea0.bounds col fuel st = some st1 ∧ LandInv sea0 start seen0 st1 ∧
        st1.stack = [] := by
  intro fuel
  induction fuel with
  | zero =>
    intro st hinv hm
    cases hst : st.stack with
    | nil =>
      refine ⟨st, ?_, hinv, hst⟩
      unfold floodLand
      simp only [hst]
    | cons next rest =>
      unfold landMeasure at hm
      rw [hst] at hm
      simp only [List.length_cons] at hm
      omega
  | succ n ih =>
    intro st hinv hm
    cases hst : st.stack with
    | nil =>
      refine ⟨st, ?_, hinv, hst⟩
      unfold floodLand
      simp only [hst]
    | cons next rest =>
      obtain ⟨hinv1, hm1⟩ := roundLand_inv sea0 start seen0 col hcol st next rest hinv hst
      obtain ⟨st1, hrun, hinv2, hempty⟩ := ih _ hinv1 (by omega)
      refine ⟨st1, ?_, hinv2, hempty⟩
      rw [← hrun]
      conv_lhs => unfold floodLand
      simp only [hst]

end Geography

namespace Geography

/-! ## The scan of determineLand -/

theorem rangeInt_nodup (lo hi : Int) : (rangeInt lo hi).Nodup := by
  unfold rangeInt
  refine List.Nodup.map_on ?_ (List.nodup_range _)
  intro x _ y _ hxy
  omega

theorem length_rangeInt (lo hi : Int) : (rangeInt lo hi).length = (hi - lo).toNat := by
  unfold rangeInt
  rw [List.length_map, List.length_range]

theorem length_rows (xs : List Int) (ys : List Int) :
    (ys.flatMap (fun dy => xs.map (fun dx => (⟨dx, dy⟩ : Point)))).length =
      ys.length * xs.length := by
  induction ys with
  | nil => simp
  | cons y rest ih =>
    rw [List.flatMap_cons, List.length_append, ih, List.length_map, List.length_cons]
    ring

theorem length_scanOrder (r : Rect) : (scanOrder r).length = rectArea r := by
  unfold scanOrder rectArea
  rw [length_rows, length_rangeInt, length_rangeInt, Nat.mul_comm]

theorem nodup_rows (xs : List Int) (hx : xs.Nodup) (ys : List Int) (hy : ys.Nodup) :
    (ys.flatMap (fun dy => xs.map (fun dx => (⟨dx, dy⟩ : Point)))).Nodup := by
  induction ys with
  | nil => exact List.nodup_nil
  | cons y rest ih =>
    rw [List.nodup_cons] at hy
    rw [List.flatMap_cons, List.nodup_append]
    refine ⟨?_, ih hy.2, ?_⟩
    · refine List.Nodup.map_on ?_ hx
      intro a _ b _ hab
      exact (Point.mk.injEq _ _ _ _ ▸ hab : a = b ∧ y = y).1
    · intro q h1 h2
      obtain ⟨a, _, rfl⟩ := List.mem_map.mp h1
      obtain ⟨y1, hy1, h3⟩ := List.mem_flatMap.mp h2
      obtain ⟨b, _, hb⟩ := List.mem_map.mp h3
      have : y1 = y := (Point.mk.injEq _ _ _ _ ▸ hb : b = a ∧ y1 = y).2
      rw [this] at hy1
      exact hy.1 hy1

theorem scanOrder_nodup (r : Rect) : (scanOrder r).Nodup :=
  nodup_rows _ (rangeInt_nodup _ _) _ (rangeInt_nodup _ _)

/-- When the worklist is empty, every pixel of the component of the start is
the start or seen. -/
theorem landInv_complete (sea0 : Canvas) (start : Point) (seen0 : List Point) (st : LandFlood)
    (hinv : LandInv sea0 start seen0 st) (hempty : st.stack = []) (q : Point)
    (hq : LandJoin sea0 start q) : q = start ∨ q ∈ st.seen := by
  induction hq with
  | refl _ => exact Or.inl rfl
  | step a b hab hadj hl ih =>
    rcases hinv.closed a hab ih with hs | hr
    · rw [hempty] at hs
      exact absurd hs (List.not_mem_nil a)
    · exact Or.inr (hr b hadj hl)

/-- The body of the scan keeps the invariant of the scan, and its flood fill
does not run out of fuel. -/
theorem scanLand_inv (sea0 : Canvas) (done todo : List Point) (p : Point) (st : LandScan)
    (hsplit : scanOrder sea0.bounds = done ++ p :: todo) (hinv : ScanInv sea0 done st) :
    ∃ st1, scanLand sea0.bounds (some st) p = some st1 ∧ ScanInv sea0 (done ++ [p]) st1 := by
  have hnd := scanOrder_nodup sea0.bounds
  rw [hsplit] at hnd
  have hpd : p ∉ done := fun h =>
    (List.nodup_cons.mp (List.nodup_middle.mp hnd)).1 (List.mem_append.mpr (Or.inl h))
  have hpin : rectContains sea0.bounds p = true := by
    rw [← mem_scanOrder, hsplit]
    exact List.mem_append.mpr (Or.inr (List.mem_cons_self _ _))
  have hmono : ∀ m, m ∈ st.found → m.first ∈ done ++ [p] ∧ isLand sea0 m.first := fun m hm =>
    ⟨List.mem_append.mpr (Or.inl (hinv.firstDone m hm).1), (hinv.firstDone m hm).2⟩
  have hsame : ∀ q, q ∈ done ++ [p] → isLand sea0 q → (q ≠ p ∨ ¬ isLand sea0 p ∨ p ∈ st.seen) →
      ∃ m, m ∈ st.found ∧ LandJoin sea0 m.first q := by
    intro q hq hl hc
    rcases List.mem_append.mp hq with hq | hq
    · exact hinv.cover q hq hl
    · rw [List.mem_singleton.mp hq] at hl ⊢
      rcases hc with hc | hc | hc
      · exact absurd (List.mem_singleton.mp hq) hc
      · exact absurd hl hc
      · exact hinv.seenJoin p hc
  unfold scanLand
  by_cases h4 : st.sea.B p > 0
  · refine ⟨st, by simp only [h4, if_true], ?_⟩
    have hnl : ¬ isLand sea0 p := by
      intro hl
      rw [hinv.blue p, hl.2] at h4
      exact absurd h4 (by omega)
    exact ⟨hinv.bounds, hinv.blue, hinv.seenJoin, hmono, hinv.full,
      fun q hq hl => hsame q hq hl (Or.inr (Or.inl hnl)), hinv.least, hinv.apart, hinv.colours⟩
  · by_cases h5 : p ∈ st.seen
    · refine ⟨st, by simp only [h4, h5, if_true, if_false], ?_⟩
      exact ⟨hinv.bounds, hinv.blue, hinv.seenJoin, hmono, hinv.full,
        fun q hq hl => hsame q hq hl (Or.inr (Or.inr h5)), hinv.least, hinv.apart, hinv.colours⟩
    · have hland : isLand sea0 p := ⟨hpin, by rw [← hinv.blue p]; omega⟩
      have hno : ∀ m, m ∈ st.found → ¬ LandJoin sea0 m.first p := by
        intro m hm hj
        rcases hinv.full m hm p hj with e | e
        · exact hpd (e ▸ (hinv.firstDone m hm).1)
        · exact h5 e
      have hdisj : ∀ q, LandJoin sea0 p q → q ∉ st.seen := by
        intro q hq hs
        obtain ⟨m, hm, hj⟩ := hinv.seenJoin q hs
        exact hno m hm (landJoin_trans sea0 _ q p hj (landJoin_symm sea0 p q hq))
      have hinit : LandInv sea0 p st.seen ⟨[p], st.seen, st.sea, 1⟩ := by
        refine ⟨hinv.bounds, hinv.blue, fun q hq => hq, fun q hq => Or.inl hq, ?_, ?_⟩
        · intro q hq
          rw [List.mem_singleton.mp hq]
          exact LandJoin.refl p hland
        · intro q hj hq
          rcases hq with hq | hq
          · exact Or.inl (List.mem_singleton.mpr hq)
          · exact absurd hq (hdisj q hj)
      have hfuel : landMeasure sea0.bounds ⟨[p], st.seen, st.sea, 1⟩ ≤ rectArea sea0.bounds + 1 := by
        unfold landMeasure
        have := List.length_filter_le (fun q => decide (q ∉ st.seen)) (scanOrder sea0.bounds)
        rw [length_scanOrder] at this
        simp only [List.length_singleton]
        omega
      obtain ⟨fl, hrun, hfin, hempty⟩ :=
        floodLand_terminates sea0 p st.seen
          ⟨(splitUint16 (landNumber st.found.length % 65536)).1,
            (splitUint16 (landNumber st.found.length % 65536)).2, 0⟩ rfl
          (rectArea sea0.bounds + 1) _ hinit hfuel
      refine ⟨{ seen := fl.seen, sea := fl.sea,
                found := st.found ++ [⟨fl.size,
                  (splitUint16 (landNumber st.found.length % 65536)).1,
                  (splitUint16 (landNumber st.found.length % 65536)).2, p.X, p.Y⟩] }, ?_, ?_⟩
      · simp only [h4, h5, if_false]
        unfold landNumber at hrun
        rw [hrun]
        rfl
      · refine ⟨hfin.bounds, hfin.blue, ?_, ?_, ?_, ?_, ?_, ?_, ?_⟩
        · intro q hq
          rcases hfin.fresh q hq with h | h
          · obtain ⟨m, hm, hj⟩ := hinv.seenJoin q h
            exact ⟨m, List.mem_append.mpr (Or.inl hm), hj⟩
          · exact ⟨_, List.mem_append.mpr (Or.inr (List.mem_singleton.mpr rfl)), h⟩
        · intro m hm
          rcases List.mem_append.mp hm with hm | hm
          · exact hmono m hm
          · rw [List.mem_singleton.mp hm]
            exact ⟨List.mem_append.mpr (Or.inr (List.mem_singleton.mpr rfl)), hland⟩
        · intro m hm q hj
          rcases List.mem_append.mp hm with hm | hm
          · rcases hinv.full m hm q hj with h | h
            · exact Or.inl h
            · exact Or.inr (hfin.keep q h)
          · rw [List.mem_singleton.mp hm] at hj ⊢
            exact landInv_complete sea0 p st.seen fl hfin hempty q hj
        · intro q hq hl
          by_cases hqp : q = p
          · rw [hqp]
            exact ⟨_, List.mem_append.mpr (Or.inr (List.mem_singleton.mpr rfl)),
              LandJoin.refl p hland⟩
          · obtain ⟨m, hm, hj⟩ := hsame q hq hl (Or.inl hqp)
            exact ⟨m, List.mem_append.mpr (Or.inl hm), hj⟩
        · intro m hm
          rcases List.mem_append.mp hm with hm | hm
          · exact hinv.least m hm
          · rw [List.mem_singleton.mp hm]
            refine ⟨done, todo, hsplit, fun q hj hq => ?_⟩
            obtain ⟨m1, hm1, hj1⟩ := hinv.cover q hq (landJoin_right sea0 _ q hj)
            exact hno m1 hm1 (landJoin_trans sea0 _ q p hj1 (landJoin_symm sea0 p q hj))
        · rw [List.pairwise_append]
          refine ⟨hinv.apart, List.pairwise_singleton _ _, fun a ha b hb => ?_⟩
          rw [List.mem_singleton.mp hb]
          exact hno a ha
        · intro i m hi
          by_cases hlt : i < st.found.length
          · rw [List.getElem?_append_left hlt] at hi
            exact hinv.colours i m hi
          · by_cases heq : i = st.found.length
            · subst heq
              rw [List.getElem?_append_right (Nat.le_refl _), Nat.sub_self] at hi
              simp only [List.getElem?_cons_zero, Option.some.injEq] at hi
              rw [← hi]
            · have hlen : (st.found ++ [(⟨fl.size,
                  (splitUint16 (landNumber st.found.length % 65536)).1,
                  (splitUint16 (landNumber st.found.length % 65536)).2, p.X, p.Y⟩ :
                  Landmass)]).length ≤ i := by
                simp only [List.length_append, List.length_singleton]
                omega
              rw [List.getElem?_eq_none hlen] at hi
              exact absurd hi (by simp)

/-- The scan of the pixels `todo` after the pixels `done` keeps the invariant. -/
theorem scanAll_inv (sea0 : Canvas) (todo : List Point) :
    ∀ (done : List Point) (st : LandScan), scanOrder sea0.bounds = done ++ todo →
      ScanInv sea0 done st →
      ∃ st1, todo.foldl (scanLand sea0.bounds) (some st) = some st1 ∧
        ScanInv sea0 (done ++ todo) st1 := by
  induction todo with
  | nil =>
    intro done st _ hinv
    exact ⟨st, rfl, by rw [List.append_nil]; exact hinv⟩
  | cons p rest ih =>
    intro done st hsplit hinv
    obtain ⟨st1, h1, hinv1⟩ := scanLand_inv sea0 done rest p st hsplit hinv
    obtain ⟨st2, h2, hinv2⟩ := ih (done ++ [p]) st1
      (by rw [hsplit, List.append_assoc, List.singleton_append]) hinv1
    refine ⟨st2, ?_, ?_⟩
    · rw [List.foldl_cons, h1]
      exact h2
    · rw [List.append_assoc, List.singleton_append] at hinv2
      exact hinv2

/-- What `determineLand` returns: it does return, and the scan invariant
holds for its landmasses once every pixel is scanned. -/
theorem determineLand_spec (sea : Canvas) :
    ∃ st, determineLand sea = some st.found ∧ ScanInv sea (scanOrder sea.bounds) st := by
  have h0 : ScanInv sea [] ⟨[], sea, []⟩ := by
    refine ⟨rfl, fun _ => rfl, ?_, ?_, ?_, ?_, ?_, List.Pairwise.nil, ?_⟩
    · intro q hq
      exact absurd hq (List.not_mem_nil q)
    · intro m hm
      exact absurd hm (List.not_mem_nil m)
    · intro m hm
      exact absurd hm (List.not_mem_nil m)
    · intro p hp
      exact absurd hp (List.not_mem_nil p)
    · intro m hm
      exact absurd hm (List.not_mem_nil m)
    · intro i m hi
      simp at hi
  obtain ⟨st, hrun, hinv⟩ := scanAll_inv sea (scanOrder sea.bounds) [] ⟨[], sea, []⟩ rfl h0
  refine ⟨st, ?_, hinv⟩
  unfold determineLand
  rw [hrun]
  rfl

end Geography

namespace Geography

/-! ## The landmasses of determineLand -/

/-- C21: `determineLand` returns, and its landmasses are the 8-connected
components of the non-sea pixels of the mask, one landmass each: every
non-sea pixel lies in the component of the first pixel of a landmass, and of
one landmass only (the `i`-th and the `j`-th landmass share a pixel only when
`i = j`); a non-sea pixel adjacent to a pixel of a landmass, diagonals
included, belongs to the same landmass; and the pixel `(FirstX, FirstY)` of a
landmass is a non-sea pixel met in the scan (rows top to bottom, each row
left to right) before every other pixel of its component. -/
theorem determineLand_one_landmass_per_component (sea : Canvas) :
    ∃ found, determineLand sea = some found ∧
      (∀ p, isLand sea p → ∃ m, m ∈ found ∧ LandJoin sea m.first p) ∧
      (∀ (i j : Nat) (m1 m2 : Landmass) (p : Point), found[i]? = some m1 →
        found[j]? = some m2 → LandJoin sea m1.first p → LandJoin sea m2.first p → i = j) ∧
      (∀ m p q, m ∈ found → LandJoin sea m.first p → adjacent8 p q → isLand sea q →
        LandJoin sea m.first q) ∧
      (∀ m, m ∈ found → isLand sea m.first ∧
        ∃ d t, scanOrder sea.bounds = d ++ m.first :: t ∧
          ∀ q, LandJoin sea m.first q → q ∉ d) := by
  obtain ⟨st, hrun, hinv⟩ := determineLand_spec sea
  refine ⟨st.found, hrun, ?_, ?_, ?_, ?_⟩
  · intro p hp
    exact hinv.cover p ((mem_scanOrder _ _).mpr hp.1) hp
  · intro i j m1 m2 p h1 h2 j1 j2
    have hpw := List.pairwise_iff_getElem.mp hinv.apart
    obtain ⟨hi, e1⟩ := List.getElem?_eq_some_iff.mp h1
    obtain ⟨hj, e2⟩ := List.getElem?_eq_some_iff.mp h2
    have h12 : LandJoin sea m1.first m2.first :=
      landJoin_trans sea _ p _ j1 (landJoin_symm sea _ p j2)
    rcases Nat.lt_trichotomy i j with hlt | heq | hgt
    · have := hpw i j hi hj hlt
      rw [e1, e2] at this
      exact absurd h12 this
    · exact heq
    · have := hpw j i hj hi hgt
      rw [e1, e2] at this
      exact absurd (landJoin_symm sea _ _ h12) this
  · intro m p q _ hj hadj hl
    exact LandJoin.step _ p q hj hadj hl
  · intro m hm
    exact ⟨(hinv.firstDone m hm).2, hinv.least m hm⟩

/-- C27: `determineLand` returns, and if it finds at most 65,535 landmasses,
the `n`-th landmass found (`n = 1, 2, ...`) has the high and the low byte of
the 16-bit counter `n` as its colour code: `ColorR = n / 256` and
`ColorG = n mod 256`, both below 256, which is what `splitUint16` makes of
`n`; so `ColorR * 256 + ColorG = n`, `combineUint16` gives back `n`, and two
landmasses with the same colour code are the same entry of the list. -/
theorem determineLand_colour_codes (sea : Canvas) :
    ∃ found, determineLand sea = some found ∧
      (found.length ≤ 65535 →
        (∀ (n : Nat) (m : Landmass), 1 ≤ n → found[n - 1]? = some m →
          m.ColorR = n / 256 ∧ m.ColorG = n % 256 ∧ m.ColorR < 256 ∧ m.ColorG < 256 ∧
          (m.ColorR, m.ColorG) = splitUint16 n ∧ m.ColorR * 256 + m.ColorG = n ∧
          combineUint16 m.ColorR m.ColorG = n) ∧
        (∀ (i j : Nat) (m1 m2 : Landmass), found[i]? = some m1 → found[j]? = some m2 →
          m1.ColorR = m2.ColorR → m1.ColorG = m2.ColorG → i = j)) := by
  obtain ⟨st, hrun, hinv⟩ := determineLand_spec sea
  refine ⟨st.found, hrun, fun hlen => ?_⟩
  have hcode : ∀ (i : Nat) (m : Landmass), st.found[i]? = some m →
      m.ColorR = (i + 1) / 256 ∧ m.ColorG = (i + 1) % 256 ∧ i + 1 < 65536 := by
    intro i m hi
    have hlt : i < st.found.length := (List.getElem?_eq_some_iff.mp hi).1
    have hc := hinv.colours i m hi
    have hn : landNumber i = i + 1 := by
      unfold landNumber
      rw [if_neg (by omega)]
    rw [hn] at hc
    unfold splitUint16 at hc
    have h1 := (Prod.mk.injEq _ _ _ _ ▸ hc : m.ColorR = _ ∧ m.ColorG = _)
    refine ⟨?_, ?_, by omega⟩
    · rw [h1.1]
      omega
    · rw [h1.2]
      omega
  constructor
  · intro n m hn hm
    obtain ⟨hr, hg, hb⟩ := hcode (n - 1) m hm
    have e : n - 1 + 1 = n := by omega
    rw [e] at hr hg hb
    refine ⟨hr, hg, ?_, ?_, ?_, ?_, ?_⟩
    · rw [hr]
      omega
    · rw [hg]
      omega
    · unfold splitUint16
      rw [hr, hg]
      congr 1
      omega
    · rw [hr, hg]
      omega
    · unfold combineUint16
      rw [hr, hg]
      omega
  · intro i j m1 m2 h1 h2 er eg
    obtain ⟨r1, g1, _⟩ := hcode i m1 h1
    obtain ⟨r2, g2, _⟩ := hcode j m2 h2
    rw [r1, r2] at er
    rw [g1, g2] at eg
    omega

end Geography

end Genesis
